import Mathlib

/-!
Slaking: log stream processing (`src/services/logProcessor.js`).

A shallow embedding of the `LogProcessor` class: level and filter checks,
pattern normalisation, the per-pattern consolidation records with their
timers, the per-stream buffer and its flush policy.

Conventions of the embedding

* JavaScript strings are Lean strings; the regular expressions of the source
  are transcribed into a small backtracking matcher (`Rx`) that covers the
  constructs they use. A character outside the Basic Multilingual Plane is two
  code units in JavaScript and one character here; in both forms it is neither
  a word character nor a member of a class of the source other than the
  negated ones, so the expressions treat both forms alike.
* Numbers that the source compares or subtracts (times in milliseconds,
  `cooldown`, `maxLines`) are integers; counts are natural numbers.
* `Date.now()` and `new Date()` read a clock oracle `Host.clock`; the number
  of reads made so far is part of the state, so successive reads may differ.
* `new RegExp(source, flags)` is a service of the JavaScript runtime and is a
  field of `Host`: it yields the matcher of the compiled expression. The scan
  of `RegExp.prototype.test` over the indices of a text is part of the
  embedding (`regExpTest`).
* `slackService.sendMessage` is a collaborator: every call is appended to
  `LogProcessor.sent`; whether the returned promise is fulfilled or rejected is
  supplied when the awaiting code is resumed. The reference `slackService`
  kept in a worker and in a pattern record is that collaborator and is not a
  field of the embedded objects; neither is the field `stream`, always `null`.
* An `async` function runs synchronously up to its first `await`; the code
  after the `await` of `sendLogBuffer` is a separate step
  (`sendLogBufferResume`) that runs only after the synchronous caller has
  returned.
* `setTimeout` gives a fresh handle and records the callback as pending;
  `fireTimer` runs a pending callback. The mutable objects captured by a
  callback are found again under their key in `logPatterns`, where the handle
  they hold identifies them.
-/

namespace Slaking

/-! ## Strings and the regular expressions of the source -/

/-- ECMAScript `\w` without the unicode flag: `[A-Za-z0-9_]`. -/
def isWordChar (c : Char) : Bool :=
  c.isAlphanum || c == '_'

/-- The `IsWordChar` test of the `\b` assertion on an optional character
(`none` stands for the start or the end of the input). -/
def isWordAt : Option Char → Bool
  | some c => isWordChar c
  | none => false

/-- ECMAScript `\b`: exactly one of the two neighbours is a word character. -/
def isBoundary (prev next : Option Char) : Bool :=
  isWordAt prev != isWordAt next

/-- A character class: ranges of characters, possibly negated. -/
structure CharClass where
  ranges : List (Char × Char)
  negated : Bool := false

/-- Membership in the ranges of a class, case-sensitively. -/
def CharClass.inRanges (k : CharClass) (c : Char) : Bool :=
  k.ranges.any (fun r => r.1.toNat ≤ c.toNat && c.toNat ≤ r.2.toNat)

/-- Class test. With the `i` flag (and no `u` flag) a character matches when
its canonical form equals that of a member; for the ASCII classes of the source
the members with the same canonical form as `c` are `c.toUpper` and
`c.toLower`. -/
def CharClass.test (ic : Bool) (k : CharClass) (c : Char) : Bool :=
  let hit := if ic then k.inRanges c.toUpper || k.inRanges c.toLower else k.inRanges c
  if k.negated then !hit else hit

/-- Literal character test, canonicalising both sides under the `i` flag. -/
def charEq (ic : Bool) (p c : Char) : Bool :=
  if ic then p.toUpper == c.toUpper else p == c

/-- One step of a pattern: a literal, a quantified class `[..]{lo,hi}`
(`hi = none` for an open bound) or the assertion `\b`. -/
inductive Item where
  | chr (c : Char)
  | cls (k : CharClass) (lo : Nat) (hi : Option Nat)
  | wordB

/-- A pattern node: an item, an optional group `( .. )?` or an alternation of
sequences `( .. | .. )`. -/
inductive Node where
  | item (i : Item)
  | opt (body : List Item)
  | alt (branches : List (List Item))

/-- A regular expression: its nodes in sequence and its `i` flag. -/
structure Rx where
  nodes : List Node
  ignoreCase : Bool := false

/-- Length of the longest prefix of `s` made of characters of the class, capped
by the upper bound of the quantifier. -/
def classRun (ic : Bool) (k : CharClass) : Option Nat → List Char → Nat
  | some 0, _ => 0
  | _, [] => 0
  | hi, c :: cs => if k.test ic c then classRun ic k (hi.map (· - 1)) cs + 1 else 0

/-- The character before position `n` of `s`, `prev` when `n = 0`. -/
def prevAfter (prev : Option Char) (s : List Char) : Nat → Option Char
  | 0 => prev
  | n + 1 => match s.get? n with
    | some c => some c
    | none => prev

/-- Greedy choice for a quantified class: try `n` repetitions, then `n - 1`,
down to `lo`, and keep the first count for which the continuation succeeds. -/
def tryCounts {α : Type} (lo : Nat) (prev : Option Char) (s : List Char)
    (k : Option Char → List Char → Option α) : Nat → Option α
  | 0 => if lo = 0 then k prev s else none
  | n + 1 =>
    if n + 1 < lo then none
    else match k (prevAfter prev s (n + 1)) (s.drop (n + 1)) with
      | some r => some r
      | none => tryCounts lo prev s k n

/-- Backtracking match of a sequence of items at the current position; `prev`
is the character just before it. -/
def matchItems {α : Type} (ic : Bool) :
    List Item → Option Char → List Char → (Option Char → List Char → Option α) → Option α
  | [], prev, s, k => k prev s
  | Item.chr p :: rest, _, s, k =>
    match s with
    | c :: cs => if charEq ic p c then matchItems ic rest (some c) cs k else none
    | [] => none
  | Item.wordB :: rest, prev, s, k =>
    if isBoundary prev s.head? then matchItems ic rest prev s k else none
  | Item.cls cl lo hi :: rest, prev, s, k =>
    tryCounts lo prev s (fun p r => matchItems ic rest p r k) (classRun ic cl hi s)

/-- First successful branch of an alternation, in source order. -/
def firstBranch {α : Type} (f : List Item → Option α) : List (List Item) → Option α
  | [] => none
  | b :: bs => match f b with
    | some r => some r
    | none => firstBranch f bs

/-- Backtracking match of a sequence of nodes. -/
def matchNodes {α : Type} (ic : Bool) :
    List Node → Option Char → List Char → (Option Char → List Char → Option α) → Option α
  | [], prev, s, k => k prev s
  | Node.item i :: rest, prev, s, k =>
    matchItems ic [i] prev s (fun p r => matchNodes ic rest p r k)
  | Node.opt body :: rest, prev, s, k =>
    match matchItems ic body prev s (fun p r => matchNodes ic rest p r k) with
    | some r => some r
    | none => matchNodes ic rest prev s k
  | Node.alt branches :: rest, prev, s, k =>
    firstBranch (fun b => matchItems ic b prev s (fun p r => matchNodes ic rest p r k)) branches

/-- Match of the expression starting exactly at the current position: the
number of characters the match consumes. -/
def Rx.matchAt (re : Rx) (prev : Option Char) (s : List Char) : Option Nat :=
  matchNodes re.ignoreCase re.nodes prev s (fun _ r => some (s.length - r.length))

/-- Scan for a match starting at the current position or later. -/
def Rx.testFrom (re : Rx) : Option Char → List Char → Bool
  | prev, [] => (re.matchAt prev []).isSome
  | prev, c :: cs => (re.matchAt prev (c :: cs)).isSome || re.testFrom (some c) cs

/-- The method `RegExp.prototype.test` for an expression without the `g` flag. -/
def Rx.test (re : Rx) (s : String) : Bool :=
  re.testFrom none s.data

/-- The matcher of an expression: whether it matches a text at an index. -/
def Rx.matcher (re : Rx) (text : List Char) (index : Nat) : Bool :=
  (re.matchAt (text.take index).getLast? (text.drop index)).isSome

/-- Worker of `String.prototype.replace` with a `g` expression: `skip` counts the
characters of the current match still to be dropped. -/
def Rx.replaceFrom (re : Rx) (repl : List Char) : Nat → Option Char → List Char → List Char
  | _, prev, [] => match re.matchAt prev [] with
    | some _ => repl
    | none => []
  | skip + 1, _, c :: cs => re.replaceFrom repl skip (some c) cs
  | 0, prev, c :: cs =>
    match re.matchAt prev (c :: cs) with
    | some 0 => repl ++ c :: re.replaceFrom repl 0 (some c) cs
    | some (n + 1) => repl ++ re.replaceFrom repl n (some c) cs
    | none => c :: re.replaceFrom repl 0 (some c) cs

/-- The call `s.replace(re, repl)` for an expression with the `g` flag and a
replacement text without `$` patterns. -/
def Rx.replaceAll (re : Rx) (repl : String) (s : String) : String :=
  ⟨re.replaceFrom repl.data 0 none s.data⟩

/-- Items of a literal word. -/
def lit (w : String) : List Item :=
  w.data.map Item.chr

/-- The class `\d`. -/
def digit : CharClass := { ranges := [('0', '9')] }

/-- White space and line terminators removed by `String.prototype.trim`. -/
def isJsSpace (c : Char) : Bool :=
  let n := c.toNat
  n = 0x09 || n = 0x0A || n = 0x0B || n = 0x0C || n = 0x0D || n = 0x20 || n = 0xA0 ||
  n = 0x1680 || (0x2000 ≤ n && n ≤ 0x200A) || n = 0x2028 || n = 0x2029 || n = 0x202F ||
  n = 0x205F || n = 0x3000 || n = 0xFEFF

/-- The method `String.prototype.trim` on the characters of a string. -/
def trimChars (s : List Char) : List Char :=
  ((s.dropWhile isJsSpace).reverse.dropWhile isJsSpace).reverse

/-- The method `String.prototype.trim`. -/
def trim (s : String) : String :=
  ⟨trimChars s.data⟩

/-- Worker of `split`: `cur` is the current piece, reversed. -/
def splitChars (sep : Char) : List Char → List Char → List (List Char)
  | cur, [] => [cur.reverse]
  | cur, c :: cs => if c = sep then cur.reverse :: splitChars sep [] cs
    else splitChars sep (c :: cur) cs

/-- The call `chunk.split('\n')`. -/
def splitLines (chunk : String) : List String :=
  (splitChars (Char.ofNat 10) [] chunk.data).map String.mk

/-! ## Levels and filters -/

/-- The table `levelPatterns` of `extractLogLevel`, in source order. -/
def levelPatterns : List (Rx × String) :=
  [ ({ nodes := [.item .wordB, .alt [lit "ERROR", lit "FATAL", lit "CRITICAL"], .item .wordB],
       ignoreCase := true }, "error"),
    ({ nodes := [.item .wordB, .alt [lit "WARN", lit "WARNING"], .item .wordB],
       ignoreCase := true }, "warn"),
    ({ nodes := [.item .wordB, .alt [lit "INFO", lit "INFORMATION"], .item .wordB],
       ignoreCase := true }, "info"),
    ({ nodes := [.item .wordB, .alt [lit "DEBUG", lit "TRACE"], .item .wordB],
       ignoreCase := true }, "debug") ]

/-- The loop of `extractLogLevel` over the table. -/
def firstLevel (line : String) : List (Rx × String) → String
  | [] => "info"
  | (pattern, level) :: rest => if pattern.test line then level else firstLevel line rest

/-- Severity of a line: the first pattern of the table that matches, `info`
when none does. -/
def extractLogLevel (line : String) : String :=
  firstLevel line levelPatterns

/-- The object literal `levels` of `meetsLogLevel`, as the properties that it
defines itself; `none` is a name that the literal does not define. -/
def levels (name : String) : Option Nat :=
  if name = "debug" then some 0
  else if name = "info" then some 1
  else if name = "warn" then some 2
  else if name = "error" then some 3
  else none

/-- The members that an object literal inherits from `Object.prototype`, each
with the text that a relational operator reduces it to: the source text of a
native function as V8 prints it, and `[object Object]` for the prototype
object that `__proto__` yields. -/
def objectPrototype : List (String × String) :=
  [ ("constructor", "function Object() \x7b [native code] \x7d"),
    ("__defineGetter__", "function __defineGetter__() \x7b [native code] \x7d"),
    ("__defineSetter__", "function __defineSetter__() \x7b [native code] \x7d"),
    ("hasOwnProperty", "function hasOwnProperty() \x7b [native code] \x7d"),
    ("__lookupGetter__", "function __lookupGetter__() \x7b [native code] \x7d"),
    ("__lookupSetter__", "function __lookupSetter__() \x7b [native code] \x7d"),
    ("isPrototypeOf", "function isPrototypeOf() \x7b [native code] \x7d"),
    ("propertyIsEnumerable", "function propertyIsEnumerable() \x7b [native code] \x7d"),
    ("toString", "function toString() \x7b [native code] \x7d"),
    ("valueOf", "function valueOf() \x7b [native code] \x7d"),
    ("__proto__", "[object Object]"),
    ("toLocaleString", "function toLocaleString() \x7b [native code] \x7d") ]

/-- A value read from the object `levels`, as a relational operator sees it: a
number, the text of an inherited member, or `undefined`. -/
inductive LevelValue where
  | number (n : Nat)
  | text (s : String)
  | undefined
  deriving DecidableEq, Repr

/-- The property access `levels[name]`: a property of the literal itself,
else a member inherited from `Object.prototype`, else `undefined`. The name
`none` is a missing `config.level`, read as the key `undefined`, which neither
object defines. -/
def levelsAt (name : Option String) : LevelValue :=
  match name with
  | none => LevelValue.undefined
  | some n =>
    match levels n with
    | some v => LevelValue.number v
    | none =>
      match objectPrototype.lookup n with
      | some s => LevelValue.text s
      | none => LevelValue.undefined

/-- The order `<` of JavaScript on two strings, unit by unit. -/
def textLess : List Char → List Char → Bool
  | _, [] => false
  | [], _ :: _ => true
  | a :: as, b :: bs =>
    if a.toNat < b.toNat then true
    else if b.toNat < a.toNat then false
    else textLess as bs

/-- The operator `>=` on two values read from `levels`: the order of numbers
on two numbers, the order of strings on two texts; in every other case one
operand converts to `NaN` (`undefined`, or a text against a number) and the
result is false. -/
def greaterEqual : LevelValue → LevelValue → Bool
  | LevelValue.number a, LevelValue.number r => decide (r ≤ a)
  | LevelValue.text a, LevelValue.text r => !textLess a.data r.data
  | _, _ => false

/-- The comparison `levels[actualLevel] >= levels[requiredLevel]`.
`requiredLevel = none` is a missing `config.level`. -/
def meetsLogLevel (actualLevel : String) (requiredLevel : Option String) : Bool :=
  greaterEqual (levelsAt (some actualLevel)) (levelsAt requiredLevel)

/-- Per-stream configuration built by `setupContainerLogStreaming`. -/
structure Config where
  namespace_ : String := ""
  podName : String := ""
  containerName : String := ""
  channel : String := "#general"
  filters : Option String := some ".*"
  level : Option String := some "info"
  maxLines : Int := 10
  cooldown : Int := 60
  deriving DecidableEq, Repr

/-- Services of the JavaScript runtime used by the processor: the clock read by
`Date.now()` / `new Date()` (value of the n-th read, in milliseconds) and the
constructor `new RegExp(source, flags)`, which yields the matcher of the
compiled expression (whether it matches a text at an index) or `none` when it
throws a `SyntaxError`. -/
structure Host where
  clock : Nat → Int
  regExp : String → String → Option (List Char → Nat → Bool)

/-- The method `RegExp.prototype.test` of an expression without the flags `g`
and `y`: the search starts at index 0 and the matcher is tried at each index
of the text in turn, up to its length. -/
def regExpTest (matcher : List Char → Nat → Bool) (text : String) : Bool :=
  (List.range (text.data.length + 1)).any (fun index => matcher text.data index)

/-- Decide whether a line passes the level check and the filter of a stream. -/
def shouldProcessLine (h : Host) (line : String) (config : Config) : Bool :=
  let level := extractLogLevel line
  if !meetsLogLevel level config.level then false
  else
    match config.filters with
    | none => true
    | some filters =>
      if filters ≠ "" ∧ filters ≠ ".*" then
        match h.regExp filters "i" with
        | some regex => if !regExpTest regex line then false else true
        | none => false
      else true

/-! ## Pattern normalisation -/

/-- The class `[0-9a-f]`. -/
def hexLower : CharClass := { ranges := [('0', '9'), ('a', 'f')] }

/-- The class `[A-Za-z0-9+/]`. -/
def base64 : CharClass := { ranges := [('A', 'Z'), ('a', 'z'), ('0', '9'), ('+', '+'), ('/', '/')] }

/-- The double quote character. -/
def dquote : Char := Char.ofNat 34

/-- The single quote character. -/
def squote : Char := Char.ofNat 39

/-- A class quantified `{n}`. -/
def exactly (k : CharClass) (n : Nat) : Node :=
  .item (.cls k n (some n))

/-- A literal character as a node. -/
def ch (c : Char) : Node :=
  .item (.chr c)

/-- ISO timestamps: `\d{4}-\d{2}-\d{2}T\d{2}:\d{2}:\d{2}(\.\d{3})?Z?`. -/
def rxTimestamp : Rx :=
  { nodes := [exactly digit 4, ch '-', exactly digit 2, ch '-', exactly digit 2, ch 'T',
      exactly digit 2, ch ':', exactly digit 2, ch ':', exactly digit 2,
      .opt [.chr '.', .cls digit 3 (some 3)],
      .item (.cls { ranges := [('Z', 'Z')] } 0 (some 1))] }

/-- IPv4 addresses: `\b\d{1,3}\.\d{1,3}\.\d{1,3}\.\d{1,3}\b`. -/
def rxIp : Rx :=
  { nodes := [.item .wordB, .item (.cls digit 1 (some 3)), ch '.', .item (.cls digit 1 (some 3)),
      ch '.', .item (.cls digit 1 (some 3)), ch '.', .item (.cls digit 1 (some 3)),
      .item .wordB] }

/-- UUIDs, case-insensitively:
`\b[0-9a-f]{8}-[0-9a-f]{4}-[0-9a-f]{4}-[0-9a-f]{4}-[0-9a-f]{12}\b`. -/
def rxUuid : Rx :=
  { nodes := [.item .wordB, exactly hexLower 8, ch '-', exactly hexLower 4, ch '-',
      exactly hexLower 4, ch '-', exactly hexLower 4, ch '-', exactly hexLower 12,
      .item .wordB],
    ignoreCase := true }

/-- Long identifiers: `\b\d{10,}\b`. -/
def rxId : Rx :=
  { nodes := [.item .wordB, .item (.cls digit 10 none), .item .wordB] }

/-- Hash-like tokens: `\b[A-Za-z0-9+/]{20,}={0,2}\b`. -/
def rxHash : Rx :=
  { nodes := [.item .wordB, .item (.cls base64 20 none),
      .item (.cls { ranges := [('=', '=')] } 0 (some 2)), .item .wordB] }

/-- Numbers of four digits or more: `\b\d{4,}\b`. -/
def rxNumber : Rx :=
  { nodes := [.item .wordB, .item (.cls digit 4 none), .item .wordB] }

/-- A quoted string: the quote, `[^q]*`, the quote. -/
def rxQuoted (q : Char) : Rx :=
  { nodes := [ch q, .item (.cls { ranges := [(q, q)], negated := true } 0 none), ch q] }

/-- Normalise a line into its pattern: the replacements of the source, in
order, then `trim`. -/
def extractLogPattern (line : String) : String :=
  let pattern :=
    (rxQuoted squote).replaceAll "<STRING>" <|
    (rxQuoted dquote).replaceAll "<STRING>" <|
    rxNumber.replaceAll "<NUMBER>" <|
    rxHash.replaceAll "<HASH>" <|
    rxId.replaceAll "<ID>" <|
    rxUuid.replaceAll "<UUID>" <|
    rxIp.replaceAll "<IP>" <|
    rxTimestamp.replaceAll "<TIMESTAMP>" line
  trim pattern

/-- Key of a pattern record: the stream key, a colon, the pattern. -/
def getPatternKey (streamKey pattern : String) : String :=
  streamKey ++ ":" ++ pattern

/-! ## State of the processor -/

/-- An entry of a stream buffer; `timestamp` is the instant that the source
stores as an ISO string and reads back with `getTime()`. -/
structure LogEntry where
  timestamp : Int
  line : String
  pod : String
  container : String
  namespace_ : String
  deriving DecidableEq, Repr

/-- The content handed to `slackService.sendMessage`: the data from which the
text and blocks of the message are built. -/
inductive Message where
  | logs (entries : List LogEntry) (highestLevel : String) (sentAt : Int)
  | consolidation (pattern level : String) (count : Nat) (duration lastSeen : Int)
  | stopped (pattern level : String) (count : Nat) (resolvedAt : Int)
  deriving DecidableEq, Repr

/-- One call `slackService.sendMessage(channel, message, config)`. -/
structure SlackCall where
  channel : String
  message : Message
  config : Config
  deriving DecidableEq, Repr

/-- The callback of a pending `setTimeout`. -/
inductive TimerTask where
  | consolidation (patternKey : String)
  | stopped (patternKey : String)
  | poll (streamKey : String)
  deriving DecidableEq, Repr

/-- The object `consolidationConfig`. -/
structure ConsolidationConfig where
  minRepeatCount : Nat := 10
  consolidationDelay : Int := 120000
  summaryTimeout : Int := 900000
  enableStoppedMessages : Bool := true
  deriving DecidableEq, Repr

/-- A record of `logPatterns`; a timer field holds the handle returned by
`setTimeout`, `none` for `null`. -/
structure PatternData where
  pattern : String
  count : Nat
  isConsolidated : Bool
  isSuppressed : Bool
  lastSeen : Int
  config : Config
  consolidationTimer : Option Nat
  stoppedTimer : Option Nat
  deriving DecidableEq, Repr

/-- A worker of `activeStreams`; `interval` holds the handle of the poll
timer. -/
structure LogStream where
  config : Config
  buffer : List LogEntry
  lastSent : Int
  isActive : Bool
  interval : Option Nat
  deriving DecidableEq, Repr

/-- Lookup in a JavaScript `Map` kept as an association list in insertion
order. -/
def mapGet {β : Type} (m : List (String × β)) (key : String) : Option β :=
  (m.find? (fun e => e.1 == key)).map Prod.snd

/-- The method `Map.prototype.set`: replace the value in place, or append. -/
def mapSet {β : Type} : List (String × β) → String → β → List (String × β)
  | [], key, v => [(key, v)]
  | e :: rest, key, v => if e.1 == key then (key, v) :: rest else e :: mapSet rest key v

/-- The method `Map.prototype.delete`. -/
def mapDelete {β : Type} (m : List (String × β)) (key : String) : List (String × β) :=
  m.filter (fun e => !(e.1 == key))

/-- State of a `LogProcessor` together with what it has handed to its
environment: the timers it has armed, the calls it has made to
`slackService.sendMessage` (oldest first) and the invocations of
`sendLogBuffer` suspended at their `await` (oldest first, by stream key). -/
structure LogProcessor where
  activeStreams : List (String × LogStream) := []
  logPatterns : List (String × PatternData) := []
  consolidationConfig : ConsolidationConfig := {}
  reads : Nat := 0
  nextTimer : Nat := 0
  timers : List (Nat × TimerTask) := []
  sent : List SlackCall := []
  pending : List String := []
  deriving DecidableEq, Repr

/-- One read of the clock. -/
def dateNow (h : Host) (p : LogProcessor) : Int × LogProcessor :=
  (h.clock p.reads, { p with reads := p.reads + 1 })

/-- The call `setTimeout(task, delay)`: a fresh handle, the task pending. -/
def setTimeout (p : LogProcessor) (task : TimerTask) : Nat × LogProcessor :=
  (p.nextTimer, { p with nextTimer := p.nextTimer + 1, timers := p.timers ++ [(p.nextTimer, task)] })

/-- The call `clearTimeout(handle)`. -/
def clearTimeout (p : LogProcessor) (handle : Nat) : LogProcessor :=
  { p with timers := p.timers.filter (fun t => !(t.1 == handle)) }

/-! ## Consolidation records -/

/-- Arm the consolidation timer of a record, clearing an existing one. -/
def startConsolidation (p : LogProcessor) (patternKey : String) (patternData : PatternData) :
    PatternData × LogProcessor :=
  let p1 := match patternData.consolidationTimer with
    | some t => clearTimeout p t
    | none => p
  let (t, p2) := setTimeout p1 (TimerTask.consolidation patternKey)
  ({ patternData with consolidationTimer := some t }, p2)

/-- Record one occurrence of a line of a stream and return its record. -/
def trackLogPattern (h : Host) (p : LogProcessor) (streamKey line : String) (config : Config) :
    PatternData × LogProcessor :=
  let pattern := extractLogPattern line
  let patternKey := getPatternKey streamKey pattern
  let (patternData, p1) :=
    match mapGet p.logPatterns patternKey with
    | some patternData => (patternData, p)
    | none =>
      let (now, p0) := dateNow h p
      let patternData : PatternData :=
        { pattern := pattern, count := 0, isConsolidated := false, isSuppressed := false,
          lastSeen := now, config := config, consolidationTimer := none, stoppedTimer := none }
      (patternData, { p0 with logPatterns := mapSet p0.logPatterns patternKey patternData })
  let (now, p2) := dateNow h p1
  let patternData := { patternData with lastSeen := now }
  let (patternData, p3) :=
    if !patternData.isSuppressed then
      let patternData := { patternData with count := patternData.count + 1 }
      if !patternData.isConsolidated &&
          decide (p2.consolidationConfig.minRepeatCount ≤ patternData.count) then
        let (patternData, p3) := startConsolidation p2 patternKey patternData
        ({ patternData with isConsolidated := true, isSuppressed := true }, p3)
      else (patternData, p2)
    else (patternData, p2)
  (patternData, { p3 with logPatterns := mapSet p3.logPatterns patternKey patternData })

/-- The data of the consolidation summary; `Math.round` of the duration in
seconds is the floor of the value plus one half. -/
def formatConsolidationMessage (now : Int) (patternData : PatternData) : Message :=
  Message.consolidation patternData.pattern (extractLogLevel patternData.pattern)
    patternData.count ((now - patternData.lastSeen + 500) / 1000) patternData.lastSeen

/-- The data of the resolution message. -/
def formatStoppedMessage (now : Int) (patternData : PatternData) : Message :=
  Message.stopped patternData.pattern (extractLogLevel patternData.pattern)
    patternData.count now

/-- Body of the consolidation timer. `SlackService.sendMessage` contains no
`await`, so its promise is settled when it returns and the code after the
`await` runs before any other timer or poll; `ok` tells whether the promise
was fulfilled. The record is the one stored under the key. -/
def sendConsolidationSummary (h : Host) (p : LogProcessor) (patternKey : String) (ok : Bool) :
    LogProcessor :=
  match mapGet p.logPatterns patternKey with
  | none => p
  | some patternData =>
    let (now, p1) := dateNow h p
    let message := formatConsolidationMessage now patternData
    let call : SlackCall := ⟨patternData.config.channel, message, patternData.config⟩
    let p2 := { p1 with sent := p1.sent ++ [call] }
    if ok then
      let patternData :=
        { patternData with count := 0, isConsolidated := false, consolidationTimer := none }
      { p2 with logPatterns := mapSet p2.logPatterns patternKey patternData }
    else p2

/-- Arm the resolution timer of a record, unless stopped messages are off. -/
def scheduleStoppedMessage (p : LogProcessor) (patternKey : String) (patternData : PatternData) :
    PatternData × LogProcessor :=
  if !p.consolidationConfig.enableStoppedMessages then (patternData, p)
  else
    let p1 := match patternData.stoppedTimer with
      | some t => clearTimeout p t
      | none => p
    let (t, p2) := setTimeout p1 (TimerTask.stopped patternKey)
    ({ patternData with stoppedTimer := some t }, p2)

/-- Body of the resolution timer, with the outcome `ok` of the awaited
`sendMessage`: on success the record is deleted. -/
def sendStoppedMessage (h : Host) (p : LogProcessor) (patternKey : String) (ok : Bool) :
    LogProcessor :=
  match mapGet p.logPatterns patternKey with
  | none => p
  | some patternData =>
    let (now, p1) := dateNow h p
    let message := formatStoppedMessage now patternData
    let call : SlackCall := ⟨patternData.config.channel, message, patternData.config⟩
    let p2 := { p1 with sent := p1.sent ++ [call] }
    if ok then { p2 with logPatterns := mapDelete p2.logPatterns patternKey }
    else p2

/-- The test of `checkForStoppedPatterns` on one record. -/
def isStale (p : LogProcessor) (streamKey : String) (now : Int) (patternKey : String)
    (patternData : PatternData) : Bool :=
  (streamKey ++ ":").data.isPrefixOf patternKey.data &&
  patternData.stoppedTimer.isNone &&
  decide (now - patternData.lastSeen > p.consolidationConfig.summaryTimeout)

/-- The loop of `checkForStoppedPatterns` over the keys present at its start. -/
def checkStoppedLoop (streamKey : String) (now : Int) : List String → LogProcessor → LogProcessor
  | [], p => p
  | patternKey :: rest, p =>
    match mapGet p.logPatterns patternKey with
    | none => checkStoppedLoop streamKey now rest p
    | some patternData =>
      if isStale p streamKey now patternKey patternData then
        let (patternData, p1) := scheduleStoppedMessage p patternKey patternData
        checkStoppedLoop streamKey now rest
          { p1 with logPatterns := mapSet p1.logPatterns patternKey patternData }
      else checkStoppedLoop streamKey now rest p

/-- Arm a resolution timer for every record of the stream that has none and
was last seen more than `summaryTimeout` ago. -/
def checkForStoppedPatterns (h : Host) (p : LogProcessor) (streamKey : String) : LogProcessor :=
  let (now, p1) := dateNow h p
  checkStoppedLoop streamKey now (p1.logPatterns.map Prod.fst) p1

/-- A timer fires: it stops pending and its callback runs on the record that
holds its handle (`ok` is the outcome of the `sendMessage` it awaits). The
callback of a poll timer needs the text read from the container: it is
`processLogChunk` followed by `checkForStoppedPatterns`, and the timer stays
armed. -/
def fireTimer (h : Host) (p : LogProcessor) (handle : Nat) (ok : Bool) : LogProcessor :=
  match p.timers.find? (fun t => t.1 == handle) with
  | none => p
  | some (_, task) =>
    let p1 := clearTimeout p handle
    match task with
    | TimerTask.consolidation patternKey =>
      match mapGet p1.logPatterns patternKey with
      | some patternData =>
        if patternData.consolidationTimer = some handle then
          sendConsolidationSummary h p1 patternKey ok
        else p1
      | none => p1
    | TimerTask.stopped patternKey =>
      match mapGet p1.logPatterns patternKey with
      | some patternData =>
        if patternData.stoppedTimer = some handle then sendStoppedMessage h p1 patternKey ok
        else p1
      | none => p1
    | TimerTask.poll _ => p

/-! ## Stream buffers -/

/-- The table `levelPriority` of `getHighestLogLevel`, with `|| 0`. -/
def levelPriority (level : String) : Nat :=
  if level = "error" then 4
  else if level = "warn" then 3
  else if level = "info" then 2
  else if level = "debug" then 1
  else 0

/-- The loop of `getHighestLogLevel`. -/
def highestFrom : List String → String → Nat → String
  | [], highest, _ => highest
  | level :: rest, highest, maxPriority =>
    if levelPriority level > maxPriority then highestFrom rest level (levelPriority level)
    else highestFrom rest highest maxPriority

/-- The most severe level of a list, `info` for an empty list. -/
def getHighestLogLevel (lvls : List String) : String :=
  highestFrom lvls "info" 0

/-- The data of a buffer message: its entries, the level of its header and the
instant of its footer. -/
def formatLogMessage (now : Int) (logEntries : List LogEntry) : Message :=
  Message.logs logEntries (getHighestLogLevel (logEntries.map (fun e => extractLogLevel e.line))) now

/-- The flush policy: cooldown first, then size, then age of the oldest entry. -/
def shouldSendBuffer (h : Host) (p : LogProcessor) (logStream : LogStream) : Bool × LogProcessor :=
  let (now, p1) := dateNow h p
  let cooldownMs := logStream.config.cooldown * 1000
  if now - logStream.lastSent < cooldownMs then (false, p1)
  else if (logStream.buffer.length : Int) ≥ logStream.config.maxLines then (true, p1)
  else
    match logStream.buffer.head? with
    | some oldest => (decide (now - oldest.timestamp > 30000), p1)
    | none => (false, p1)

/-- The part of `sendLogBuffer` that runs when it is called: with a non-empty
buffer the message is built and handed to `sendMessage`, and the function is
suspended at its `await`. The buffer and `lastSent` are not touched here. -/
def sendLogBuffer (h : Host) (p : LogProcessor) (streamKey : String) (logStream : LogStream) :
    LogProcessor :=
  if logStream.buffer.length = 0 then p
  else
    let (now, p1) := dateNow h p
    let message := formatLogMessage now logStream.buffer
    let call : SlackCall := ⟨logStream.config.channel, message, logStream.config⟩
    { p1 with sent := p1.sent ++ [call], pending := p1.pending ++ [streamKey] }

/-- The part of `sendLogBuffer` after its `await`, for the worker registered
under the key: on success the buffer is emptied and `lastSent` is the
current time; on failure the buffer is kept and `lastSent` is one minute
ahead. -/
def sendLogBufferResume (h : Host) (p : LogProcessor) (streamKey : String) (ok : Bool) :
    LogProcessor :=
  match mapGet p.activeStreams streamKey with
  | none => p
  | some logStream =>
    let (now, p1) := dateNow h p
    let logStream :=
      if ok then { logStream with buffer := [], lastSent := now }
      else { logStream with lastSent := now + 60000 }
    { p1 with activeStreams := mapSet p1.activeStreams streamKey logStream }

/-- Resume the suspended `sendLogBuffer` invocations, oldest first; the list
gives the outcome of the awaited `sendMessage` of each (fulfilled when the
list runs out). -/
def resumePending (h : Host) : List String → List Bool → LogProcessor → LogProcessor
  | [], _, p => p
  | streamKey :: rest, oks, p =>
    resumePending h rest oks.tail (sendLogBufferResume h p streamKey (oks.head?.getD true))

/-- Run every suspended `sendLogBuffer` to its end. -/
def settle (h : Host) (p : LogProcessor) (oks : List Bool) : LogProcessor :=
  resumePending h p.pending oks { p with pending := [] }

/-- Body of the loop of `processLogChunk` for one line. -/
def processLine (h : Host) (streamKey : String) (p : LogProcessor) (line : String) : LogProcessor :=
  match mapGet p.activeStreams streamKey with
  | none => p
  | some logStream =>
    if shouldProcessLine h line logStream.config then
      let (patternData, p1) := trackLogPattern h p streamKey line logStream.config
      if !patternData.isConsolidated then
        let (now, p2) := dateNow h p1
        let entry : LogEntry :=
          { timestamp := now, line := trim line, pod := logStream.config.podName,
            container := logStream.config.containerName,
            namespace_ := logStream.config.namespace_ }
        let logStream := { logStream with buffer := logStream.buffer ++ [entry] }
        let p3 := { p2 with activeStreams := mapSet p2.activeStreams streamKey logStream }
        let (send, p4) := shouldSendBuffer h p3 logStream
        if send then sendLogBuffer h p4 streamKey logStream else p4
      else p1
    else p

/-- The loop of `processLogChunk` over the lines of a chunk. -/
def processLines (h : Host) (streamKey : String) (lines : List String) (p : LogProcessor) :
    LogProcessor :=
  lines.foldl (processLine h streamKey) p

/-- The lines of a chunk that are not blank. -/
def chunkLines (chunk : String) : List String :=
  (splitLines chunk).filter (fun line => trim line ≠ "")

/-- Process the text read from a container for an active stream. -/
def processLogChunk (h : Host) (p : LogProcessor) (streamKey chunk : String) : LogProcessor :=
  match mapGet p.activeStreams streamKey with
  | none => p
  | some logStream =>
    if !logStream.isActive then p
    else checkForStoppedPatterns h (processLines h streamKey (chunkLines chunk) p) streamKey

/-- Register a worker for a key that has none and arm its poll timer. -/
def startStreaming (p : LogProcessor) (streamKey : String) (config : Config) : LogProcessor :=
  if (mapGet p.activeStreams streamKey).isSome then p
  else
    let (t, p1) := setTimeout p (TimerTask.poll streamKey)
    let logStream : LogStream :=
      { config := config, buffer := [], lastSent := 0, isActive := true, interval := some t }
    { p1 with activeStreams := mapSet p1.activeStreams streamKey logStream }

/-! ## Runs used in the statements -/

/-- The record that `trackLogPattern` creates for a pattern seen for the first
time, before the occurrence is counted. -/
def freshPattern (pattern : String) (now : Int) (config : Config) : PatternData :=
  { pattern := pattern, count := 0, isConsolidated := false, isSuppressed := false,
    lastSeen := now, config := config, consolidationTimer := none, stoppedTimer := none }

/-- Consecutive calls of `trackLogPattern` for the lines of a list, in order. -/
def trackAll (h : Host) (streamKey : String) (config : Config) :
    List String → LogProcessor → LogProcessor
  | [], p => p
  | line :: rest, p => trackAll h streamKey config rest (trackLogPattern h p streamKey line config).2

/-- Consecutive polls of a stream that each hand the same text to
`processLogChunk`, none of the suspended `sendLogBuffer` calls being resumed in
between. -/
def feed (h : Host) (streamKey chunk : String) : Nat → LogProcessor → LogProcessor
  | 0, p => p
  | n + 1, p => processLogChunk h (feed h streamKey chunk n p) streamKey chunk

/-- The count shown by a consolidation summary or a resolution message. -/
def Message.reportedCount : Message → Option Nat
  | Message.logs _ _ _ => none
  | Message.consolidation _ _ count _ _ => some count
  | Message.stopped _ _ count _ => some count

/-- The buffer of the worker registered under a key. -/
def bufferOf (p : LogProcessor) (streamKey : String) : List LogEntry :=
  match mapGet p.activeStreams streamKey with
  | some logStream => logStream.buffer
  | none => []

/-- Count and flags of the record stored under a key. -/
def statusOf (p : LogProcessor) (patternKey : String) : Option (Nat × Bool × Bool) :=
  (mapGet p.logPatterns patternKey).map (fun pd => (pd.count, pd.isConsolidated, pd.isSuppressed))

/-- The pattern under the key has been counted `n` times and is still active:
no record yet and `n = 0`, or a record with count `n`, neither consolidated nor
suppressed. -/
def ActiveWith (p : LogProcessor) (patternKey : String) (n : Nat) : Prop :=
  (statusOf p patternKey = none ∧ n = 0) ∨ statusOf p patternKey = some (n, false, false)

/-- A record without its resolution timer field. -/
def forgetStopped (pd : PatternData) : PatternData :=
  { pd with stoppedTimer := none }

/-- State of a stream that has been fed `n` occurrences of one pattern from a
fresh start, at threshold `T`: the worker is active with `min n (T - 1)`
buffered entries; below `T` occurrences the pattern is active with count `n`,
from `T` on its record is consolidated and suppressed. -/
def FedWith (streamKey : String) (config : Config) (T : Nat) (patternKey : String) (n : Nat)
    (q : LogProcessor) : Prop :=
  (∃ w, mapGet q.activeStreams streamKey = some w ∧ w.config = config ∧ w.isActive = true ∧
    w.buffer.length = min n (T - 1)) ∧
  q.consolidationConfig.minRepeatCount = T ∧
  (n < T → ActiveWith q patternKey n) ∧
  (T ≤ n → ∃ c, statusOf q patternKey = some (c, true, true))

/-! ## Concrete inputs -/

/-- A host whose clock starts at 1 000 000 ms and advances by one millisecond
at each read. Its `regExp` is not consulted by the streams below, whose filter
is `.*`. -/
def tickingHost : Host :=
  { clock := fun n => 1000000 + n, regExp := fun _ _ => none }

/-- A processor with one worker, for stream `s`, started with the default
configuration (level `info`, no filter, `maxLines` 10, `cooldown` 60) and
the default threshold 10. -/
def defaultStream : LogProcessor :=
  startStreaming {} "s" {}

/-- A processor with one worker, for stream `s`, with `maxLines` 2 and
`cooldown` 60 seconds. -/
def smallStream : LogProcessor :=
  startStreaming {} "s" { maxLines := 2, cooldown := 60 }

/-- A host whose clock reads 1 000 000 ms plus one millisecond a read for its
first `r` reads and 3 000 000 ms plus one millisecond a read afterwards: the
later reads are more than `summaryTimeout` (900 000 ms) after the earlier
ones. Its `regExp` is not consulted by the streams below. -/
def laterHost (r : Nat) : Host :=
  { clock := fun n => if n < r then 1000000 + n else 3000000 + n, regExp := fun _ _ => none }

/-- The default stream after one poll that read the line `boom`: one active
record, counted once (five clock reads). -/
def activePolled : LogProcessor :=
  processLogChunk (laterHost 5) defaultStream "s" "boom"

/-- The default stream after ten polls that each read `ERROR: disk full` and
the delivery of the consolidation summary: one suppressed record (forty clock
reads). -/
def suppressedPolled : LogProcessor :=
  fireTimer (laterHost 40) (feed (laterHost 40) "s" "ERROR: disk full" 10 defaultStream) 1 true

/-! ## Stopping a stream -/

/-- The method `isStreaming`. -/
def isStreaming (p : LogProcessor) (streamKey : String) : Bool :=
  (mapGet p.activeStreams streamKey).isSome

/-- The test `patternKey.startsWith(streamKey + ':')`. -/
def belongsTo (streamKey patternKey : String) : Bool :=
  (streamKey ++ ":").data.isPrefixOf patternKey.data

/-- The loop of `cleanupConsolidationTimers` over the keys present at its
start: a record of the stream has both its timers cleared and is deleted. -/
def cleanupLoop (streamKey : String) : List String → LogProcessor → LogProcessor
  | [], p => p
  | patternKey :: rest, p =>
    match mapGet p.logPatterns patternKey with
    | none => cleanupLoop streamKey rest p
    | some patternData =>
      if belongsTo streamKey patternKey then
        let p1 := match patternData.consolidationTimer with
          | some t => clearTimeout p t
          | none => p
        let p2 := match patternData.stoppedTimer with
          | some t => clearTimeout p1 t
          | none => p1
        cleanupLoop streamKey rest { p2 with logPatterns := mapDelete p2.logPatterns patternKey }
      else cleanupLoop streamKey rest p

/-- Clear the timers of the records of a stream and delete the records. -/
def cleanupConsolidationTimers (p : LogProcessor) (streamKey : String) : LogProcessor :=
  cleanupLoop streamKey (p.logPatterns.map Prod.fst) p

/-- The worker as `stopStreaming` marks it: `isActive = false` and, the poll
timer cleared, `interval = null`. -/
def markStopped (logStream : LogStream) : LogStream :=
  { logStream with isActive := false, interval := none }

/-- The body of `stopStreaming` for a registered worker up to, and without, the
final `activeStreams.delete`: the worker is marked inactive, its poll timer is
cleared, a non-empty buffer is handed to `sendLogBuffer` (not awaited) and the
records of the stream are cleaned up. -/
def stopStreamingWork (h : Host) (p : LogProcessor) (streamKey : String) (logStream : LogStream) :
    LogProcessor :=
  let p1 := match logStream.interval with
    | some t => clearTimeout p t
    | none => p
  let logStream := markStopped logStream
  let p2 := { p1 with activeStreams := mapSet p1.activeStreams streamKey logStream }
  let p3 := if logStream.buffer.length > 0 then sendLogBuffer h p2 streamKey logStream else p2
  cleanupConsolidationTimers p3 streamKey

/-- Stop the worker of a stream; nothing happens for a key without worker. -/
def stopStreaming (h : Host) (p : LogProcessor) (streamKey : String) : LogProcessor :=
  match mapGet p.activeStreams streamKey with
  | none => p
  | some logStream =>
    let p1 := stopStreamingWork h p streamKey logStream
    { p1 with activeStreams := mapDelete p1.activeStreams streamKey }

/-! ## The delivery queue (`src/services/slackService.js`) -/

/-- An item of `messageQueue`; `retryCount = none` is an item without that
property, as `sendMessage` builds it. A count that is present is a natural
number: the one assignment to the property, in the `catch` branch of
`processMessageQueue`, gives it `(retryCount || 0) + 1`. The payload type is
left open. -/
structure QueueItem (μ : Type) where
  channel : String
  message : μ
  config : Config
  timestamp : Int
  retryCount : Option Nat
  deriving DecidableEq, Repr

/-- State of a `SlackService`. Besides the fields of the class it holds the
state of the suspended `processMessageQueue`: the item whose
`sendMessageToSlack` is awaited (`inFlight`), whether the loop is in its
`delay(1000)` (`waiting`); and the calls of `sendMessageToSlack` made so far,
oldest first (`attempts`). -/
structure SlackService (μ : Type) where
  isInitialized : Bool := false
  messageQueue : List (QueueItem μ) := []
  isProcessingQueue : Bool := false
  inFlight : Option (QueueItem μ) := none
  waiting : Bool := false
  attempts : List (QueueItem μ) := []
  reads : Nat := 0
  deriving DecidableEq, Repr

/-- Head of the `while` loop of `processMessageQueue`: with a non-empty queue
the first item is shifted and handed to `sendMessageToSlack`, whose result is
awaited; with an empty queue the loop ends and the flag is reset. -/
def loopHead {μ : Type} (s : SlackService μ) : SlackService μ :=
  match s.messageQueue with
  | [] => { s with isProcessingQueue := false }
  | messageData :: rest =>
    { s with messageQueue := rest, inFlight := some messageData,
             attempts := s.attempts ++ [messageData] }

/-- The call `processMessageQueue()`, up to its first `await`. -/
def processMessageQueue {μ : Type} (s : SlackService μ) : SlackService μ :=
  if s.isProcessingQueue || s.messageQueue.length = 0 then s
  else loopHead { s with isProcessingQueue := true }

/-- The method `sendMessage`: it throws when the service is not initialised;
otherwise the message is pushed and the queue is started when idle. -/
def SlackService.sendMessage {μ : Type} (h : Host) (s : SlackService μ) (channel : String)
    (message : μ) (config : Config) : Except String (SlackService μ) :=
  if !s.isInitialized then Except.error "Slack service not initialized"
  else
    let item : QueueItem μ :=
      { channel := channel, message := message, config := config,
        timestamp := h.clock s.reads, retryCount := none }
    let s1 := { s with messageQueue := s.messageQueue ++ [item], reads := s.reads + 1 }
    Except.ok (if !s1.isProcessingQueue then processMessageQueue s1 else s1)

/-- The test `messageData.retryCount < 3`; it is false for an item without
`retryCount` (`undefined < 3`). -/
def belowRetryCeiling (retryCount : Option Nat) : Bool :=
  match retryCount with
  | some n => decide (n < 3)
  | none => false

/-- The value `(messageData.retryCount || 0) + 1`. It is computed only when
the test `messageData.retryCount < 3` has held, on a count below 3, where the
sum is exact. -/
def nextRetryCount (retryCount : Option Nat) : Nat :=
  match retryCount with
  | some n => n + 1
  | none => 1

/-- The awaited `sendMessageToSlack` settles. On success the loop goes into its
delay. On failure the `catch` branch re-queues the item at the back when its
`retryCount` is below 3, and the loop goes on with its next turn. -/
def sinkResult {μ : Type} (h : Host) (s : SlackService μ) (ok : Bool) : SlackService μ :=
  match s.inFlight with
  | none => s
  | some messageData =>
    if ok then { s with inFlight := none, waiting := true }
    else if belowRetryCeiling messageData.retryCount then
      let retryCount := nextRetryCount messageData.retryCount
      let messageData :=
        { messageData with retryCount := some retryCount,
                           timestamp := h.clock s.reads + retryCount * 5000 }
      loopHead { s with inFlight := none, reads := s.reads + 1,
                        messageQueue := s.messageQueue ++ [messageData] }
    else loopHead { s with inFlight := none }

/-- The awaited `delay(1000)` is over: the loop goes on with its next turn. -/
def delayDone {μ : Type} (s : SlackService μ) : SlackService μ :=
  if s.waiting then loopHead { s with waiting := false } else s

/-- What can happen to a service: a call of `sendMessage`, the settling of the
send in flight, the end of the delay. -/
inductive SlackEvent (μ : Type) where
  | send (channel : String) (message : μ) (config : Config)
  | sink (ok : Bool)
  | delay

/-- One event; a `sendMessage` that throws leaves the state as it is. -/
def SlackEvent.apply {μ : Type} (h : Host) (s : SlackService μ) : SlackEvent μ → SlackService μ
  | SlackEvent.send channel message config =>
    match s.sendMessage h channel message config with
    | Except.ok s1 => s1
    | Except.error _ => s
  | SlackEvent.sink ok => sinkResult h s ok
  | SlackEvent.delay => delayDone s

/-- A run of events, in order. -/
def runEvents {μ : Type} (h : Host) : List (SlackEvent μ) → SlackService μ → SlackService μ
  | [], s => s
  | e :: rest, s => runEvents h rest (e.apply h s)

/-- The messages of the `sendMessage` calls of a run, in order. -/
def sentOf {μ : Type} : List (SlackEvent μ) → List (String × μ × Config)
  | [] => []
  | SlackEvent.send channel message config :: rest => (channel, message, config) :: sentOf rest
  | _ :: rest => sentOf rest

/-- What `sendMessageToSlack` receives from an item. -/
def QueueItem.args {μ : Type} (i : QueueItem μ) : String × μ × Config :=
  (i.channel, i.message, i.config)

/-- No send of the run fails. -/
def allSucceed {μ : Type} : List (SlackEvent μ) → Bool
  | [] => true
  | SlackEvent.sink false :: _ => false
  | _ :: rest => allSucceed rest

/-- The turns of the loop for `n` items whose sends succeed: each send
settles, then its delay ends. -/
def drainOk (μ : Type) : Nat → List (SlackEvent μ)
  | 0 => []
  | n + 1 => SlackEvent.sink true :: SlackEvent.delay :: drainOk μ n

/-- The calls `sendMessage` for a list of messages, one after the other. -/
def sendAll {μ : Type} (msgs : List (String × μ × Config)) : List (SlackEvent μ) :=
  msgs.map (fun m => SlackEvent.send m.1 m.2.1 m.2.2)

/-- The order `debug < info < warn < error` of the specification, as the
position of a level in that list. -/
def levelOrder : List String := ["debug", "info", "warn", "error"]

/-- The arguments of the attempts made and of the items still queued, in that
order. -/
def handledOf {μ : Type} (s : SlackService μ) : List (String × μ × Config) :=
  s.attempts.map QueueItem.args ++ s.messageQueue.map QueueItem.args

/-- The flags of a service agree with the state of its loop: it is
initialised; when no loop runs the queue is empty, no send is in flight and no
delay is awaited; no send is in flight during a delay. -/
def LoopConsistent {μ : Type} (s : SlackService μ) : Prop :=
  s.isInitialized = true ∧
  (s.isProcessingQueue = false → s.messageQueue = [] ∧ s.inFlight = none ∧ s.waiting = false) ∧
  (s.waiting = true → s.inFlight = none)

/-- The buffer entries that a message carries. -/
def Message.entries : Message → List LogEntry
  | Message.logs entries _ _ => entries
  | Message.consolidation _ _ _ _ _ => []
  | Message.stopped _ _ _ _ => []

/-- The number of messages handed to `sendMessage` that carry an entry. -/
def timesHandedOver (p : LogProcessor) (entry : LogEntry) : Nat :=
  (p.sent.filter (fun c => decide (entry ∈ c.message.entries))).length

/-- A processor with one worker, for stream `s`, with `maxLines` 2 and the
cooldown -5 that the annotation `slaking.cooldown: "-5"` gives. -/
def negativeCooldownStream : LogProcessor :=
  startStreaming {} "s" { maxLines := 2, cooldown := -5 }

/-- A host whose clock reads 1 000 000 ms plus one millisecond a read for its
first eleven reads and 56 seconds more afterwards. Its `regExp` is not
consulted by the streams below. -/
def retryHost : Host :=
  { clock := fun n => if n < 11 then 1000000 + n else 1056000 + n, regExp := fun _ _ => none }

/-! ## Words of a line, in the words of the specification -/

/-- The character before the end of `s`, or `prev` when `s` is empty. -/
def lastOr (prev : Option Char) (s : List Char) : Option Char :=
  match s.getLast? with
  | some c => some c
  | none => prev

/-- A line contains a word as a whole word, case-insensitively: the line is
`pre ++ mid ++ post` where `mid` is the word up to the case of its letters,
`pre` does not end and `post` does not begin with a letter, a digit or an
underscore. -/
def ContainsWholeWord (word line : String) : Prop :=
  ∃ pre mid post : List Char, line.data = pre ++ mid ++ post ∧
    mid.map Char.toUpper = word.data.map Char.toUpper ∧
    isWordAt pre.getLast? = false ∧ isWordAt post.head? = false

/-- A line contains one of the words of a list as a whole word. -/
def MentionsAny (words : List String) (line : String) : Prop :=
  ∃ w ∈ words, ContainsWholeWord w line

/-- The expression `\b(w1|w2|..)\b` with the `i` flag. -/
def wordRx (words : List String) : Rx :=
  { nodes := [.item .wordB, .alt (words.map lit), .item .wordB], ignoreCase := true }

/-! ## Dynamic values of a line, in the words of the specification -/

/-- A run of decimal digits. -/
def AllDigits (s : List Char) : Prop :=
  ∀ c ∈ s, c.isDigit = true

/-- An integer of 10 or more digits. -/
def LongInteger (s : List Char) : Prop :=
  10 ≤ s.length ∧ AllDigits s

/-- One part of a dotted quad: one to three digits. -/
def Octet (s : List Char) : Prop :=
  1 ≤ s.length ∧ s.length ≤ 3 ∧ AllDigits s

/-- A dotted-quad IPv4 address. -/
def DottedQuad (s : List Char) : Prop :=
  ∃ a b c d : List Char, Octet a ∧ Octet b ∧ Octet c ∧ Octet d ∧
    s = a ++ '.' :: (b ++ '.' :: (c ++ '.' :: d))

/-- A field of exactly `n` digits. -/
def DigitField (n : Nat) (s : List Char) : Prop :=
  s.length = n ∧ AllDigits s

/-- A timestamp of the form `YYYY-MM-DDTHH:MM:SS[.mmm][Z]`. -/
def IsoTimestamp (s : List Char) : Prop :=
  ∃ y mo d h mi sec frac zone : List Char,
    DigitField 4 y ∧ DigitField 2 mo ∧ DigitField 2 d ∧ DigitField 2 h ∧ DigitField 2 mi ∧
    DigitField 2 sec ∧ (frac = [] ∨ ∃ f, DigitField 3 f ∧ frac = '.' :: f) ∧
    (zone = [] ∨ zone = ['Z']) ∧
    s = y ++ '-' :: (mo ++ '-' :: (d ++ 'T' :: (h ++ ':' :: (mi ++ ':' :: (sec ++ (frac ++ zone))))))

/-- The line `User <id> logged in from <ip> at <ts>` with the given values. -/
def loginLine (id ip ts : List Char) : String :=
  ⟨"User ".data ++ id ++ " logged in from ".data ++ ip ++ " at ".data ++ ts⟩

/-! ## Filters -/

/-- The expression `w1|w2|..` made of plain words, with its flags, as
ECMAScript reads it: an alternation of literals, which ignores the case of
the letters when the flags contain `i`. -/
def alternationRx (words : List String) (flags : String) : Rx :=
  { nodes := [.alt (words.map lit)], ignoreCase := flags.data.contains 'i' }

/-- A line contains a word somewhere, case-insensitively: the line is
`pre ++ mid ++ post` where `mid` is the word up to the case of its letters. -/
def ContainsIgnoringCase (word line : String) : Prop :=
  ∃ pre mid post : List Char, line.data = pre ++ mid ++ post ∧
    mid.map Char.toUpper = word.data.map Char.toUpper

/-- A host that compiles the filter `error|exception`, the filter of the test
suite, and throws a `SyntaxError` on `[invalid-regex`, as the runtime does
(the class is not closed). Its `regExp` is not consulted on other sources by
the streams below; its clock is that of `tickingHost`. -/
def filterHost : Host :=
  { clock := fun n => 1000000 + n,
    regExp := fun source flags =>
      if source = "error|exception" then
        some (alternationRx ["error", "exception"] flags).matcher
      else none }

/-- A processor with one worker, for stream `s`, whose filter is the source
`[invalid-regex`. -/
def brokenFilterStream : LogProcessor :=
  startStreaming {} "s" { filters := some "[invalid-regex" }

/-- A processor with one worker, for stream `s`, whose level is `ERROR` in
capital letters. -/
def capitalLevelStream : LogProcessor :=
  startStreaming {} "s" { level := some "ERROR" }

/-! ## Two streams -/

/-- A processor with two workers, for streams `s` and `t`, both with the
default configuration. -/
def twoStreams : LogProcessor :=
  startStreaming (startStreaming {} "s" {}) "t" {}

/-- The two streams after each has read the line `ERROR: disk full` ten times:
each has its own record, consolidated, with its own consolidation timer. -/
def twoStreamsFed : LogProcessor :=
  feed tickingHost "t" "ERROR: disk full" 10 (feed tickingHost "s" "ERROR: disk full" 10 twoStreams)

/-! ## Configuration (`src/services/configManager.js`) -/

/-- The fields of `config.kubernetes` that decide which namespaces are
watched. -/
structure KubernetesConfig where
  namespaces : List String := []
  watchAllNamespaces : Bool := true
  deriving DecidableEq, Repr

/-- The environment variables read for those fields; `none` is a variable that
is not set. -/
structure Env where
  K8S_NAMESPACES : Option String := none
  K8S_WATCH_ALL_NAMESPACES : Option String := none
  deriving DecidableEq, Repr

/-- The comparison `value.toLowerCase() === 'true'`. No character outside
ASCII has a lower case among the letters of `true`, so the ASCII mapping
decides it. -/
def lowerIsTrue (value : String) : Bool :=
  value.data.map Char.toLower == "true".data

/-- The two blocks of `overrideWithEnvVars` that write `kubernetes.namespaces`
and `kubernetes.watchAllNamespaces`; the other blocks write other fields. A
variable counts when it is set and not empty. -/
def overrideWithEnvVars (config : KubernetesConfig) (env : Env) : KubernetesConfig :=
  let c1 : KubernetesConfig :=
    match env.K8S_NAMESPACES with
    | some value =>
      if value ≠ "" then
        let namespaces := ((splitChars ',' [] value.data).map (fun ns => trim ⟨ns⟩)).filter
          (fun ns => ns.length > 0)
        { namespaces := namespaces, watchAllNamespaces := namespaces.length == 0 }
      else config
    | none => config
  match env.K8S_WATCH_ALL_NAMESPACES with
  | some value =>
    if value ≠ "" then
      if lowerIsTrue value then { namespaces := [], watchAllNamespaces := true }
      else { c1 with watchAllNamespaces := false }
    else c1
  | none => c1

/-- The method `isNamespaceWatched`. -/
def isNamespaceWatched (config : KubernetesConfig) (namespace_ : String) : Bool :=
  if config.watchAllNamespaces then true
  else if config.namespaces.length = 0 then true
  else config.namespaces.contains namespace_

/-- The items of a list written one after the other with a comma between
two neighbours. -/
def joinItems : List (List Char) → List Char
  | [] => []
  | [item] => item
  | item :: next :: rest => item ++ ',' :: joinItems (next :: rest)

/-! ### Numbers in annotation values -/

/-- Value of a character as a digit, letters counting from ten. -/
def digitValue (c : Char) : Option Nat :=
  let n := c.toNat
  if 48 ≤ n ∧ n ≤ 57 then some (n - 48)
  else if 97 ≤ n ∧ n ≤ 122 then some (n - 87)
  else if 65 ≤ n ∧ n ≤ 90 then some (n - 55)
  else none

/-- Value of the longest run of digits of the radix at the head of a text,
`none` when the text does not start with such a digit. -/
def leadingDigits (radix : Nat) : List Char → Option Nat → Option Nat
  | [], acc => acc
  | c :: cs, acc =>
    match digitValue c with
    | some d => if d < radix then leadingDigits radix cs (some (acc.getD 0 * radix + d)) else acc
    | none => acc

/-- The global `parseInt` with one argument, on a string: leading white space
is skipped, then a sign, then `0x` or `0X` selects radix 16, then the longest
run of digits is read; `none` is `NaN`. -/
def parseInt (s : String) : Option Int :=
  let t := s.data.dropWhile isJsSpace
  let signed : Bool × List Char :=
    match t with
    | '-' :: r => (true, r)
    | '+' :: r => (false, r)
    | _ => (false, t)
  let based : Nat × List Char :=
    match signed.2 with
    | '0' :: 'x' :: r => (16, r)
    | '0' :: 'X' :: r => (16, r)
    | r => (10, r)
  match leadingDigits based.1 based.2 none with
  | some n => some (if signed.1 then -(n : Int) else (n : Int))
  | none => none

/-- The production `DecimalDigits`. -/
def isDecimalDigits (s : List Char) : Bool :=
  !s.isEmpty && s.all Char.isDigit

/-- Nothing, or the production `ExponentPart`. -/
def isExponentTail : List Char → Bool
  | [] => true
  | c :: r =>
    (c == 'e' || c == 'E') &&
      (match r with
       | '+' :: d => isDecimalDigits d
       | '-' :: d => isDecimalDigits d
       | d => isDecimalDigits d)

/-- The production `StrUnsignedDecimalLiteral`. -/
def isUnsignedDecimal (s : List Char) : Bool :=
  if s = "Infinity".data then true
  else
    let whole := s.takeWhile Char.isDigit
    match s.dropWhile Char.isDigit with
    | '.' :: t =>
      (!whole.isEmpty || !(t.takeWhile Char.isDigit).isEmpty) &&
        isExponentTail (t.dropWhile Char.isDigit)
    | r => !whole.isEmpty && isExponentTail r

/-- Digits of a binary, octal or hexadecimal literal. -/
def isRadixDigits (radix : Nat) (s : List Char) : Bool :=
  !s.isEmpty && s.all (fun c => match digitValue c with
    | some d => decide (d < radix)
    | none => false)

/-- The production `NonDecimalIntegerLiteral`. -/
def isNonDecimalInteger : List Char → Bool
  | '0' :: c :: ds =>
    ((c == 'x' || c == 'X') && isRadixDigits 16 ds) ||
    ((c == 'o' || c == 'O') && isRadixDigits 8 ds) ||
    ((c == 'b' || c == 'B') && isRadixDigits 2 ds)
  | _ => false

/-- The production `StrNumericLiteral`. -/
def isStrNumericLiteral (s : List Char) : Bool :=
  isNonDecimalInteger s ||
    (match s with
     | '+' :: r => isUnsignedDecimal r
     | '-' :: r => isUnsignedDecimal r
     | r => isUnsignedDecimal r)

/-- The global `isNaN` on a string: the string is converted by `ToNumber`,
which gives `NaN` unless the text without surrounding white space is empty or
a numeric literal. -/
def isNaN (s : String) : Bool :=
  let t := trimChars s.data
  !(t.isEmpty || isStrNumericLiteral t)

/-- The comparison `value < bound` for a value that may be `NaN`: false for
`NaN`. -/
def lessThan (value : Option Int) (bound : Int) : Bool :=
  match value with
  | some n => decide (n < bound)
  | none => false

/-- The object `config.annotations` of the default configuration. -/
structure AnnotationKeys where
  enabled : String := "slaking.enabled"
  channel : String := "slaking.channel"
  filters : String := "slaking.filters"
  level : String := "slaking.level"
  includeLabels : String := "slaking.include-labels"
  excludeLabels : String := "slaking.exclude-labels"
  maxLines : String := "slaking.max-lines"
  cooldown : String := "slaking.cooldown"
  deriving DecidableEq, Repr

/-- The method `getAnnotationValue`, for the name that `config.annotations`
gives to the key; `none` is `undefined`. -/
def getAnnotationValue (annotations : List (String × String)) (annotationKey : String) :
    Option String :=
  mapGet annotations annotationKey

/-- A value that is present for `value && ...`: defined and not empty. -/
def present (value : Option String) : Option String :=
  match value with
  | some v => if v ≠ "" then some v else none
  | none => none

/-- The method `validateAnnotationConfig`: the error messages, in order. The
validity of a filter is that of `new RegExp(filters)`, without flags. -/
def validateAnnotationConfig (h : Host) (keys : AnnotationKeys)
    (annotations : List (String × String)) : List String :=
  if getAnnotationValue annotations keys.enabled = some "true" then
    let e1 := match present (getAnnotationValue annotations keys.channel) with
      | some channel =>
        if !("#".data.isPrefixOf channel.data) then ["Channel must start with #"] else []
      | none => []
    let e2 := match present (getAnnotationValue annotations keys.filters) with
      | some filters =>
        if (h.regExp filters "").isNone then ["Invalid filter regex pattern"] else []
      | none => []
    let e3 := match present (getAnnotationValue annotations keys.level) with
      | some level =>
        if !(["debug", "info", "warn", "error"].contains level) then
          ["Invalid log level. Must be debug, info, warn, or error"]
        else []
      | none => []
    let e4 := match present (getAnnotationValue annotations keys.maxLines) with
      | some maxLines =>
        if isNaN maxLines || lessThan (parseInt maxLines) 1 then
          ["Max lines must be a positive number"]
        else []
      | none => []
    let e5 := match present (getAnnotationValue annotations keys.cooldown) with
      | some cooldown =>
        if isNaN cooldown || lessThan (parseInt cooldown) 0 then
          ["Cooldown must be a non-negative number"]
        else []
      | none => []
    e1 ++ e2 ++ e3 ++ e4 ++ e5
  else []

/-- The annotations of the test `should validate annotation configuration`. -/
def validAnnotations : List (String × String) :=
  [("slaking.enabled", "true"), ("slaking.channel", "#alerts"),
   ("slaking.filters", "error|exception"), ("slaking.level", "error"),
   ("slaking.max-lines", "10"), ("slaking.cooldown", "60")]

/-- The annotations of the test `should detect invalid annotation
configuration`. -/
def invalidAnnotations : List (String × String) :=
  [("slaking.enabled", "true"), ("slaking.channel", "alerts"),
   ("slaking.filters", "[invalid-regex"), ("slaking.level", "invalid-level"),
   ("slaking.max-lines", "-1"), ("slaking.cooldown", "-5")]

/-! ## The queue loop left to run -/

/-- The next step of a loop that receives no new message: the send in flight
settles, with the outcome that the pattern gives to that attempt (attempts are
numbered from 0), or the delay ends; nothing happens to a loop that has
ended. -/
def advance {μ : Type} (h : Host) (outcome : Nat → Bool) (s : SlackService μ) : SlackService μ :=
  match s.inFlight with
  | some _ => sinkResult h s (outcome (s.attempts.length - 1))
  | none => delayDone s

/-- A number of steps of the loop. -/
def runLoop {μ : Type} (h : Host) (outcome : Nat → Bool) : Nat → SlackService μ → SlackService μ
  | 0, s => s
  | n + 1, s => runLoop h outcome n (advance h outcome s)

/-- The attempts that an item can still get: one, and one more for each value
that its `retryCount` can take below 3. -/
def attemptBudget (retryCount : Option Nat) : Nat :=
  match retryCount with
  | some n => (3 - n) + 1
  | none => 1

/-- The attempts that the items of a queue can still get. -/
def queueBudget {μ : Type} (items : List (QueueItem μ)) : Nat :=
  (items.map (fun i => attemptBudget i.retryCount)).sum

/-- The number of items whose channel, message and configuration satisfy a
test. -/
def cntArgs {μ : Type} (test : String × μ × Config → Bool) (items : List (QueueItem μ)) : Nat :=
  (items.filter (fun i => test i.args)).length

/-- The attempts that the items satisfying a test can still get. -/
def budgetArgs {μ : Type} (test : String × μ × Config → Bool) (items : List (QueueItem μ)) :
    Nat :=
  queueBudget (items.filter (fun i => test i.args))

/-- An initialised idle service that holds a queue. -/
def queued {μ : Type} (items : List (QueueItem μ)) : SlackService μ :=
  { isInitialized := true, messageQueue := items }

/-- The call `processMessageQueue()` on a queue, followed by twice as many
steps as the items can get attempts. -/
def drained {μ : Type} (h : Host) (outcome : Nat → Bool) (items : List (QueueItem μ)) :
    SlackService μ :=
  runLoop h outcome (2 * queueBudget items) (processMessageQueue (queued items))

/-- The steps that a loop can still make, at most. -/
def potential {μ : Type} (s : SlackService μ) : Nat :=
  2 * queueBudget s.messageQueue +
    (match s.inFlight with
     | some i => 2 * attemptBudget i.retryCount
     | none => 0) +
    (if s.waiting then 1 else 0)

/-- The attempts made on items satisfying a test, and those that such items
in the queue or in flight can still get. -/
def upperArgs {μ : Type} (test : String × μ × Config → Bool) (s : SlackService μ) : Nat :=
  cntArgs test s.attempts + budgetArgs test s.messageQueue +
    (match s.inFlight with
     | some i => if test i.args then attemptBudget i.retryCount - 1 else 0
     | none => 0)

/-- The attempts made on items satisfying a test, and such items queued. -/
def lowerArgs {μ : Type} (test : String × μ × Config → Bool) (s : SlackService μ) : Nat :=
  cntArgs test s.attempts + cntArgs test s.messageQueue

/-- The loop has ended. -/
def Ended {μ : Type} (s : SlackService μ) : Prop :=
  s.inFlight = none ∧ s.waiting = false ∧ s.isProcessingQueue = false ∧ s.messageQueue = []

/-- The states of a loop: a send in flight, the delay, or ended. -/
def LoopShape {μ : Type} (s : SlackService μ) : Prop :=
  (s.inFlight.isSome = true ∧ s.waiting = false ∧ s.isProcessingQueue = true) ∨
  (s.inFlight = none ∧ s.waiting = true ∧ s.isProcessingQueue = true) ∨
  Ended s

/-- The three items of the example: one as `sendMessage` builds it, one with
`retryCount` 0 and one with `retryCount` 2. -/
def mixedQueue : List (QueueItem String) :=
  [⟨"#a", "fresh", {}, 0, none⟩, ⟨"#b", "zero", {}, 0, some 0⟩, ⟨"#c", "two", {}, 0, some 2⟩]

/-- An item with its message replaced; the loop never looks into a message. -/
def QueueItem.mapMessage {μ ν : Type} (f : μ → ν) (i : QueueItem μ) : QueueItem ν :=
  { channel := i.channel, message := f i.message, config := i.config,
    timestamp := i.timestamp, retryCount := i.retryCount }

/-- A service with the message of each of its items replaced. -/
def SlackService.mapMessage {μ ν : Type} (f : μ → ν) (s : SlackService μ) : SlackService ν :=
  { isInitialized := s.isInitialized,
    messageQueue := s.messageQueue.map (QueueItem.mapMessage f),
    isProcessingQueue := s.isProcessingQueue,
    inFlight := s.inFlight.map (QueueItem.mapMessage f),
    waiting := s.waiting,
    attempts := s.attempts.map (QueueItem.mapMessage f),
    reads := s.reads }

/-- The items of a queue, the message of each paired with the position of the
item in the queue, counted from `k`. -/
def numberedFrom {μ : Type} : Nat → List (QueueItem μ) → List (QueueItem (Nat × μ))
  | _, [] => []
  | k, i :: rest => i.mapMessage (fun m => (k, m)) :: numberedFrom (k + 1) rest

/-- The items of a queue, each marked with its position. -/
def numbered {μ : Type} (items : List (QueueItem μ)) : List (QueueItem (Nat × μ)) :=
  numberedFrom 0 items

/-- The number of calls of `sendMessageToSlack` made for the item at position
`k` of a queue that is started and left to run: the attempts of the run whose
item carries the mark `k`. -/
def attemptsOn {μ : Type} (h : Host) (outcome : Nat → Bool) (items : List (QueueItem μ))
    (k : Nat) : Nat :=
  cntArgs (fun a => a.2.1.1 == k) (drained h outcome (numbered items)).attempts

/-- The handles of the pending timers are below the next handle that
`setTimeout` gives: no handle is given twice. -/
def TimersFresh (p : LogProcessor) : Prop :=
  ∀ e ∈ p.timers, e.1 < p.nextTimer

/-! ## Properties -/

section MapLemmas

variable {β : Type}

theorem mapGet_nil (key : String) : mapGet ([] : List (String × β)) key = none := rfl

theorem mapGet_cons (e : String × β) (m : List (String × β)) (key : String) :
    mapGet (e :: m) key = if e.1 = key then some e.2 else mapGet m key := by
  by_cases he : e.1 = key
  · simp [mapGet, List.find?, he]
  · have hb : (e.1 == key) = false := by simpa using he
    simp [mapGet, List.find?, he, hb]

theorem mapSet_cons (e : String × β) (m : List (String × β)) (key : String) (v : β) :
    mapSet (e :: m) key v = if e.1 = key then (key, v) :: m else e :: mapSet m key v := by
  by_cases he : e.1 = key
  · simp [mapSet, he]
  · simp [mapSet, he]

theorem mapGet_mapSet_self (m : List (String × β)) (key : String) (v : β) :
    mapGet (mapSet m key v) key = some v := by
  induction m with
  | nil => simp [mapSet, mapGet_cons]
  | cons e rest ih =>
    rw [mapSet_cons]
    by_cases he : e.1 = key
    · rw [if_pos he, mapGet_cons, if_pos rfl]
    · rw [if_neg he, mapGet_cons, if_neg he, ih]

theorem mapGet_mapSet_ne (m : List (String × β)) (key other : String) (v : β)
    (hne : other ≠ key) : mapGet (mapSet m key v) other = mapGet m other := by
  induction m with
  | nil => simp [mapSet, mapGet_cons, mapGet_nil, Ne.symm hne]
  | cons e rest ih =>
    rw [mapSet_cons]
    by_cases he : e.1 = key
    · have ho : ¬ e.1 = other := by rw [he]; exact Ne.symm hne
      rw [if_pos he, mapGet_cons, mapGet_cons, if_neg ho]
      simp [Ne.symm hne]
    · rw [if_neg he, mapGet_cons, mapGet_cons, ih]

theorem mapGet_mapDelete_self (m : List (String × β)) (key : String) :
    mapGet (mapDelete m key) key = none := by
  induction m with
  | nil => rfl
  | cons e rest ih =>
    by_cases he : e.1 = key
    · have : mapDelete (e :: rest) key = mapDelete rest key := by
        simp [mapDelete, List.filter_cons, he]
      rw [this, ih]
    · have hb : (e.1 == key) = false := by simpa using he
      have : mapDelete (e :: rest) key = e :: mapDelete rest key := by
        simp [mapDelete, List.filter_cons, hb]
      rw [this, mapGet_cons, if_neg he, ih]

theorem mapGet_mapDelete_ne (m : List (String × β)) (key other : String) (hne : other ≠ key) :
    mapGet (mapDelete m key) other = mapGet m other := by
  induction m with
  | nil => rfl
  | cons e rest ih =>
    by_cases he : e.1 = key
    · have : mapDelete (e :: rest) key = mapDelete rest key := by
        simp [mapDelete, List.filter_cons, he]
      have ho : ¬ e.1 = other := by rw [he]; exact Ne.symm hne
      rw [this, ih, mapGet_cons, if_neg ho]
    · have hb : (e.1 == key) = false := by simpa using he
      have : mapDelete (e :: rest) key = e :: mapDelete rest key := by
        simp [mapDelete, List.filter_cons, hb]
      rw [this, mapGet_cons, mapGet_cons, ih]

end MapLemmas

/-- A line whose severity ranks below the level of the stream is rejected. -/
theorem shouldProcessLine_below (h : Host) (line lvl : String) (config : Config) (a r : Nat)
    (hlevel : config.level = some lvl) (hr : levels lvl = some r)
    (ha : levels (extractLogLevel line) = some a) (hlt : a < r) :
    shouldProcessLine h line config = false := by
  have : ¬ r ≤ a := Nat.not_le.mpr hlt
  simp [shouldProcessLine, meetsLogLevel, levelsAt, greaterEqual, hlevel, hr, ha, this]

/-- The loop body leaves the state as it is on a rejected line. -/
theorem processLine_rejected (h : Host) (streamKey line : String) (p : LogProcessor)
    (hrej : ∀ logStream, mapGet p.activeStreams streamKey = some logStream →
      shouldProcessLine h line logStream.config = false) :
    processLine h streamKey p line = p := by
  unfold processLine
  cases hs : mapGet p.activeStreams streamKey with
  | none => rfl
  | some logStream => simp [hrej logStream hs]

section Track

variable (h : Host) (p : LogProcessor) (streamKey line : String) (config : Config)

/-- The record returned by `trackLogPattern` is the one stored under the key. -/
theorem trackLogPattern_stored :
    mapGet (trackLogPattern h p streamKey line config).2.logPatterns
      (getPatternKey streamKey (extractLogPattern line)) =
      some (trackLogPattern h p streamKey line config).1 := by
  unfold trackLogPattern
  cases hget : mapGet p.logPatterns (getPatternKey streamKey (extractLogPattern line)) <;>
    simp only [hget, dateNow] <;> split_ifs <;> simp [mapGet_mapSet_self, startConsolidation, setTimeout]

/-- What `trackLogPattern` leaves alone: the workers, the configuration, the
messages handed over and the suspended flushes. -/
theorem trackLogPattern_frame :
    (trackLogPattern h p streamKey line config).2.activeStreams = p.activeStreams ∧
    (trackLogPattern h p streamKey line config).2.consolidationConfig = p.consolidationConfig ∧
    (trackLogPattern h p streamKey line config).2.sent = p.sent ∧
    (trackLogPattern h p streamKey line config).2.pending = p.pending := by
  unfold trackLogPattern
  cases hget : mapGet p.logPatterns (getPatternKey streamKey (extractLogPattern line)) <;>
    simp only [hget, dateNow] <;> split_ifs <;>
    simp [startConsolidation, setTimeout, clearTimeout]
  all_goals split <;> simp [clearTimeout]

/-- Records under other keys are not touched. -/
theorem trackLogPattern_other (other : String)
    (hne : other ≠ getPatternKey streamKey (extractLogPattern line)) :
    mapGet (trackLogPattern h p streamKey line config).2.logPatterns other =
      mapGet p.logPatterns other := by
  unfold trackLogPattern
  cases hget : mapGet p.logPatterns (getPatternKey streamKey (extractLogPattern line)) <;>
    simp only [hget, dateNow] <;> split_ifs <;>
    simp [startConsolidation, setTimeout, clearTimeout, mapGet_mapSet_ne _ _ _ _ hne]
  all_goals split <;> simp [clearTimeout, mapGet_mapSet_ne _ _ _ _ hne]

/-- A first occurrence behaves as an occurrence on the record just created. -/
theorem trackLogPattern_fresh
    (hget : mapGet p.logPatterns (getPatternKey streamKey (extractLogPattern line)) = none) :
    trackLogPattern h p streamKey line config =
      trackLogPattern h
        { p with
          reads := p.reads + 1
          logPatterns := mapSet p.logPatterns (getPatternKey streamKey (extractLogPattern line))
            (freshPattern (extractLogPattern line) (h.clock p.reads) config) }
        streamKey line config := by
  unfold trackLogPattern
  simp only [hget, dateNow, mapGet_mapSet_self, freshPattern]

/-- An occurrence on a suppressed record only refreshes `lastSeen`. -/
theorem trackLogPattern_suppressed (pd : PatternData)
    (hget : mapGet p.logPatterns (getPatternKey streamKey (extractLogPattern line)) = some pd)
    (hs : pd.isSuppressed = true) :
    (trackLogPattern h p streamKey line config).1 = { pd with lastSeen := h.clock p.reads } ∧
    (trackLogPattern h p streamKey line config).2.timers = p.timers ∧
    (trackLogPattern h p streamKey line config).2.nextTimer = p.nextTimer ∧
    (trackLogPattern h p streamKey line config).2.reads = p.reads + 1 := by
  unfold trackLogPattern
  simp [hget, dateNow, hs]

/-- An occurrence on an active record below the threshold is counted. -/
theorem trackLogPattern_counted (pd : PatternData)
    (hget : mapGet p.logPatterns (getPatternKey streamKey (extractLogPattern line)) = some pd)
    (hs : pd.isSuppressed = false)
    (hlow : pd.isConsolidated = true ∨ pd.count + 1 < p.consolidationConfig.minRepeatCount) :
    (trackLogPattern h p streamKey line config).1 =
      { pd with lastSeen := h.clock p.reads, count := pd.count + 1 } ∧
    (trackLogPattern h p streamKey line config).2.timers = p.timers := by
  unfold trackLogPattern
  rcases hlow with hc | hlt
  · simp [hget, dateNow, hs, hc]
  · have : ¬ p.consolidationConfig.minRepeatCount ≤ pd.count + 1 := Nat.not_le.mpr hlt
    simp [hget, dateNow, hs, this]

/-- An occurrence that brings an active record to the threshold suppresses it
and arms its consolidation timer. -/
theorem trackLogPattern_crossing (pd : PatternData)
    (hget : mapGet p.logPatterns (getPatternKey streamKey (extractLogPattern line)) = some pd)
    (hs : pd.isSuppressed = false) (hc : pd.isConsolidated = false)
    (hge : p.consolidationConfig.minRepeatCount ≤ pd.count + 1) :
    (trackLogPattern h p streamKey line config).1 =
      { pd with lastSeen := h.clock p.reads, count := pd.count + 1, isConsolidated := true,
                isSuppressed := true, consolidationTimer := some p.nextTimer } := by
  unfold trackLogPattern
  simp [hget, dateNow, hs, hc, hge, startConsolidation, setTimeout]
  split <;> simp [clearTimeout]

end Track

section Buffer

variable (h : Host) (p : LogProcessor) (streamKey : String)

theorem shouldSendBuffer_snd (logStream : LogStream) :
    (shouldSendBuffer h p logStream).2 = { p with reads := p.reads + 1 } := by
  unfold shouldSendBuffer
  simp only [dateNow]
  split_ifs
  · rfl
  · rfl
  · cases logStream.buffer.head? <;> rfl

theorem sendLogBuffer_frame (logStream : LogStream) :
    (sendLogBuffer h p streamKey logStream).activeStreams = p.activeStreams ∧
    (sendLogBuffer h p streamKey logStream).logPatterns = p.logPatterns ∧
    (sendLogBuffer h p streamKey logStream).consolidationConfig = p.consolidationConfig := by
  unfold sendLogBuffer
  split_ifs <;> simp [dateNow]

/-- On an accepted line whose record is returned as consolidated, the loop body
is the call of `trackLogPattern` and nothing else. -/
theorem processLine_suppress (line : String) (logStream : LogStream)
    (hs : mapGet p.activeStreams streamKey = some logStream)
    (hacc : shouldProcessLine h line logStream.config = true)
    (hcons : (trackLogPattern h p streamKey line logStream.config).1.isConsolidated = true) :
    processLine h streamKey p line = (trackLogPattern h p streamKey line logStream.config).2 := by
  unfold processLine
  simp [hs, hacc, hcons]

/-- On an accepted line whose record is returned as not consolidated, the loop
body appends one entry to the buffer of the worker and leaves the records as
`trackLogPattern` made them. -/
theorem processLine_forward (line : String) (logStream : LogStream)
    (hs : mapGet p.activeStreams streamKey = some logStream)
    (hacc : shouldProcessLine h line logStream.config = true)
    (hcons : (trackLogPattern h p streamKey line logStream.config).1.isConsolidated = false) :
    mapGet (processLine h streamKey p line).activeStreams streamKey =
      some { logStream with buffer := logStream.buffer ++
        [{ timestamp := h.clock (trackLogPattern h p streamKey line logStream.config).2.reads,
           line := trim line, pod := logStream.config.podName,
           container := logStream.config.containerName,
           namespace_ := logStream.config.namespace_ }] } ∧
    (processLine h streamKey p line).logPatterns =
      (trackLogPattern h p streamKey line logStream.config).2.logPatterns ∧
    (processLine h streamKey p line).consolidationConfig = p.consolidationConfig := by
  have hf := trackLogPattern_frame h p streamKey line logStream.config
  unfold processLine
  simp only [hs, hacc, hcons, if_true, Bool.not_false, dateNow]
  split_ifs
  · simp [sendLogBuffer_frame, shouldSendBuffer_snd, mapGet_mapSet_self, hf.2.1]
  · simp [shouldSendBuffer_snd, mapGet_mapSet_self, hf.2.1]

/-- The loop body keeps the worker of the stream, its configuration, its
`lastSent` and its `isActive` flag, and keeps the consolidation
configuration. -/
theorem processLine_keeps (line : String) (logStream : LogStream)
    (hs : mapGet p.activeStreams streamKey = some logStream) :
    (∃ logStream', mapGet (processLine h streamKey p line).activeStreams streamKey =
        some logStream' ∧ logStream'.config = logStream.config ∧
        logStream'.lastSent = logStream.lastSent ∧ logStream'.isActive = logStream.isActive) ∧
    (processLine h streamKey p line).consolidationConfig = p.consolidationConfig := by
  by_cases hacc : shouldProcessLine h line logStream.config = true
  · cases hcons : (trackLogPattern h p streamKey line logStream.config).1.isConsolidated with
    | true =>
      rw [processLine_suppress h p streamKey line logStream hs hacc hcons]
      have hf := trackLogPattern_frame h p streamKey line logStream.config
      exact ⟨⟨logStream, by rw [hf.1]; exact hs, rfl, rfl, rfl⟩, hf.2.1⟩
    | false =>
      have hfw := processLine_forward h p streamKey line logStream hs hacc hcons
      exact ⟨⟨_, hfw.1, rfl, rfl, rfl⟩, hfw.2.2⟩
  · have hrej : processLine h streamKey p line = p :=
      processLine_rejected h streamKey line p (fun ls hls => by
        have : ls = logStream := by rw [hs] at hls; exact (Option.some.inj hls).symm
        rw [this]; simpa using hacc)
    rw [hrej]
    exact ⟨⟨logStream, hs, rfl, rfl, rfl⟩, rfl⟩

/-- The loop keeps the configuration of the worker it runs for. -/
theorem processLines_keeps (lines : List String) :
    ∀ (p : LogProcessor) (logStream : LogStream),
      mapGet p.activeStreams streamKey = some logStream →
      ∃ logStream', mapGet (processLines h streamKey lines p).activeStreams streamKey =
        some logStream' ∧ logStream'.config = logStream.config := by
  induction lines with
  | nil => intro p logStream hs; exact ⟨logStream, hs, rfl⟩
  | cons line rest ih =>
    intro p logStream hs
    obtain ⟨⟨ls1, h1, hc1, _, _⟩, _⟩ := processLine_keeps h p streamKey line logStream hs
    obtain ⟨ls2, h2, hc2⟩ := ih (processLine h streamKey p line) ls1 h1
    exact ⟨ls2, h2, hc2.trans hc1⟩

theorem processLines_append (xs ys : List String) :
    processLines h streamKey (xs ++ ys) p =
      processLines h streamKey ys (processLines h streamKey xs p) := by
  simp [processLines, List.foldl_append]

end Buffer

/-- C1. A line whose severity (as `extractLogLevel` assigns it) ranks below
the level of the stream, for a level among debug, info, warn and error, is
rejected by `shouldProcessLine`; the loop body of `processLogChunk` leaves the
whole state as it was on such a line (no buffer entry, no pattern record
created or updated), and `processLogChunk` gives the same state for a chunk
that contains the line as for the chunk without it. -/
theorem below_level_never_forwarded (h : Host) (line lvl : String) (config : Config) (a r : Nat)
    (hlevel : config.level = some lvl) (hr : levels lvl = some r)
    (ha : levels (extractLogLevel line) = some a) (hlt : a < r) :
    shouldProcessLine h line config = false ∧
    ∀ (p : LogProcessor) (streamKey : String) (logStream : LogStream),
      mapGet p.activeStreams streamKey = some logStream → logStream.config = config →
      processLine h streamKey p line = p ∧
      ∀ (pre post : List String) (chunk chunk' : String),
        chunkLines chunk = pre ++ line :: post → chunkLines chunk' = pre ++ post →
        processLogChunk h p streamKey chunk = processLogChunk h p streamKey chunk' := by
  have hrej := shouldProcessLine_below h line lvl config a r hlevel hr ha hlt
  refine ⟨hrej, fun p streamKey logStream hs hc => ?_⟩
  refine ⟨processLine_rejected h streamKey line p (fun ls hls => ?_),
    fun pre post chunk chunk' hchunk hchunk' => ?_⟩
  · have : ls = logStream := by rw [hs] at hls; exact (Option.some.inj hls).symm
    rw [this, hc]; exact hrej
  · obtain ⟨ls1, h1, hc1⟩ := processLines_keeps h streamKey pre p logStream hs
    have hstep : processLine h streamKey (processLines h streamKey pre p) line =
        processLines h streamKey pre p :=
      processLine_rejected h streamKey line _ (fun ls hls => by
        have : ls = ls1 := by rw [h1] at hls; exact (Option.some.inj hls).symm
        rw [this, hc1, hc]; exact hrej)
    have hlines : processLines h streamKey (pre ++ line :: post) p =
        processLines h streamKey (pre ++ post) p := by
      rw [processLines_append, processLines_append]
      show processLines h streamKey post
        (processLine h streamKey (processLines h streamKey pre p) line) = _
      rw [hstep]
    simp only [processLogChunk, hs, hchunk, hchunk', hlines]

/-- C1, at the scenario of the specification: a stream at level `error` and the
line `INFO: heartbeat`. -/
theorem below_level_never_forwarded_witness :
    shouldProcessLine tickingHost "INFO: heartbeat" { level := some "error" } = false ∧
    ∀ (p : LogProcessor) (streamKey : String) (logStream : LogStream),
      mapGet p.activeStreams streamKey = some logStream →
      logStream.config = { level := some "error" } →
      processLine tickingHost streamKey p "INFO: heartbeat" = p ∧
      ∀ (pre post : List String) (chunk chunk' : String),
        chunkLines chunk = pre ++ "INFO: heartbeat" :: post → chunkLines chunk' = pre ++ post →
        processLogChunk tickingHost p streamKey chunk =
          processLogChunk tickingHost p streamKey chunk' :=
  below_level_never_forwarded tickingHost "INFO: heartbeat" "error"
    { level := some "error" } 1 3 rfl (by decide) (by decide) (by decide)

section Counting

variable (h : Host) (streamKey : String) (config : Config)

/-- One occurrence on an active pattern counted `n` times: below the threshold
it is counted and the record stays active; at the threshold the record comes
back consolidated and suppressed. -/
theorem track_active_step (p : LogProcessor) (line : String) (n : Nat)
    (hact : ActiveWith p (getPatternKey streamKey (extractLogPattern line)) n) :
    (n + 1 < p.consolidationConfig.minRepeatCount →
      (trackLogPattern h p streamKey line config).1.count = n + 1 ∧
      (trackLogPattern h p streamKey line config).1.isConsolidated = false ∧
      (trackLogPattern h p streamKey line config).1.isSuppressed = false) ∧
    (p.consolidationConfig.minRepeatCount ≤ n + 1 →
      (trackLogPattern h p streamKey line config).1.count = n + 1 ∧
      (trackLogPattern h p streamKey line config).1.isConsolidated = true ∧
      (trackLogPattern h p streamKey line config).1.isSuppressed = true) := by
  cases hget : mapGet p.logPatterns (getPatternKey streamKey (extractLogPattern line)) with
  | none =>
    have hn : n = 0 := by
      rcases hact with ⟨_, hn⟩ | hsome
      · exact hn
      · simp [statusOf, hget] at hsome
    subst hn
    rw [trackLogPattern_fresh h p streamKey line config hget]
    have hget0 : mapGet
        ({ p with
            reads := p.reads + 1
            logPatterns := mapSet p.logPatterns (getPatternKey streamKey (extractLogPattern line))
              (freshPattern (extractLogPattern line) (h.clock p.reads) config) } :
          LogProcessor).logPatterns
        (getPatternKey streamKey (extractLogPattern line)) =
        some (freshPattern (extractLogPattern line) (h.clock p.reads) config) :=
      mapGet_mapSet_self _ _ _
    constructor
    · intro hlt
      have hc := (trackLogPattern_counted h _ streamKey line config _ hget0 rfl (Or.inr hlt)).1
      rw [hc]; simp [freshPattern]
    · intro hge
      have hc := trackLogPattern_crossing h _ streamKey line config _ hget0 rfl rfl hge
      rw [hc]; simp [freshPattern]
  | some pd =>
    have hst : pd.count = n ∧ pd.isConsolidated = false ∧ pd.isSuppressed = false := by
      rcases hact with ⟨hnone, _⟩ | hsome
      · simp [statusOf, hget] at hnone
      · simpa [statusOf, hget] using hsome
    obtain ⟨hcnt, hcons, hsup⟩ := hst
    constructor
    · intro hlt
      have hc := (trackLogPattern_counted h p streamKey line config pd hget hsup
        (Or.inr (by rw [hcnt]; exact hlt))).1
      rw [hc]; simp [hcnt, hcons, hsup]
    · intro hge
      have hc := trackLogPattern_crossing h p streamKey line config pd hget hsup hcons
        (by rw [hcnt]; exact hge)
      rw [hc]; simp [hcnt]

/-- The status stored after a call is the status of the returned record. -/
theorem statusOf_track (p : LogProcessor) (line : String) :
    statusOf (trackLogPattern h p streamKey line config).2
        (getPatternKey streamKey (extractLogPattern line)) =
      some ((trackLogPattern h p streamKey line config).1.count,
        (trackLogPattern h p streamKey line config).1.isConsolidated,
        (trackLogPattern h p streamKey line config).1.isSuppressed) := by
  simp [statusOf, trackLogPattern_stored]

/-- Occurrences below the threshold keep the pattern active and are all
counted. -/
theorem trackAll_active (pat : String) (lines : List String) :
    ∀ (p : LogProcessor) (n : Nat),
      ActiveWith p (getPatternKey streamKey pat) n →
      (∀ l ∈ lines, extractLogPattern l = pat) →
      n + lines.length < p.consolidationConfig.minRepeatCount →
      ActiveWith (trackAll h streamKey config lines p) (getPatternKey streamKey pat)
        (n + lines.length) ∧
      (trackAll h streamKey config lines p).consolidationConfig = p.consolidationConfig := by
  induction lines with
  | nil => intro p n hact _ _; exact ⟨hact, rfl⟩
  | cons line rest ih =>
    intro p n hact hpat hlt
    have hl : extractLogPattern line = pat := hpat line (List.mem_cons_self _ _)
    have hlen : (line :: rest).length = rest.length + 1 := rfl
    rw [hlen] at hlt
    have hstep := (track_active_step h streamKey config p line n (by rw [hl]; exact hact)).1
      (by omega)
    have hfr := trackLogPattern_frame h p streamKey line config
    have hact1 : ActiveWith (trackLogPattern h p streamKey line config).2
        (getPatternKey streamKey pat) (n + 1) := by
      right
      rw [← hl, statusOf_track, hstep.1, hstep.2.1, hstep.2.2]
    have := ih (trackLogPattern h p streamKey line config).2 (n + 1) hact1
      (fun l hm => hpat l (List.mem_cons_of_mem _ hm)) (by rw [hfr.2.1]; omega)
    refine ⟨?_, ?_⟩
    · have h1 := this.1
      rw [hlen]
      have e : n + (rest.length + 1) = n + 1 + rest.length := by omega
      rw [e]; exact h1
    · exact this.2.trans hfr.2.1

end Counting

/-- C2. With the threshold `T = minRepeatCount` held fixed and no record yet for
the pattern of a stream, the k-th consecutive call of `trackLogPattern`
(`k = lines.length + 1`, after the calls for `lines`) returns a record that is
not consolidated when `k < T`, and a record that is consolidated and suppressed
when `k = T` (such a `k` exists exactly when `T ≥ 1`). -/
theorem repeat_threshold_decisions (h : Host) (p : LogProcessor) (streamKey pat : String)
    (config : Config) (lines : List String) (line : String)
    (hfresh : mapGet p.logPatterns (getPatternKey streamKey pat) = none)
    (hlines : ∀ l ∈ lines, extractLogPattern l = pat) (hline : extractLogPattern line = pat) :
    (lines.length + 1 < p.consolidationConfig.minRepeatCount →
      (trackLogPattern h (trackAll h streamKey config lines p) streamKey line config).1.isConsolidated
        = false) ∧
    (lines.length + 1 = p.consolidationConfig.minRepeatCount →
      (trackLogPattern h (trackAll h streamKey config lines p) streamKey line config).1.isConsolidated
        = true ∧
      (trackLogPattern h (trackAll h streamKey config lines p) streamKey line config).1.isSuppressed
        = true) := by
  have h0 : ActiveWith p (getPatternKey streamKey pat) 0 := Or.inl ⟨by simp [statusOf, hfresh], rfl⟩
  constructor
  · intro hlt
    have hall := trackAll_active h streamKey config pat lines p 0 h0 hlines (by omega)
    have hstep := (track_active_step h streamKey config _ line (0 + lines.length)
      (by rw [hline]; exact hall.1)).1 (by rw [hall.2]; omega)
    exact hstep.2.1
  · intro heq
    have hall := trackAll_active h streamKey config pat lines p 0 h0 hlines (by omega)
    have hstep := (track_active_step h streamKey config _ line (0 + lines.length)
      (by rw [hline]; exact hall.1)).2 (by rw [hall.2]; omega)
    exact ⟨hstep.2.1, hstep.2.2⟩

/-- C2 at threshold 3 on an empty processor: the third occurrence of a pattern
(lines that differ in a number only) comes back consolidated and suppressed. -/
theorem repeat_threshold_decisions_witness :
    (2 + 1 < 3 →
      (trackLogPattern ⟨fun n => n, fun _ _ => none⟩
        (trackAll ⟨fun n => n, fun _ _ => none⟩ "s" {} ["job 1234 failed", "job 5678 failed"]
          { consolidationConfig := { minRepeatCount := 3 } })
        "s" "job 9999 failed" {}).1.isConsolidated = false) ∧
    (2 + 1 = 3 →
      (trackLogPattern ⟨fun n => n, fun _ _ => none⟩
        (trackAll ⟨fun n => n, fun _ _ => none⟩ "s" {} ["job 1234 failed", "job 5678 failed"]
          { consolidationConfig := { minRepeatCount := 3 } })
        "s" "job 9999 failed" {}).1.isConsolidated = true ∧
      (trackLogPattern ⟨fun n => n, fun _ _ => none⟩
        (trackAll ⟨fun n => n, fun _ _ => none⟩ "s" {} ["job 1234 failed", "job 5678 failed"]
          { consolidationConfig := { minRepeatCount := 3 } })
        "s" "job 9999 failed" {}).1.isSuppressed = true) :=
  repeat_threshold_decisions ⟨fun n => n, fun _ _ => none⟩
    { consolidationConfig := { minRepeatCount := 3 } } "s" "job <NUMBER> failed" {}
    ["job 1234 failed", "job 5678 failed"] "job 9999 failed"
    (by rfl) (by decide) (by decide)

section Suppressed

variable (h : Host) (streamKey : String) (config : Config)

theorem trackAll_append (xs ys : List String) :
    ∀ p : LogProcessor, trackAll h streamKey config (xs ++ ys) p =
      trackAll h streamKey config ys (trackAll h streamKey config xs p) := by
  induction xs with
  | nil => intro p; rfl
  | cons x rest ih => intro p; exact ih _

/-- Occurrences on a suppressed record change neither its count nor its
flags. -/
theorem trackAll_suppressed (pat : String) (lines : List String) :
    ∀ (p : LogProcessor) (c : Nat) (b : Bool),
      statusOf p (getPatternKey streamKey pat) = some (c, b, true) →
      (∀ l ∈ lines, extractLogPattern l = pat) →
      statusOf (trackAll h streamKey config lines p) (getPatternKey streamKey pat) =
        some (c, b, true) := by
  induction lines with
  | nil => intro p c b hst _; exact hst
  | cons line rest ih =>
    intro p c b hst hpat
    have hl : extractLogPattern line = pat := hpat line (List.mem_cons_self _ _)
    apply ih _ c b _ (fun l hm => hpat l (List.mem_cons_of_mem _ hm))
    cases hget : mapGet p.logPatterns (getPatternKey streamKey (extractLogPattern line)) with
    | none => rw [hl] at hget; simp [statusOf, hget] at hst
    | some pd =>
      have hpd : pd.count = c ∧ pd.isConsolidated = b ∧ pd.isSuppressed = true := by
        rw [hl] at hget; simpa [statusOf, hget] using hst
      have hr := (trackLogPattern_suppressed h p streamKey line config pd hget hpd.2.2).1
      rw [← hl, statusOf_track, hr]
      simp [hpd.1, hpd.2.1, hpd.2.2]

theorem trackAll_frame (lines : List String) :
    ∀ p : LogProcessor,
      (trackAll h streamKey config lines p).activeStreams = p.activeStreams ∧
      (trackAll h streamKey config lines p).consolidationConfig = p.consolidationConfig ∧
      (trackAll h streamKey config lines p).sent = p.sent ∧
      (trackAll h streamKey config lines p).pending = p.pending := by
  induction lines with
  | nil => intro p; exact ⟨rfl, rfl, rfl, rfl⟩
  | cons line rest ih =>
    intro p
    have hfr := trackLogPattern_frame h p streamKey line config
    have := ih (trackLogPattern h p streamKey line config).2
    exact ⟨this.1.trans hfr.1, this.2.1.trans hfr.2.1, this.2.2.1.trans hfr.2.2.1,
      this.2.2.2.trans hfr.2.2.2⟩

/-- From an active pattern counted fewer than `T` times, occurrences that reach
the threshold leave a consolidated, suppressed record whose count is `T`. -/
theorem trackAll_reaches (pat : String) (lines : List String) :
    ∀ (p : LogProcessor) (n : Nat),
      ActiveWith p (getPatternKey streamKey pat) n →
      (∀ l ∈ lines, extractLogPattern l = pat) →
      n < p.consolidationConfig.minRepeatCount →
      p.consolidationConfig.minRepeatCount ≤ n + lines.length →
      statusOf (trackAll h streamKey config lines p) (getPatternKey streamKey pat) =
        some (p.consolidationConfig.minRepeatCount, true, true) := by
  induction lines with
  | nil => intro p n _ _ hlt hge; simp at hge; omega
  | cons line rest ih =>
    intro p n hact hpat hlt hge
    have hl : extractLogPattern line = pat := hpat line (List.mem_cons_self _ _)
    have hrest : ∀ l ∈ rest, extractLogPattern l = pat :=
      fun l hm => hpat l (List.mem_cons_of_mem _ hm)
    have hlen : (line :: rest).length = rest.length + 1 := rfl
    rw [hlen] at hge
    have hfr := trackLogPattern_frame h p streamKey line config
    have hstep := track_active_step h streamKey config p line n (by rw [hl]; exact hact)
    by_cases hlow : n + 1 < p.consolidationConfig.minRepeatCount
    · have hs := hstep.1 hlow
      have hact1 : ActiveWith (trackLogPattern h p streamKey line config).2
          (getPatternKey streamKey pat) (n + 1) := by
        right
        rw [← hl, statusOf_track, hs.1, hs.2.1, hs.2.2]
      have := ih (trackLogPattern h p streamKey line config).2 (n + 1) hact1 hrest
        (by rw [hfr.2.1]; exact hlow) (by rw [hfr.2.1]; omega)
      rw [hfr.2.1] at this
      exact this
    · have hs := hstep.2 (by omega)
      have hst1 : statusOf (trackLogPattern h p streamKey line config).2
          (getPatternKey streamKey pat) =
          some (p.consolidationConfig.minRepeatCount, true, true) := by
        rw [← hl, statusOf_track, hs.1, hs.2.1, hs.2.2]
        have : n + 1 = p.consolidationConfig.minRepeatCount := by omega
        rw [this]
      exact trackAll_suppressed h streamKey config pat rest _ _ _ hst1 hrest

end Suppressed

/-- C5. Every call of `trackLogPattern` sets `lastSeen` of the record it
returns (the one stored under the key) to the current time, the clock read it
makes last; and when the record was suppressed before the call, its count, its
two flags and its two timer fields are as before, and no timer is armed or
cleared. -/
theorem lastSeen_refreshed_only (h : Host) (p : LogProcessor) (streamKey line : String)
    (config : Config) :
    (p.reads < (trackLogPattern h p streamKey line config).2.reads ∧
     (trackLogPattern h p streamKey line config).1.lastSeen =
        h.clock ((trackLogPattern h p streamKey line config).2.reads - 1) ∧
     mapGet (trackLogPattern h p streamKey line config).2.logPatterns
        (getPatternKey streamKey (extractLogPattern line)) =
        some (trackLogPattern h p streamKey line config).1) ∧
    ∀ pd : PatternData,
      mapGet p.logPatterns (getPatternKey streamKey (extractLogPattern line)) = some pd →
      pd.isSuppressed = true →
      (trackLogPattern h p streamKey line config).1.count = pd.count ∧
      (trackLogPattern h p streamKey line config).1.isConsolidated = pd.isConsolidated ∧
      (trackLogPattern h p streamKey line config).1.isSuppressed = pd.isSuppressed ∧
      (trackLogPattern h p streamKey line config).1.consolidationTimer = pd.consolidationTimer ∧
      (trackLogPattern h p streamKey line config).1.stoppedTimer = pd.stoppedTimer ∧
      (trackLogPattern h p streamKey line config).2.timers = p.timers := by
  refine ⟨⟨?_, ?_, trackLogPattern_stored h p streamKey line config⟩, fun pd hget hs => ?_⟩
  · unfold trackLogPattern
    cases hget : mapGet p.logPatterns (getPatternKey streamKey (extractLogPattern line)) <;>
      simp only [hget, dateNow] <;> split_ifs <;>
      simp only [startConsolidation, setTimeout, clearTimeout] <;> (try split) <;>
      (try simp only [clearTimeout]) <;> omega
  · unfold trackLogPattern
    cases hget : mapGet p.logPatterns (getPatternKey streamKey (extractLogPattern line)) <;>
      simp only [hget, dateNow] <;> split_ifs <;>
      simp only [startConsolidation, setTimeout, clearTimeout] <;> (try split) <;>
      (try simp only [clearTimeout]) <;> simp
  · have hr := trackLogPattern_suppressed h p streamKey line config pd hget hs
    rw [hr.1]
    exact ⟨rfl, rfl, rfl, rfl, rfl, hr.2.1⟩

/-- C5 on a suppressed record with both timers set: the call changes
`lastSeen` only. -/
theorem lastSeen_refreshed_only_witness :
    (trackLogPattern ⟨fun n => 1000 + n, fun _ _ => none⟩
      { logPatterns := [("s:boom", ⟨"boom", 3, false, true, 5, {}, some 1, some 2⟩)],
        timers := [(2, TimerTask.stopped "s:boom")], nextTimer := 3 }
      "s" "boom" {}).1 = ⟨"boom", 3, false, true, 1000, {}, some 1, some 2⟩ ∧
    (trackLogPattern ⟨fun n => 1000 + n, fun _ _ => none⟩
      { logPatterns := [("s:boom", ⟨"boom", 3, false, true, 5, {}, some 1, some 2⟩)],
        timers := [(2, TimerTask.stopped "s:boom")], nextTimer := 3 }
      "s" "boom" {}).2.timers = [(2, TimerTask.stopped "s:boom")] := by
  have hw := (lastSeen_refreshed_only ⟨fun n => 1000 + n, fun _ _ => none⟩
    { logPatterns := [("s:boom", ⟨"boom", 3, false, true, 5, {}, some 1, some 2⟩)],
      timers := [(2, TimerTask.stopped "s:boom")], nextTimer := 3 }
    "s" "boom" {}).2 ⟨"boom", 3, false, true, 5, {}, some 1, some 2⟩ (by decide) rfl
  exact ⟨by decide, hw.2.2.2.2.2⟩

/-- C6. With the threshold `T ≥ 1` held fixed and a pattern that has no record
yet, after `T` or more consecutive occurrences (the first `T` reach the
threshold, any number may follow) the record has count `T`, so the summary
that `sendConsolidationSummary` hands to `sendMessage` reports exactly
`T`. -/
theorem summary_reports_threshold (h : Host) (p : LogProcessor) (streamKey pat : String)
    (config : Config) (lines : List String) (ok : Bool)
    (hT : 1 ≤ p.consolidationConfig.minRepeatCount)
    (hfresh : mapGet p.logPatterns (getPatternKey streamKey pat) = none)
    (hlines : ∀ l ∈ lines, extractLogPattern l = pat)
    (hlen : p.consolidationConfig.minRepeatCount ≤ lines.length) :
    (∃ pd, mapGet (trackAll h streamKey config lines p).logPatterns
        (getPatternKey streamKey pat) = some pd ∧
      ∀ now, (formatConsolidationMessage now pd).reportedCount =
        some p.consolidationConfig.minRepeatCount) ∧
    ∃ call, (sendConsolidationSummary h (trackAll h streamKey config lines p)
        (getPatternKey streamKey pat) ok).sent =
          (trackAll h streamKey config lines p).sent ++ [call] ∧
      call.message.reportedCount = some p.consolidationConfig.minRepeatCount := by
  have h0 : ActiveWith p (getPatternKey streamKey pat) 0 := Or.inl ⟨by simp [statusOf, hfresh], rfl⟩
  have hst := trackAll_reaches h streamKey config pat lines p 0 h0 hlines (by omega) (by omega)
  cases hget : mapGet (trackAll h streamKey config lines p).logPatterns
      (getPatternKey streamKey pat) with
  | none => simp [statusOf, hget] at hst
  | some pd =>
    have hcount : pd.count = p.consolidationConfig.minRepeatCount := by
      have := hst; simp [statusOf, hget] at this; exact this.1
    refine ⟨⟨pd, rfl, fun now => by simp [formatConsolidationMessage, Message.reportedCount, hcount]⟩, ?_⟩
    unfold sendConsolidationSummary
    simp only [hget, dateNow]
    cases ok <;> simp [formatConsolidationMessage, Message.reportedCount, hcount]

/-- C6 at threshold 2: two occurrences reach the threshold, two more follow,
and the summary reports 2. -/
theorem summary_reports_threshold_witness :
    (∃ pd, mapGet (trackAll ⟨fun n => n, fun _ _ => none⟩ "s" {} ["x", "x", "x", "x"]
        { consolidationConfig := { minRepeatCount := 2 } }).logPatterns
        (getPatternKey "s" "x") = some pd ∧
      ∀ now, (formatConsolidationMessage now pd).reportedCount = some 2) ∧
    ∃ call, (sendConsolidationSummary ⟨fun n => n, fun _ _ => none⟩
        (trackAll ⟨fun n => n, fun _ _ => none⟩ "s" {} ["x", "x", "x", "x"]
          { consolidationConfig := { minRepeatCount := 2 } })
        (getPatternKey "s" "x") true).sent =
          (trackAll ⟨fun n => n, fun _ _ => none⟩ "s" {} ["x", "x", "x", "x"]
            { consolidationConfig := { minRepeatCount := 2 } }).sent ++ [call] ∧
      call.message.reportedCount = some 2 :=
  summary_reports_threshold ⟨fun n => n, fun _ _ => none⟩
    { consolidationConfig := { minRepeatCount := 2 } } "s" "x" {} ["x", "x", "x", "x"] true
    (by decide) (by rfl) (by decide) (by decide)

/-- C9. When `sendStoppedMessage` has delivered the resolution message of a
record (the awaited `sendMessage` succeeded), no record is left under its key,
and with a threshold above 1 the next `trackLogPattern` call for the same
stream and pattern returns a record with count 1 that is neither suppressed nor
consolidated. -/
theorem resolved_pattern_restarts (h : Host) (p : LogProcessor) (streamKey line : String)
    (config : Config) (pd : PatternData)
    (hT : 1 < p.consolidationConfig.minRepeatCount)
    (hget : mapGet p.logPatterns (getPatternKey streamKey (extractLogPattern line)) = some pd) :
    (sendStoppedMessage h p (getPatternKey streamKey (extractLogPattern line)) true).sent =
      p.sent ++ [⟨pd.config.channel, formatStoppedMessage (h.clock p.reads) pd, pd.config⟩] ∧
    mapGet (sendStoppedMessage h p (getPatternKey streamKey (extractLogPattern line)) true).logPatterns
      (getPatternKey streamKey (extractLogPattern line)) = none ∧
    (trackLogPattern h
      (sendStoppedMessage h p (getPatternKey streamKey (extractLogPattern line)) true)
      streamKey line config).1.count = 1 ∧
    (trackLogPattern h
      (sendStoppedMessage h p (getPatternKey streamKey (extractLogPattern line)) true)
      streamKey line config).1.isSuppressed = false ∧
    (trackLogPattern h
      (sendStoppedMessage h p (getPatternKey streamKey (extractLogPattern line)) true)
      streamKey line config).1.isConsolidated = false := by
  have hsent : (sendStoppedMessage h p (getPatternKey streamKey (extractLogPattern line))
      true).sent =
      p.sent ++ [⟨pd.config.channel, formatStoppedMessage (h.clock p.reads) pd, pd.config⟩] := by
    simp [sendStoppedMessage, hget, dateNow]
  have hnone : mapGet (sendStoppedMessage h p (getPatternKey streamKey (extractLogPattern line))
      true).logPatterns (getPatternKey streamKey (extractLogPattern line)) = none := by
    simp [sendStoppedMessage, hget, dateNow, mapGet_mapDelete_self]
  have hcfg : (sendStoppedMessage h p (getPatternKey streamKey (extractLogPattern line))
      true).consolidationConfig = p.consolidationConfig := by
    simp [sendStoppedMessage, hget, dateNow]
  have hact : ActiveWith (sendStoppedMessage h p (getPatternKey streamKey (extractLogPattern line))
      true) (getPatternKey streamKey (extractLogPattern line)) 0 :=
    Or.inl ⟨by simp [statusOf, hnone], rfl⟩
  have hstep := (track_active_step h streamKey config _ line 0 hact).1 (by rw [hcfg]; omega)
  exact ⟨hsent, hnone, hstep.1, hstep.2.2, hstep.2.1⟩

/-- C9 on a suppressed record at the default threshold 10. -/
theorem resolved_pattern_restarts_witness :
    (sendStoppedMessage ⟨fun n => 1000 + n, fun _ _ => none⟩
      { logPatterns := [("s:boom", ⟨"boom", 0, false, true, 5, {}, none, some 2⟩)] }
      (getPatternKey "s" (extractLogPattern "boom")) true).sent =
      [⟨"#general", formatStoppedMessage 1000 ⟨"boom", 0, false, true, 5, {}, none, some 2⟩, {}⟩] ∧
    mapGet (sendStoppedMessage ⟨fun n => 1000 + n, fun _ _ => none⟩
      { logPatterns := [("s:boom", ⟨"boom", 0, false, true, 5, {}, none, some 2⟩)] }
      (getPatternKey "s" (extractLogPattern "boom")) true).logPatterns
      (getPatternKey "s" (extractLogPattern "boom")) = none ∧
    (trackLogPattern ⟨fun n => 1000 + n, fun _ _ => none⟩
      (sendStoppedMessage ⟨fun n => 1000 + n, fun _ _ => none⟩
        { logPatterns := [("s:boom", ⟨"boom", 0, false, true, 5, {}, none, some 2⟩)] }
        (getPatternKey "s" (extractLogPattern "boom")) true)
      "s" "boom" {}).1.count = 1 ∧
    (trackLogPattern ⟨fun n => 1000 + n, fun _ _ => none⟩
      (sendStoppedMessage ⟨fun n => 1000 + n, fun _ _ => none⟩
        { logPatterns := [("s:boom", ⟨"boom", 0, false, true, 5, {}, none, some 2⟩)] }
        (getPatternKey "s" (extractLogPattern "boom")) true)
      "s" "boom" {}).1.isSuppressed = false ∧
    (trackLogPattern ⟨fun n => 1000 + n, fun _ _ => none⟩
      (sendStoppedMessage ⟨fun n => 1000 + n, fun _ _ => none⟩
        { logPatterns := [("s:boom", ⟨"boom", 0, false, true, 5, {}, none, some 2⟩)] }
        (getPatternKey "s" (extractLogPattern "boom")) true)
      "s" "boom" {}).1.isConsolidated = false :=
  resolved_pattern_restarts ⟨fun n => 1000 + n, fun _ _ => none⟩
    { logPatterns := [("s:boom", ⟨"boom", 0, false, true, 5, {}, none, some 2⟩)] }
    "s" "boom" {} ⟨"boom", 0, false, true, 5, {}, none, some 2⟩ (by decide) (by decide)

section Stopped

variable (h : Host) (streamKey : String) (now : Int)

theorem isStale_congr (p q : LogProcessor) (hc : q.consolidationConfig = p.consolidationConfig)
    (k : String) (pd : PatternData) :
    isStale q streamKey now k pd = isStale p streamKey now k pd := by
  simp [isStale, hc]

theorem isStale_armed (p : LogProcessor) (k : String) (pd : PatternData) (t : Nat)
    (ht : pd.stoppedTimer = some t) : isStale p streamKey now k pd = false := by
  simp [isStale, ht]

/-- What the loop of `checkForStoppedPatterns` does to each record: a record
met by the loop that passes the test, with stopped messages enabled, gets a
resolution timer; every other record is as before; nothing but the resolution
timer field of a record changes. -/
theorem checkStoppedLoop_spec (keys : List String) :
    ∀ p : LogProcessor,
      (checkStoppedLoop streamKey now keys p).consolidationConfig = p.consolidationConfig ∧
      (checkStoppedLoop streamKey now keys p).activeStreams = p.activeStreams ∧
      (checkStoppedLoop streamKey now keys p).sent = p.sent ∧
      (checkStoppedLoop streamKey now keys p).pending = p.pending ∧
      (checkStoppedLoop streamKey now keys p).reads = p.reads ∧
      ∀ k : String,
        (mapGet p.logPatterns k = none →
          mapGet (checkStoppedLoop streamKey now keys p).logPatterns k = none) ∧
        ∀ pd, mapGet p.logPatterns k = some pd →
          ∃ pd', mapGet (checkStoppedLoop streamKey now keys p).logPatterns k = some pd' ∧
            forgetStopped pd' = forgetStopped pd ∧
            ((k ∈ keys ∧ isStale p streamKey now k pd = true ∧
                p.consolidationConfig.enableStoppedMessages = true) →
              pd.stoppedTimer = none ∧ pd'.stoppedTimer.isSome = true) ∧
            (¬ (k ∈ keys ∧ isStale p streamKey now k pd = true ∧
                p.consolidationConfig.enableStoppedMessages = true) →
              pd'.stoppedTimer = pd.stoppedTimer) := by
  induction keys with
  | nil =>
    intro p
    refine ⟨rfl, rfl, rfl, rfl, rfl, fun k => ⟨fun hn => hn, fun pd hpd => ⟨pd, hpd, rfl, ?_, fun _ => rfl⟩⟩⟩
    intro hc; simp at hc
  | cons k0 rest ih =>
    intro p
    cases h0 : mapGet p.logPatterns k0 with
    | none =>
      have hloop : checkStoppedLoop streamKey now (k0 :: rest) p =
          checkStoppedLoop streamKey now rest p := by
        simp [checkStoppedLoop, h0]
      rw [hloop]
      obtain ⟨i1, i2, i3, i4, i5, ik⟩ := ih p
      refine ⟨i1, i2, i3, i4, i5, fun k => ⟨(ik k).1, fun pd hpd => ?_⟩⟩
      obtain ⟨pd', g1, g2, g3, g4⟩ := (ik k).2 pd hpd
      have hk : k ≠ k0 := by
        intro e; rw [e, h0] at hpd; cases hpd
      refine ⟨pd', g1, g2, fun hc => g3 ⟨?_, hc.2⟩, fun hc => g4 (fun hc' => hc ⟨?_, hc'.2⟩)⟩
      · rcases List.mem_cons.mp hc.1 with e | hm
        · exact absurd e hk
        · exact hm
      · exact List.mem_cons_of_mem _ hc'.1
    | some pd0 =>
      by_cases hst : isStale p streamKey now k0 pd0 = true
      · by_cases hen : p.consolidationConfig.enableStoppedMessages = true
        · -- the record gets a timer
          obtain ⟨t, q, hq, hqc, hqa, hqs, hqp, hqr, hql⟩ :
              ∃ (t : Nat) (q : LogProcessor),
                checkStoppedLoop streamKey now (k0 :: rest) p =
                  checkStoppedLoop streamKey now rest q ∧
                q.consolidationConfig = p.consolidationConfig ∧
                q.activeStreams = p.activeStreams ∧ q.sent = p.sent ∧
                q.pending = p.pending ∧ q.reads = p.reads ∧
                q.logPatterns = mapSet p.logPatterns k0 { pd0 with stoppedTimer := some t } := by
            have hto : pd0.stoppedTimer = none := by
              have := hst; simp [isStale] at this; exact this.1.2
            refine ⟨p.nextTimer,
              { p with
                nextTimer := p.nextTimer + 1
                timers := p.timers ++ [(p.nextTimer, TimerTask.stopped k0)]
                logPatterns := mapSet p.logPatterns k0
                  { pd0 with stoppedTimer := some p.nextTimer } },
              ?_, rfl, rfl, rfl, rfl, rfl, rfl⟩
            simp [checkStoppedLoop, h0, hst, scheduleStoppedMessage, hen, hto, setTimeout]
          rw [hq]
          obtain ⟨i1, i2, i3, i4, i5, ik⟩ := ih q
          refine ⟨i1.trans hqc, i2.trans hqa, i3.trans hqs, i4.trans hqp, i5.trans hqr, fun k => ?_⟩
          by_cases hk : k = k0
          · subst hk
            have hgq : mapGet q.logPatterns k = some { pd0 with stoppedTimer := some t } := by
              rw [hql]; exact mapGet_mapSet_self _ _ _
            refine ⟨fun hn => (by rw [h0] at hn; cases hn), fun pd hpd => ?_⟩
            have hpd0 : pd = pd0 := by rw [h0] at hpd; exact (Option.some.inj hpd).symm
            subst hpd0
            obtain ⟨pd', g1, g2, _, g4⟩ := (ik k).2 _ hgq
            have hns : isStale q streamKey now k { pd with stoppedTimer := some t } = false :=
              isStale_armed streamKey now q k _ t rfl
            have hkeep := g4 (fun hc => by rw [hns] at hc; exact absurd hc.2.1 (by simp))
            refine ⟨pd', g1, ?_, fun _ => ⟨?_, ?_⟩, fun hc => absurd ⟨List.mem_cons_self _ _, hst, hen⟩ hc⟩
            · rw [g2]; rfl
            · have := hst; simp [isStale] at this; exact this.1.2
            · rw [hkeep]; rfl
          · have hgq : mapGet q.logPatterns k = mapGet p.logPatterns k := by
              rw [hql]; exact mapGet_mapSet_ne _ _ _ _ hk
            refine ⟨fun hn => (ik k).1 (by rw [hgq]; exact hn), fun pd hpd => ?_⟩
            obtain ⟨pd', g1, g2, g3, g4⟩ := (ik k).2 pd (by rw [hgq]; exact hpd)
            rw [isStale_congr streamKey now p q hqc, hqc] at g3 g4
            refine ⟨pd', g1, g2, fun hc => g3 ⟨?_, hc.2⟩, fun hc => g4 (fun hc' => hc ⟨?_, hc'.2⟩)⟩
            · rcases List.mem_cons.mp hc.1 with e | hm
              · exact absurd e hk
              · exact hm
            · exact List.mem_cons_of_mem _ hc'.1
        · -- stopped messages are off: the record is written back as it was
          have hq : checkStoppedLoop streamKey now (k0 :: rest) p =
              checkStoppedLoop streamKey now rest
                { p with logPatterns := mapSet p.logPatterns k0 pd0 } := by
            simp [checkStoppedLoop, h0, hst, scheduleStoppedMessage, hen]
          rw [hq]
          obtain ⟨i1, i2, i3, i4, i5, ik⟩ := ih { p with logPatterns := mapSet p.logPatterns k0 pd0 }
          refine ⟨i1, i2, i3, i4, i5, fun k => ?_⟩
          have hgq : mapGet (mapSet p.logPatterns k0 pd0) k = mapGet p.logPatterns k := by
            by_cases hk : k = k0
            · rw [hk, mapGet_mapSet_self, h0]
            · exact mapGet_mapSet_ne _ _ _ _ hk
          refine ⟨fun hn => (ik k).1 (by show mapGet (mapSet p.logPatterns k0 pd0) k = none
                                         rw [hgq]; exact hn), fun pd hpd => ?_⟩
          obtain ⟨pd', g1, g2, _, g4⟩ := (ik k).2 pd (by
            show mapGet (mapSet p.logPatterns k0 pd0) k = some pd
            rw [hgq]; exact hpd)
          refine ⟨pd', g1, g2, fun hc => absurd hc.2.2 hen, fun _ => g4 (fun hc' => hen hc'.2.2)⟩
      · have hq : checkStoppedLoop streamKey now (k0 :: rest) p =
            checkStoppedLoop streamKey now rest p := by
          simp [checkStoppedLoop, h0, hst]
        rw [hq]
        obtain ⟨i1, i2, i3, i4, i5, ik⟩ := ih p
        refine ⟨i1, i2, i3, i4, i5, fun k => ⟨(ik k).1, fun pd hpd => ?_⟩⟩
        obtain ⟨pd', g1, g2, g3, g4⟩ := (ik k).2 pd hpd
        have hk : k = k0 → isStale p streamKey now k pd ≠ true := by
          intro e; subst e
          have : pd = pd0 := by rw [h0] at hpd; exact (Option.some.inj hpd).symm
          rw [this]; exact hst
        refine ⟨pd', g1, g2, fun hc => g3 ⟨?_, hc.2⟩, fun hc => g4 (fun hc' => hc ⟨?_, hc'.2⟩)⟩
        · rcases List.mem_cons.mp hc.1 with e | hm
          · exact absurd hc.2.1 (hk e)
          · exact hm
        · exact List.mem_cons_of_mem _ hc'.1

end Stopped

theorem mapGet_some_mem {β : Type} (m : List (String × β)) (key : String) (v : β)
    (hget : mapGet m key = some v) : key ∈ m.map Prod.fst := by
  induction m with
  | nil => simp [mapGet_nil] at hget
  | cons e rest ih =>
    rw [mapGet_cons] at hget
    by_cases he : e.1 = key
    · simp [he]
    · rw [if_neg he] at hget
      exact List.mem_cons_of_mem _ (ih hget)

theorem forgetStopped_eq (a b : PatternData) (hf : forgetStopped a = forgetStopped b)
    (hs : a.stoppedTimer = b.stoppedTimer) : a = b := by
  cases a; cases b
  simp_all [forgetStopped]

theorem find?_append_fresh (l : List (Nat × TimerTask)) (n : Nat) (task : TimerTask)
    (hfresh : ∀ e ∈ l, e.1 < n) :
    (l ++ [(n, task)]).find? (fun x => x.1 == n) = some (n, task) := by
  have hnone : l.find? (fun x => x.1 == n) = none := by
    rw [List.find?_eq_none]
    intro e he
    have := hfresh e he
    simp only [beq_iff_eq]
    omega
  rw [List.find?_append, hnone]
  simp [List.find?]

theorem find?_append_kept (l add : List (Nat × TimerTask)) (t : Nat) (e : Nat × TimerTask)
    (hfind : l.find? (fun x => x.1 == t) = some e) :
    (l ++ add).find? (fun x => x.1 == t) = some e := by
  rw [List.find?_append, hfind]
  rfl

theorem find?_cleared (l : List (Nat × TimerTask)) (t : Nat) :
    (l.filter (fun x => !(x.1 == t))).find? (fun x => x.1 == t) = none := by
  rw [List.find?_eq_none]
  intro e he
  have := (List.mem_filter.mp he).2
  simpa using this

section StoppedTimers

variable (streamKey : String) (now : Int)

/-- What the loop of `checkForStoppedPatterns` does to the timers: a pending
timer stays pending; every timer that the loop adds has a fresh handle and is
the resolution timer of a record that the loop met and that passed the test,
with stopped messages enabled; and such a record holds the handle of a pending
resolution timer for its key. -/
theorem checkStoppedLoop_timers (keys : List String) :
    ∀ p : LogProcessor,
      (∀ t e, p.timers.find? (fun x => x.1 == t) = some e →
        (checkStoppedLoop streamKey now keys p).timers.find? (fun x => x.1 == t) = some e) ∧
      p.nextTimer ≤ (checkStoppedLoop streamKey now keys p).nextTimer ∧
      (TimersFresh p → TimersFresh (checkStoppedLoop streamKey now keys p)) ∧
      (∀ e ∈ (checkStoppedLoop streamKey now keys p).timers, e ∈ p.timers ∨
        (p.nextTimer ≤ e.1 ∧ ∃ k pd, e.2 = TimerTask.stopped k ∧ k ∈ keys ∧
          mapGet p.logPatterns k = some pd ∧ isStale p streamKey now k pd = true ∧
          p.consolidationConfig.enableStoppedMessages = true)) ∧
      (TimersFresh p → ∀ k pd, mapGet p.logPatterns k = some pd → k ∈ keys →
        isStale p streamKey now k pd = true →
        p.consolidationConfig.enableStoppedMessages = true →
        ∃ t, mapGet (checkStoppedLoop streamKey now keys p).logPatterns k =
            some { pd with stoppedTimer := some t } ∧ p.nextTimer ≤ t ∧
          (checkStoppedLoop streamKey now keys p).timers.find? (fun x => x.1 == t) =
            some (t, TimerTask.stopped k)) := by
  induction keys with
  | nil =>
    intro p
    refine ⟨fun _ _ hf => hf, le_refl _, fun hf => hf, fun e he => Or.inl he, ?_⟩
    intro _ k pd _ hk
    simp at hk
  | cons k0 rest ih =>
    intro p
    cases h0 : mapGet p.logPatterns k0 with
    | none =>
      have hloop : checkStoppedLoop streamKey now (k0 :: rest) p =
          checkStoppedLoop streamKey now rest p := by
        simp [checkStoppedLoop, h0]
      rw [hloop]
      obtain ⟨i1, i2, i3, i4, i5⟩ := ih p
      refine ⟨i1, i2, i3, fun e he => ?_, fun hfr k pd hpd hk hst hen => ?_⟩
      · rcases i4 e he with hin | ⟨hle, k, pd, h1, h2, h3, h4, h5⟩
        · exact Or.inl hin
        · exact Or.inr ⟨hle, k, pd, h1, List.mem_cons_of_mem _ h2, h3, h4, h5⟩
      · have hne : k ≠ k0 := by
          intro e; rw [e, h0] at hpd; cases hpd
        rcases List.mem_cons.mp hk with e | hm
        · exact absurd e hne
        · exact i5 hfr k pd hpd hm hst hen
    | some pd0 =>
      by_cases hst0 : isStale p streamKey now k0 pd0 = true
      · by_cases hen0 : p.consolidationConfig.enableStoppedMessages = true
        · have hto : pd0.stoppedTimer = none := by
            have := hst0; simp [isStale] at this; exact this.1.2
          obtain ⟨q, hq, hqc, hqn, hqt, hql⟩ :
              ∃ q : LogProcessor,
                checkStoppedLoop streamKey now (k0 :: rest) p =
                  checkStoppedLoop streamKey now rest q ∧
                q.consolidationConfig = p.consolidationConfig ∧
                q.nextTimer = p.nextTimer + 1 ∧
                q.timers = p.timers ++ [(p.nextTimer, TimerTask.stopped k0)] ∧
                q.logPatterns =
                  mapSet p.logPatterns k0 { pd0 with stoppedTimer := some p.nextTimer } := by
            refine ⟨{ p with
                nextTimer := p.nextTimer + 1
                timers := p.timers ++ [(p.nextTimer, TimerTask.stopped k0)]
                logPatterns := mapSet p.logPatterns k0
                  { pd0 with stoppedTimer := some p.nextTimer } },
              ?_, rfl, rfl, rfl, rfl⟩
            simp [checkStoppedLoop, h0, hst0, scheduleStoppedMessage, hen0, hto, setTimeout]
          rw [hq]
          obtain ⟨i1, i2, i3, i4, i5⟩ := ih q
          have hqfresh : TimersFresh p → TimersFresh q := by
            intro hfr e he
            rw [hqt] at he
            rw [hqn]
            rcases List.mem_append.mp he with hin | hin
            · have := hfr e hin; omega
            · rw [List.mem_singleton] at hin
              rw [hin]
              exact Nat.lt_succ_self _
          have hgq0 : mapGet q.logPatterns k0 =
              some { pd0 with stoppedTimer := some p.nextTimer } := by
            rw [hql]; exact mapGet_mapSet_self _ _ _
          have hgq : ∀ k, k ≠ k0 → mapGet q.logPatterns k = mapGet p.logPatterns k := by
            intro k hk
            rw [hql]; exact mapGet_mapSet_ne _ _ _ _ hk
          refine ⟨fun t e hf => i1 t e ?_, ?_, fun hfr => i3 (hqfresh hfr), fun e he => ?_,
            fun hfr k pd hpd hk hst hen => ?_⟩
          · rw [hqt]; exact find?_append_kept _ _ _ _ hf
          · rw [hqn] at i2; omega
          · rcases i4 e he with hin | ⟨hle, k, pd, h1, h2, h3, h4, h5⟩
            · rw [hqt] at hin
              rcases List.mem_append.mp hin with hin | hin
              · exact Or.inl hin
              · rw [List.mem_singleton] at hin
                refine Or.inr ⟨by rw [hin], k0, pd0, by rw [hin], List.mem_cons_self _ _, h0,
                  hst0, hen0⟩
            · by_cases hk : k = k0
              · subst hk
                rw [hgq0] at h3
                have hpd : pd = { pd0 with stoppedTimer := some p.nextTimer } :=
                  (Option.some.inj h3).symm
                rw [hpd, isStale_armed streamKey now q k _ p.nextTimer rfl] at h4
                cases h4
              · rw [hgq k hk] at h3
                rw [isStale_congr streamKey now p q hqc] at h4
                rw [hqc] at h5
                rw [hqn] at hle
                exact Or.inr ⟨by omega, k, pd, h1, List.mem_cons_of_mem _ h2, h3, h4, h5⟩
          · by_cases hk0 : k = k0
            · subst hk0
              have hpd : pd = pd0 := by rw [h0] at hpd; exact (Option.some.inj hpd).symm
              subst hpd
              obtain ⟨pd', g1, g2, _, g4⟩ :=
                ((checkStoppedLoop_spec streamKey now rest q).2.2.2.2.2 k).2 _ hgq0
              have hkeep := g4 (fun hc => by
                rw [isStale_armed streamKey now q k _ p.nextTimer rfl] at hc
                exact absurd hc.2.1 (by simp))
              have hpd' : pd' = { pd with stoppedTimer := some p.nextTimer } :=
                forgetStopped_eq _ _ g2 hkeep
              refine ⟨p.nextTimer, by rw [g1, hpd'], le_refl _, i1 _ _ ?_⟩
              rw [hqt]
              exact find?_append_fresh _ _ _ hfr
            · have hm : k ∈ rest := by
                rcases List.mem_cons.mp hk with e | hm
                · exact absurd e hk0
                · exact hm
              obtain ⟨t, g1, g2, g3⟩ := i5 (hqfresh hfr) k pd (by rw [hgq k hk0]; exact hpd) hm
                (by rw [isStale_congr streamKey now p q hqc]; exact hst) (by rw [hqc]; exact hen)
              rw [hqn] at g2
              exact ⟨t, g1, by omega, g3⟩
        · have hq : checkStoppedLoop streamKey now (k0 :: rest) p =
              checkStoppedLoop streamKey now rest
                { p with logPatterns := mapSet p.logPatterns k0 pd0 } := by
            simp [checkStoppedLoop, h0, hst0, scheduleStoppedMessage, hen0]
          rw [hq]
          obtain ⟨i1, i2, i3, i4, _⟩ := ih { p with logPatterns := mapSet p.logPatterns k0 pd0 }
          refine ⟨i1, i2, i3, fun e he => ?_, fun _ k pd _ _ _ hen => absurd hen hen0⟩
          rcases i4 e he with hin | ⟨_, _, _, _, _, _, _, h5⟩
          · exact Or.inl hin
          · exact absurd h5 hen0
      · have hq : checkStoppedLoop streamKey now (k0 :: rest) p =
            checkStoppedLoop streamKey now rest p := by
          simp [checkStoppedLoop, h0, hst0]
        rw [hq]
        obtain ⟨i1, i2, i3, i4, i5⟩ := ih p
        refine ⟨i1, i2, i3, fun e he => ?_, fun hfr k pd hpd hk hst hen => ?_⟩
        · rcases i4 e he with hin | ⟨hle, k, pd, h1, h2, h3, h4, h5⟩
          · exact Or.inl hin
          · exact Or.inr ⟨hle, k, pd, h1, List.mem_cons_of_mem _ h2, h3, h4, h5⟩
        · rcases List.mem_cons.mp hk with e | hm
          · subst e
            have hpd' : pd = pd0 := by rw [h0] at hpd; exact (Option.some.inj hpd).symm
            rw [hpd'] at hst
            exact absurd hst hst0
          · exact i5 hfr k pd hpd hm hst hen

end StoppedTimers

/-- The firing of a pending resolution timer whose handle the record under its
key holds: the resolution message of the record is handed to `sendMessage`,
the record is deleted when that send succeeds and kept as it is, with the
handle still in its field, when it fails; the timer is no longer pending. -/
theorem fireTimer_stopped (h : Host) (p : LogProcessor) (k : String) (pd : PatternData) (t : Nat)
    (ok : Bool) (hget : mapGet p.logPatterns k = some pd) (hst : pd.stoppedTimer = some t)
    (hfind : p.timers.find? (fun x => x.1 == t) = some (t, TimerTask.stopped k)) :
    (fireTimer h p t ok).sent =
      p.sent ++ [⟨pd.config.channel, formatStoppedMessage (h.clock p.reads) pd, pd.config⟩] ∧
    mapGet (fireTimer h p t ok).logPatterns k = (if ok then none else some pd) ∧
    (fireTimer h p t ok).timers.find? (fun x => x.1 == t) = none := by
  have hcl := find?_cleared p.timers t
  refine ⟨?_, ?_, ?_⟩
  · cases ok <;> simp [fireTimer, hfind, clearTimeout, hget, hst, sendStoppedMessage, dateNow]
  · cases ok <;>
      simp [fireTimer, hfind, clearTimeout, hget, hst, sendStoppedMessage, dateNow,
        mapGet_mapDelete_self]
  · cases ok <;>
      simp only [fireTimer, hfind, clearTimeout, hget, hst, sendStoppedMessage, dateNow, if_true,
        Bool.false_eq_true, if_false] <;> exact hcl

/-- C8, refuted as stated: after one poll the record of `boom` is active (count
1, threshold 10, never suppressed); a check made more than `summaryTimeout`
later arms a resolution timer for it, which is pending under the handle that
the record holds, and the firing of that timer sends a resolution message. -/
theorem active_record_gets_resolution_timer :
    statusOf activePolled "s:boom" = some (1, false, false) ∧
    activePolled.consolidationConfig.minRepeatCount = 10 ∧
    (mapGet (checkForStoppedPatterns (laterHost 5) activePolled "s").logPatterns "s:boom").map
      (fun pd => (pd.isSuppressed, pd.stoppedTimer)) = some (false, some 1) ∧
    (checkForStoppedPatterns (laterHost 5) activePolled "s").timers.find? (fun x => x.1 == 1) =
      some (1, TimerTask.stopped "s:boom") ∧
    (fireTimer (laterHost 5) (checkForStoppedPatterns (laterHost 5) activePolled "s") 1 true).sent =
      [⟨"#general", Message.stopped "boom" "info" 1 3000006, {}⟩] := by
  decide

/-- C8, amended. `checkForStoppedPatterns` arms a resolution timer for a record
exactly when the key of the record starts with the stream key and a colon, the
field `stoppedTimer` of the record is not set, the record was last seen more
than `summaryTimeout` before the clock read of the call, and stopped messages
are enabled, whatever the state of the record (active or suppressed). For such
a record a timer is pending afterwards under a handle that no timer had
before, with the resolution of that key as its task, and the record holds the
handle; when the timer fires the resolution message of the record is handed to
`sendMessage`, the record is deleted when the send succeeds and kept, its
field still set and no timer pending, when the send fails. For any other
record the field is as before and no timer is added for its key. Nothing else
of a record changes, and the check itself sends nothing. -/
theorem stopped_timer_armed_iff (h : Host) (p : LogProcessor) (streamKey k : String)
    (pd : PatternData) (hget : mapGet p.logPatterns k = some pd) (hfresh : TimersFresh p) :
    (checkForStoppedPatterns h p streamKey).sent = p.sent ∧
    ∃ pd', mapGet (checkForStoppedPatterns h p streamKey).logPatterns k = some pd' ∧
      forgetStopped pd' = forgetStopped pd ∧
      (((streamKey ++ ":").data.isPrefixOf k.data = true ∧ pd.stoppedTimer = none ∧
          h.clock p.reads - pd.lastSeen > p.consolidationConfig.summaryTimeout ∧
          p.consolidationConfig.enableStoppedMessages = true) →
        ∃ t, pd'.stoppedTimer = some t ∧
          (∀ e ∈ p.timers, e.1 ≠ t) ∧
          (checkForStoppedPatterns h p streamKey).timers.find? (fun x => x.1 == t) =
            some (t, TimerTask.stopped k) ∧
          ∀ ok,
            (fireTimer h (checkForStoppedPatterns h p streamKey) t ok).sent =
              p.sent ++ [⟨pd.config.channel,
                Message.stopped pd.pattern (extractLogLevel pd.pattern) pd.count
                  (h.clock (p.reads + 1)), pd.config⟩] ∧
            mapGet (fireTimer h (checkForStoppedPatterns h p streamKey) t ok).logPatterns k =
              (if ok then none else some pd') ∧
            (fireTimer h (checkForStoppedPatterns h p streamKey) t ok).timers.find?
              (fun x => x.1 == t) = none) ∧
      (¬ ((streamKey ++ ":").data.isPrefixOf k.data = true ∧ pd.stoppedTimer = none ∧
          h.clock p.reads - pd.lastSeen > p.consolidationConfig.summaryTimeout ∧
          p.consolidationConfig.enableStoppedMessages = true) →
        pd'.stoppedTimer = pd.stoppedTimer ∧
        ∀ e ∈ (checkForStoppedPatterns h p streamKey).timers,
          e.2 = TimerTask.stopped k → e ∈ p.timers) := by
  have hcheck : checkForStoppedPatterns h p streamKey =
      checkStoppedLoop streamKey (h.clock p.reads) (p.logPatterns.map Prod.fst)
        { p with reads := p.reads + 1 } := rfl
  have hspec := checkStoppedLoop_spec streamKey (h.clock p.reads)
    (p.logPatterns.map Prod.fst) { p with reads := p.reads + 1 }
  obtain ⟨_, _, _, t4, t5⟩ := checkStoppedLoop_timers streamKey (h.clock p.reads)
    (p.logPatterns.map Prod.fst) { p with reads := p.reads + 1 }
  obtain ⟨_, _, hsent, _, hreads, hk⟩ := hspec
  obtain ⟨pd', g1, g2, _, g4⟩ := (hk k).2 pd hget
  have hmem : k ∈ p.logPatterns.map Prod.fst := mapGet_some_mem _ _ _ hget
  have hstale : ∀ (key : String) (r : PatternData),
      isStale { p with reads := p.reads + 1 } streamKey (h.clock p.reads) key r = true ↔
      ((streamKey ++ ":").data.isPrefixOf key.data = true ∧ r.stoppedTimer = none ∧
        h.clock p.reads - r.lastSeen > p.consolidationConfig.summaryTimeout) := by
    intro key r
    simp [isStale, and_assoc]
  rw [hcheck]
  refine ⟨hsent, pd', g1, g2, fun hc => ?_, fun hc => ⟨?_, fun e he htask => ?_⟩⟩
  · obtain ⟨t, a1, a2, a3⟩ := t5 hfresh k pd hget hmem
      ((hstale k pd).mpr ⟨hc.1, hc.2.1, hc.2.2.1⟩) hc.2.2.2
    have hpd' : pd' = { pd with stoppedTimer := some t } := by
      rw [g1] at a1; exact Option.some.inj a1
    refine ⟨t, by rw [hpd'], fun e he hne => ?_, a3, fun ok => ?_⟩
    · have := hfresh e he
      have ha2 : p.nextTimer ≤ t := a2
      omega
    · obtain ⟨f1, f2, f3⟩ := fireTimer_stopped h _ k pd' t ok g1 (by rw [hpd']) a3
      refine ⟨?_, f2, f3⟩
      rw [f1, hsent, hreads, hpd']
      rfl
  · exact g4 (fun hc' => hc ⟨((hstale k pd).mp hc'.2.1).1, ((hstale k pd).mp hc'.2.1).2.1,
      ((hstale k pd).mp hc'.2.1).2.2, hc'.2.2⟩)
  · rcases t4 e he with hin | ⟨_, k', r, h1, _, h3, h4, h5⟩
    · exact hin
    · rw [h1] at htask
      have hkk : k' = k := by injection htask
      subst hkk
      have hr : r = pd := by
        have : mapGet p.logPatterns k' = some r := h3
        rw [hget] at this; exact (Option.some.inj this).symm
      subst hr
      exact absurd ⟨((hstale k' r).mp h4).1, ((hstale k' r).mp h4).2.1,
        ((hstale k' r).mp h4).2.2, h5⟩ hc

/-- C8 amended, on the active record of the counterexample: its timer is
armed, pending under the handle that the record holds, and sends the
resolution message when it fires. -/
theorem stopped_timer_armed_iff_witness :
    ∃ t, (mapGet (checkForStoppedPatterns (laterHost 5) activePolled "s").logPatterns
        "s:boom").bind (fun pd => pd.stoppedTimer) = some t ∧
      (checkForStoppedPatterns (laterHost 5) activePolled "s").timers.find?
        (fun x => x.1 == t) = some (t, TimerTask.stopped "s:boom") ∧
      (fireTimer (laterHost 5) (checkForStoppedPatterns (laterHost 5) activePolled "s") t
        true).sent = [⟨"#general", Message.stopped "boom" "info" 1 3000006, {}⟩] := by
  obtain ⟨_, pd', g1, _, g3, _⟩ := stopped_timer_armed_iff (laterHost 5) activePolled "s"
    "s:boom" ⟨"boom", 1, false, false, 1000001, {}, none, none⟩ (by decide)
    (by unfold TimersFresh; decide)
  obtain ⟨t, a1, _, a3, a4⟩ := g3 (by decide)
  refine ⟨t, by rw [g1]; exact a1, a3, ?_⟩
  rw [(a4 true).1]
  decide

/-- A pending timer other than the consolidation timer of the record stays
pending, first under its handle, through a call of `trackLogPattern`. -/
theorem trackLogPattern_timer_kept (h : Host) (p : LogProcessor) (streamKey line : String)
    (config : Config) (pd : PatternData) (t : Nat) (e : Nat × TimerTask)
    (hget : mapGet p.logPatterns (getPatternKey streamKey (extractLogPattern line)) = some pd)
    (hct : pd.consolidationTimer ≠ some t)
    (hfind : p.timers.find? (fun x => x.1 == t) = some e) :
    (trackLogPattern h p streamKey line config).2.timers.find? (fun x => x.1 == t) = some e ∧
    (trackLogPattern h p streamKey line config).1.stoppedTimer = pd.stoppedTimer ∧
    (trackLogPattern h p streamKey line config).1.config = pd.config ∧
    (trackLogPattern h p streamKey line config).1.pattern = pd.pattern := by
  unfold trackLogPattern
  simp only [hget, dateNow]
  split_ifs
  · simp only [startConsolidation, setTimeout]
    cases hc : pd.consolidationTimer with
    | none => simp [hfind]
    | some c =>
      have hne : c ≠ t := fun e => hct (by rw [hc, e])
      have hfilter : List.find? (fun x => x.1 == t)
          (List.filter (fun x : Nat × TimerTask => !(x.1 == c)) p.timers) = some e := by
        rw [List.find?_filter]
        have hcongr : (fun a : Nat × TimerTask =>
            decide ((!(a.1 == c)) = true ∧ (a.1 == t) = true)) = (fun x => x.1 == t) := by
          funext a
          by_cases hat : a.1 = t
          · simp [hat, Ne.symm hne]
          · simp [hat]
        rw [hcongr]; exact hfind
      simp [clearTimeout, hfilter]
  · simp [hfind]
  · simp [hfind]

/-- C7, refuted as stated: a suppressed record unseen for more than
`summaryTimeout` gets its resolution timer (handle 2); `trackLogPattern` then
records a further occurrence (`lastSeen` moves to the time of that
occurrence, the timer stays); the timer fires, the resolution message is sent
and the record is deleted. -/
theorem resolution_sent_despite_new_occurrence :
    (mapGet suppressedPolled.logPatterns "s:ERROR: disk full").map
      (fun pd => (pd.isSuppressed, pd.lastSeen, pd.stoppedTimer)) = some (true, 1000037, none) ∧
    (mapGet (checkForStoppedPatterns (laterHost 40) suppressedPolled "s").logPatterns
        "s:ERROR: disk full").map (fun pd => (pd.lastSeen, pd.stoppedTimer)) =
      some (1000037, some 2) ∧
    (mapGet (trackLogPattern (laterHost 40)
        (checkForStoppedPatterns (laterHost 40) suppressedPolled "s")
        "s" "ERROR: disk full" {}).2.logPatterns "s:ERROR: disk full").map
      (fun pd => (pd.lastSeen, pd.stoppedTimer)) = some (3000041, some 2) ∧
    ((fireTimer (laterHost 40) (trackLogPattern (laterHost 40)
        (checkForStoppedPatterns (laterHost 40) suppressedPolled "s")
        "s" "ERROR: disk full" {}).2 2 true).sent.map (fun c => c.message)).getLast? =
      some (Message.stopped "ERROR: disk full" "error" 0 3000042) ∧
    mapGet (fireTimer (laterHost 40) (trackLogPattern (laterHost 40)
        (checkForStoppedPatterns (laterHost 40) suppressedPolled "s")
        "s" "ERROR: disk full" {}).2 2 true).logPatterns "s:ERROR: disk full" = none := by
  decide

/-- C7, amended. Once the resolution timer of a record is armed,
`trackLogPattern` neither cancels nor re-arms it; when it fires after a further
occurrence was recorded, the resolution message is still handed to
`sendMessage`, and the record is deleted when that send succeeds (and kept
when it fails). -/
theorem resolution_timer_fires_regardless (h : Host) (p : LogProcessor)
    (streamKey line : String) (config : Config) (pd : PatternData) (t : Nat) (ok : Bool)
    (hget : mapGet p.logPatterns (getPatternKey streamKey (extractLogPattern line)) = some pd)
    (hst : pd.stoppedTimer = some t) (hct : pd.consolidationTimer ≠ some t)
    (hfind : p.timers.find? (fun x => x.1 == t) =
      some (t, TimerTask.stopped (getPatternKey streamKey (extractLogPattern line)))) :
    (trackLogPattern h p streamKey line config).1.stoppedTimer = some t ∧
    (fireTimer h (trackLogPattern h p streamKey line config).2 t ok).sent =
      (trackLogPattern h p streamKey line config).2.sent ++
        [⟨pd.config.channel,
          formatStoppedMessage (h.clock (trackLogPattern h p streamKey line config).2.reads)
            (trackLogPattern h p streamKey line config).1, pd.config⟩] ∧
    mapGet (fireTimer h (trackLogPattern h p streamKey line config).2 t ok).logPatterns
        (getPatternKey streamKey (extractLogPattern line)) =
      if ok then none else some (trackLogPattern h p streamKey line config).1 := by
  obtain ⟨hf, hs, hc, _⟩ := trackLogPattern_timer_kept h p streamKey line config pd t _ hget hct hfind
  have hstored := trackLogPattern_stored h p streamKey line config
  generalize trackLogPattern h p streamKey line config = res at hf hs hc hstored
  obtain ⟨r, q⟩ := res
  simp only at hf hs hc hstored ⊢
  have hrt : r.stoppedTimer = some t := hs.trans hst
  refine ⟨hrt, ?_, ?_⟩
  · cases ok <;>
      simp [fireTimer, hf, clearTimeout, hstored, hrt, sendStoppedMessage, dateNow, hc]
  · cases ok <;>
      simp [fireTimer, hf, clearTimeout, hstored, hrt, sendStoppedMessage, dateNow,
        mapGet_mapDelete_self]

/-- C7 amended, on the run of the counterexample. -/
theorem resolution_timer_fires_regardless_witness :
    (trackLogPattern (laterHost 40) (checkForStoppedPatterns (laterHost 40) suppressedPolled "s")
      "s" "ERROR: disk full" {}).1.stoppedTimer = some 2 ∧
    (fireTimer (laterHost 40) (trackLogPattern (laterHost 40)
        (checkForStoppedPatterns (laterHost 40) suppressedPolled "s")
        "s" "ERROR: disk full" {}).2 2 true).sent =
      (trackLogPattern (laterHost 40) (checkForStoppedPatterns (laterHost 40) suppressedPolled "s")
        "s" "ERROR: disk full" {}).2.sent ++
        [⟨"#general",
          formatStoppedMessage ((laterHost 40).clock (trackLogPattern (laterHost 40)
              (checkForStoppedPatterns (laterHost 40) suppressedPolled "s")
              "s" "ERROR: disk full" {}).2.reads)
            (trackLogPattern (laterHost 40)
              (checkForStoppedPatterns (laterHost 40) suppressedPolled "s")
              "s" "ERROR: disk full" {}).1, {}⟩] ∧
    mapGet (fireTimer (laterHost 40) (trackLogPattern (laterHost 40)
        (checkForStoppedPatterns (laterHost 40) suppressedPolled "s")
        "s" "ERROR: disk full" {}).2 2 true).logPatterns
        (getPatternKey "s" (extractLogPattern "ERROR: disk full")) =
      if true then none else some (trackLogPattern (laterHost 40)
        (checkForStoppedPatterns (laterHost 40) suppressedPolled "s")
        "s" "ERROR: disk full" {}).1 :=
  resolution_timer_fires_regardless (laterHost 40)
    (checkForStoppedPatterns (laterHost 40) suppressedPolled "s") "s" "ERROR: disk full" {}
    ⟨"ERROR: disk full", 0, false, true, 1000037, {}, none, some 2⟩ 2 true
    (by decide) rfl (by decide) (by decide)

/-- C10, failing input. One call of `processLogChunk` on three accepted lines
for a worker with `maxLines` 2 and a cooldown of 60 s calls `sendMessage`
twice, 5 ms apart: after the second line with the two buffered entries, and
again after the third line with all three, because the buffer is emptied and
`lastSent` is set only after the `await` of `sendLogBuffer`, which has not
run. Both invocations are still suspended when the chunk is done. -/
theorem second_flush_within_cooldown :
    (processLogChunk tickingHost smallStream "s" "a\nb\nc").sent =
      [⟨"#general",
        Message.logs [⟨1000002, "a", "", "", ""⟩, ⟨1000006, "b", "", "", ""⟩] "info" 1000008,
        { maxLines := 2, cooldown := 60 }⟩,
       ⟨"#general",
        Message.logs [⟨1000002, "a", "", "", ""⟩, ⟨1000006, "b", "", "", ""⟩,
          ⟨1000011, "c", "", "", ""⟩] "info" 1000013,
        { maxLines := 2, cooldown := 60 }⟩] ∧
    (processLogChunk tickingHost smallStream "s" "a\nb\nc").pending = ["s", "s"] ∧
    (mapGet (processLogChunk tickingHost smallStream "s" "a\nb\nc").activeStreams "s").map
      (fun w => (w.buffer.length, w.lastSent)) = some (3, 0) := by
  decide

section Feed

variable (h : Host) (streamKey : String)

/-- The check for stopped patterns changes neither the workers, nor the
configuration, nor the count and flags of any record. -/
theorem checkForStoppedPatterns_keeps (p : LogProcessor) :
    (checkForStoppedPatterns h p streamKey).activeStreams = p.activeStreams ∧
    (checkForStoppedPatterns h p streamKey).consolidationConfig = p.consolidationConfig ∧
    (checkForStoppedPatterns h p streamKey).sent = p.sent ∧
    ∀ k, statusOf (checkForStoppedPatterns h p streamKey) k = statusOf p k := by
  have hspec := checkStoppedLoop_spec streamKey (h.clock p.reads)
    (p.logPatterns.map Prod.fst) { p with reads := p.reads + 1 }
  refine ⟨hspec.2.1, hspec.1, hspec.2.2.1, fun k => ?_⟩
  cases hget : mapGet p.logPatterns k with
  | none =>
    have := (hspec.2.2.2.2.2 k).1 hget
    simp only [statusOf, checkForStoppedPatterns, dateNow]
    rw [this, hget]
  | some pd =>
    obtain ⟨pd', g1, g2, _, _⟩ := (hspec.2.2.2.2.2 k).2 pd hget
    simp only [statusOf, checkForStoppedPatterns, dateNow]
    rw [g1, hget]
    have hc : (forgetStopped pd').count = (forgetStopped pd).count := by rw [g2]
    have hi : (forgetStopped pd').isConsolidated = (forgetStopped pd).isConsolidated := by rw [g2]
    have hs : (forgetStopped pd').isSuppressed = (forgetStopped pd).isSuppressed := by rw [g2]
    simp only [forgetStopped] at hc hi hs
    simp [hc, hi, hs]

/-- An occurrence of a pattern whose record is suppressed and still marked
consolidated (its summary not yet sent) is not buffered. -/
theorem processLine_consolidated (p : LogProcessor) (line : String) (logStream : LogStream)
    (c : Nat)
    (hs : mapGet p.activeStreams streamKey = some logStream)
    (hacc : shouldProcessLine h line logStream.config = true)
    (hst : statusOf p (getPatternKey streamKey (extractLogPattern line)) = some (c, true, true)) :
    (processLine h streamKey p line).activeStreams = p.activeStreams ∧
    (processLine h streamKey p line).consolidationConfig = p.consolidationConfig ∧
    statusOf (processLine h streamKey p line) (getPatternKey streamKey (extractLogPattern line)) =
      some (c, true, true) := by
  cases hget : mapGet p.logPatterns (getPatternKey streamKey (extractLogPattern line)) with
  | none => simp [statusOf, hget] at hst
  | some pd =>
    have hpd : pd.count = c ∧ pd.isConsolidated = true ∧ pd.isSuppressed = true := by
      simpa [statusOf, hget] using hst
    have hr := (trackLogPattern_suppressed h p streamKey line logStream.config pd hget hpd.2.2).1
    have hcons : (trackLogPattern h p streamKey line logStream.config).1.isConsolidated = true := by
      rw [hr]; exact hpd.2.1
    rw [processLine_suppress h p streamKey line logStream hs hacc hcons]
    have hfr := trackLogPattern_frame h p streamKey line logStream.config
    refine ⟨hfr.1, hfr.2.1, ?_⟩
    rw [statusOf_track, hr]
    simp [hpd.1, hpd.2.1, hpd.2.2]

/-- An occurrence of a pattern whose record is suppressed but no longer marked
consolidated (its summary has been sent) is appended to the buffer, and the
record stays suppressed with the same count. -/
theorem processLine_suppressed_unconsolidated (p : LogProcessor) (line : String)
    (logStream : LogStream) (c : Nat)
    (hs : mapGet p.activeStreams streamKey = some logStream)
    (hacc : shouldProcessLine h line logStream.config = true)
    (hst : statusOf p (getPatternKey streamKey (extractLogPattern line)) = some (c, false, true)) :
    (bufferOf (processLine h streamKey p line) streamKey).length = logStream.buffer.length + 1 ∧
    statusOf (processLine h streamKey p line) (getPatternKey streamKey (extractLogPattern line)) =
      some (c, false, true) := by
  cases hget : mapGet p.logPatterns (getPatternKey streamKey (extractLogPattern line)) with
  | none => simp [statusOf, hget] at hst
  | some pd =>
    have hpd : pd.count = c ∧ pd.isConsolidated = false ∧ pd.isSuppressed = true := by
      simpa [statusOf, hget] using hst
    have hr := (trackLogPattern_suppressed h p streamKey line logStream.config pd hget hpd.2.2).1
    have hcons : (trackLogPattern h p streamKey line logStream.config).1.isConsolidated = false := by
      rw [hr]; exact hpd.2.1
    have hfw := processLine_forward h p streamKey line logStream hs hacc hcons
    constructor
    · simp only [bufferOf, hfw.1, List.length_append, List.length_singleton]
    · have := statusOf_track h streamKey logStream.config p line
      simp only [statusOf] at this ⊢
      rw [hfw.2.1, this, hr]
      simp [hpd.1, hpd.2.1, hpd.2.2]

theorem processLogChunk_single (p : LogProcessor) (chunk line : String) (w : LogStream)
    (hs : mapGet p.activeStreams streamKey = some w) (hactive : w.isActive = true)
    (hlines : chunkLines chunk = [line]) :
    processLogChunk h p streamKey chunk =
      checkForStoppedPatterns h (processLine h streamKey p line) streamKey := by
  simp [processLogChunk, hs, hactive, hlines, processLines]

/-- One more poll with the same single line keeps the description of the fed
stream, with one more occurrence. -/
theorem fedWith_step (config : Config) (T : Nat) (chunk line : String) (n : Nat)
    (q : LogProcessor) (hT : 1 ≤ T) (hlines : chunkLines chunk = [line])
    (hacc : shouldProcessLine h line config = true)
    (hinv : FedWith streamKey config T (getPatternKey streamKey (extractLogPattern line)) n q) :
    FedWith streamKey config T (getPatternKey streamKey (extractLogPattern line)) (n + 1)
      (processLogChunk h q streamKey chunk) := by
  obtain ⟨⟨w, hw, hwc, hwa, hwb⟩, hcfg, hlow, hhigh⟩ := hinv
  rw [processLogChunk_single h streamKey q chunk line w hw hwa hlines]
  have hck := checkForStoppedPatterns_keeps h streamKey (processLine h streamKey q line)
  have hacc' : shouldProcessLine h line w.config = true := by rw [hwc]; exact hacc
  -- the state after the loop body
  have hbody : (∃ w', mapGet (processLine h streamKey q line).activeStreams streamKey = some w' ∧
        w'.config = config ∧ w'.isActive = true ∧ w'.buffer.length = min (n + 1) (T - 1)) ∧
      (processLine h streamKey q line).consolidationConfig.minRepeatCount = T ∧
      (n + 1 < T → ActiveWith (processLine h streamKey q line)
        (getPatternKey streamKey (extractLogPattern line)) (n + 1)) ∧
      (T ≤ n + 1 → ∃ c, statusOf (processLine h streamKey q line)
        (getPatternKey streamKey (extractLogPattern line)) = some (c, true, true)) := by
    by_cases hn : n < T
    · have hstep := track_active_step h streamKey w.config q line n (hlow hn)
      rw [hcfg] at hstep
      by_cases hn1 : n + 1 < T
      · have hs1 := hstep.1 hn1
        have hfw := processLine_forward h q streamKey line w hw hacc' hs1.2.1
        refine ⟨⟨_, hfw.1, hwc, hwa, ?_⟩, by rw [hfw.2.2]; exact hcfg, fun _ => ?_, fun hge => by omega⟩
        · simp only [List.length_append, List.length_singleton, hwb]; omega
        · right
          simp only [statusOf]
          rw [hfw.2.1]
          have := statusOf_track h streamKey w.config q line
          simp only [statusOf] at this
          rw [this, hs1.1, hs1.2.1, hs1.2.2]
      · have hs1 := hstep.2 (by omega)
        rw [processLine_suppress h q streamKey line w hw hacc' hs1.2.1]
        have hfr := trackLogPattern_frame h q streamKey line w.config
        refine ⟨⟨w, by rw [hfr.1]; exact hw, hwc, hwa, by rw [hwb]; omega⟩,
          by rw [hfr.2.1]; exact hcfg, fun hlt => by omega, fun _ => ⟨n + 1, ?_⟩⟩
        rw [statusOf_track, hs1.1, hs1.2.1, hs1.2.2]
    · obtain ⟨c, hc⟩ := hhigh (by omega)
      have hpc := processLine_consolidated h streamKey q line w c hw hacc' hc
      refine ⟨⟨w, by rw [hpc.1]; exact hw, hwc, hwa, by rw [hwb]; omega⟩,
        by rw [hpc.2.1]; exact hcfg, fun hlt => by omega, fun _ => ⟨c, hpc.2.2⟩⟩
  obtain ⟨⟨w', hw', hwc', hwa', hwb'⟩, hcfg', hlow', hhigh'⟩ := hbody
  refine ⟨⟨w', by rw [hck.1]; exact hw', hwc', hwa', hwb'⟩, by rw [hck.2.1]; exact hcfg',
    fun hlt => ?_, fun hge => ?_⟩
  · rcases hlow' hlt with ⟨hnone, hz⟩ | hsome
    · exact Or.inl ⟨by rw [hck.2.2.2]; exact hnone, hz⟩
    · exact Or.inr (by rw [hck.2.2.2]; exact hsome)
  · obtain ⟨c, hc⟩ := hhigh' hge
    exact ⟨c, by rw [hck.2.2.2]; exact hc⟩

/-- Feeding a fresh stream `n` times with a chunk made of one accepted line
leaves `min n (T - 1)` entries in its buffer. -/
theorem feed_buffer_length (config : Config) (T : Nat) (chunk line : String) (p : LogProcessor)
    (w : LogStream) (hT : 1 ≤ T) (hlines : chunkLines chunk = [line])
    (hacc : shouldProcessLine h line config = true)
    (hw : mapGet p.activeStreams streamKey = some w) (hwc : w.config = config)
    (hwa : w.isActive = true) (hwb : w.buffer = [])
    (hcfg : p.consolidationConfig.minRepeatCount = T)
    (hfresh : mapGet p.logPatterns (getPatternKey streamKey (extractLogPattern line)) = none) :
    ∀ n, FedWith streamKey config T (getPatternKey streamKey (extractLogPattern line)) n
      (feed h streamKey chunk n p) := by
  intro n
  induction n with
  | zero =>
    refine ⟨⟨w, hw, hwc, hwa, by simp [hwb]⟩, hcfg,
      fun _ => Or.inl ⟨by simp [statusOf, feed, hfresh], rfl⟩, fun hge => by omega⟩
  | succ n ih => exact fedWith_step h streamKey config T chunk line n _ hT hlines hacc ih

end Feed

/-- C3, refuted as stated: on a fresh default stream (threshold 10, the line
accepted) the ninth poll leaves nine entries of `ERROR: disk full` in the
buffer and the tenth adds none: the tenth occurrence is not forwarded and
the buffer holds nine entries, not ten. -/
theorem tenth_occurrence_not_buffered :
    shouldProcessLine tickingHost "ERROR: disk full" {} = true ∧
    defaultStream.consolidationConfig.minRepeatCount = 10 ∧
    (bufferOf (feed tickingHost "s" "ERROR: disk full" 9 defaultStream) "s").map (fun e => e.line) =
      List.replicate 9 "ERROR: disk full" ∧
    bufferOf (feed tickingHost "s" "ERROR: disk full" 10 defaultStream) "s" =
      bufferOf (feed tickingHost "s" "ERROR: disk full" 9 defaultStream) "s" ∧
    (bufferOf (feed tickingHost "s" "ERROR: disk full" 10 defaultStream) "s").length ≠ 10 := by
  decide

/-- C3, amended. With threshold 10 and a fresh stream that accepts the line,
feeding `ERROR: disk full` repeatedly through `processLogChunk` (no flush
completing in between) buffers exactly 9 entries: after `n` occurrences the
buffer holds `min n 9` entries, so occurrences 1 to 9 are each forwarded, the
ninth is the last one forwarded, and the tenth and later ones add nothing. -/
theorem repeated_line_buffered_below_threshold (h : Host) (streamKey : String)
    (p : LogProcessor) (w : LogStream)
    (hw : mapGet p.activeStreams streamKey = some w) (hwa : w.isActive = true)
    (hwb : w.buffer = [])
    (hacc : shouldProcessLine h "ERROR: disk full" w.config = true)
    (hcfg : p.consolidationConfig.minRepeatCount = 10)
    (hfresh : mapGet p.logPatterns
      (getPatternKey streamKey (extractLogPattern "ERROR: disk full")) = none) :
    ∀ n, (bufferOf (feed h streamKey "ERROR: disk full" n p) streamKey).length = min n 9 := by
  intro n
  obtain ⟨⟨w', hw', _, _, hlen⟩, _⟩ := feed_buffer_length h streamKey w.config 10
    "ERROR: disk full" "ERROR: disk full" p w (by decide) (by decide) hacc hw rfl hwa hwb hcfg
    hfresh n
  simp only [bufferOf, hw']
  exact hlen

/-- C3 amended, on the default stream: nine entries after 25 polls. -/
theorem repeated_line_buffered_below_threshold_witness :
    (bufferOf (feed tickingHost "s" "ERROR: disk full" 25 defaultStream) "s").length = min 25 9 :=
  repeated_line_buffered_below_threshold tickingHost "s" defaultStream
    ⟨{}, [], 0, true, some 0⟩ (by decide) rfl rfl (by decide) (by decide) (by decide) 25

/-- C4, failing input. On the default stream ten occurrences of
`ERROR: disk full` suppress the pattern with nine entries buffered; the
consolidation timer fires and its summary is delivered, which leaves the
record suppressed but no longer consolidated; the next occurrence of the
pattern is appended to the buffer although its record is suppressed. -/
theorem suppressed_line_buffered_after_summary :
    statusOf (feed tickingHost "s" "ERROR: disk full" 10 defaultStream) "s:ERROR: disk full" =
      some (10, true, true) ∧
    statusOf (fireTimer tickingHost (feed tickingHost "s" "ERROR: disk full" 10 defaultStream) 1 true)
      "s:ERROR: disk full" = some (0, false, true) ∧
    (bufferOf (fireTimer tickingHost (feed tickingHost "s" "ERROR: disk full" 10 defaultStream) 1 true)
      "s").length = 9 ∧
    (bufferOf (processLogChunk tickingHost
      (fireTimer tickingHost (feed tickingHost "s" "ERROR: disk full" 10 defaultStream) 1 true)
      "s" "ERROR: disk full") "s").length = 10 ∧
    statusOf (processLogChunk tickingHost
      (fireTimer tickingHost (feed tickingHost "s" "ERROR: disk full" 10 defaultStream) 1 true)
      "s" "ERROR: disk full") "s:ERROR: disk full" = some (0, false, true) := by
  decide

/-- C20. For actual and required levels among debug, info, warn and error,
`meetsLogLevel` holds exactly when the actual level is at or above the required
one in the order debug < info < warn < error (positions in `levelOrder`); on
these levels the relation is reflexive and transitive. -/
theorem meetsLogLevel_iff_order (actualLevel requiredLevel : String)
    (ha : actualLevel ∈ levelOrder) (hr : requiredLevel ∈ levelOrder) :
    (meetsLogLevel actualLevel (some requiredLevel) = true ↔
      levelOrder.indexOf requiredLevel ≤ levelOrder.indexOf actualLevel) ∧
    meetsLogLevel actualLevel (some actualLevel) = true ∧
    ∀ middle, middle ∈ levelOrder →
      meetsLogLevel actualLevel (some middle) = true →
      meetsLogLevel middle (some requiredLevel) = true →
      meetsLogLevel actualLevel (some requiredLevel) = true := by
  have key : ∀ a ∈ levelOrder, ∀ r ∈ levelOrder,
      (meetsLogLevel a (some r) = true ↔ levelOrder.indexOf r ≤ levelOrder.indexOf a) := by
    decide
  refine ⟨key _ ha _ hr, (key _ ha _ ha).mpr (Nat.le_refl _), fun middle hm h1 h2 => ?_⟩
  exact (key _ ha _ hr).mpr
    (Nat.le_trans ((key _ hm _ hr).mp h2) ((key _ ha _ hm).mp h1))

/-- C20 on the pair of the test suite that is rejected: `warn` does not meet
`error`, and `error` meets `warn`. -/
theorem meetsLogLevel_iff_order_witness :
    ((meetsLogLevel "warn" (some "error") = true ↔
      levelOrder.indexOf "error" ≤ levelOrder.indexOf "warn") ∧
    meetsLogLevel "warn" (some "warn") = true ∧
    ∀ middle, middle ∈ levelOrder →
      meetsLogLevel "warn" (some middle) = true →
      meetsLogLevel middle (some "error") = true →
      meetsLogLevel "warn" (some "error") = true) ∧
    meetsLogLevel "warn" (some "error") = false ∧ meetsLogLevel "error" (some "warn") = true :=
  ⟨meetsLogLevel_iff_order "warn" "error" (by decide) (by decide), by decide, by decide⟩

section StartStop

variable {β : Type}

theorem mapGet_none_iff (m : List (String × β)) (key : String) :
    mapGet m key = none ↔ ∀ e ∈ m, e.1 ≠ key := by
  induction m with
  | nil => simp [mapGet_nil]
  | cons e rest ih =>
    rw [mapGet_cons]
    by_cases he : e.1 = key
    · simp [he]
    · simp [he, ih]

theorem mapSet_absent (m : List (String × β)) (key : String) (v : β)
    (hget : mapGet m key = none) : mapSet m key v = m ++ [(key, v)] := by
  induction m with
  | nil => rfl
  | cons e rest ih =>
    rw [mapGet_cons] at hget
    by_cases he : e.1 = key
    · simp [he] at hget
    · rw [if_neg he] at hget
      rw [mapSet_cons, if_neg he, ih hget]; rfl

end StartStop

/-- C13. `startStreaming` for a key that has a worker changes nothing at all
(same worker with its configuration, buffer and `lastSent`, no new timer); so a
second call after a first gives the state of the first, and, the keys of
`activeStreams` being distinct as in a `Map`, that state holds exactly one
worker under the key. -/
theorem startStreaming_idempotent (p : LogProcessor) (streamKey : String)
    (config config' : Config) (hmap : (p.activeStreams.map Prod.fst).Nodup) :
    (∀ w, mapGet p.activeStreams streamKey = some w → startStreaming p streamKey config' = p) ∧
    startStreaming (startStreaming p streamKey config) streamKey config' =
      startStreaming p streamKey config ∧
    ((startStreaming (startStreaming p streamKey config) streamKey config').activeStreams.map
      Prod.fst).count streamKey = 1 ∧
    ((startStreaming p streamKey config).timers.filter
      (fun t => t.2 == TimerTask.poll streamKey)).length =
      (p.timers.filter (fun t => t.2 == TimerTask.poll streamKey)).length +
        (if (mapGet p.activeStreams streamKey).isSome then 0 else 1) := by
  have hpresent : ∀ (q : LogProcessor) (c : Config) (w : LogStream),
      mapGet q.activeStreams streamKey = some w → startStreaming q streamKey c = q := by
    intro q c w hw
    simp [startStreaming, hw]
  have hafter : ∃ w, mapGet (startStreaming p streamKey config).activeStreams streamKey = some w := by
    cases hget : mapGet p.activeStreams streamKey with
    | some w => exact ⟨w, by rw [hpresent p config w hget]; exact hget⟩
    | none =>
      refine ⟨{ config := config, buffer := [], lastSent := 0, isActive := true,
                interval := some p.nextTimer }, ?_⟩
      simp [startStreaming, hget, setTimeout, mapGet_mapSet_self]
  obtain ⟨w1, hw1⟩ := hafter
  have htwice := hpresent (startStreaming p streamKey config) config' w1 hw1
  refine ⟨fun w hw => hpresent p config' w hw, htwice, ?_, ?_⟩
  · rw [htwice]
    cases hget : mapGet p.activeStreams streamKey with
    | some w =>
      rw [hpresent p config w hget]
      exact List.count_eq_one_of_mem hmap (mapGet_some_mem _ _ _ hget)
    | none =>
      have hnot : streamKey ∉ p.activeStreams.map Prod.fst := by
        intro hm
        obtain ⟨e, he, hk⟩ := List.mem_map.mp hm
        exact (mapGet_none_iff _ _).mp hget e he hk
      simp [startStreaming, hget, setTimeout, mapSet_absent _ _ _ hget,
        List.count_eq_zero_of_not_mem hnot]
  · cases hget : mapGet p.activeStreams streamKey with
    | some w => rw [hpresent p config w hget]; simp
    | none => simp [startStreaming, hget, setTimeout, List.filter_append]

/-- C13 on the default stream: a second start, with another configuration,
leaves it as it is. -/
theorem startStreaming_idempotent_witness :
    (∀ w, mapGet defaultStream.activeStreams "s" = some w →
      startStreaming defaultStream "s" { maxLines := 3 } = defaultStream) ∧
    startStreaming (startStreaming defaultStream "s" {}) "s" { maxLines := 3 } =
      startStreaming defaultStream "s" {} ∧
    ((startStreaming (startStreaming defaultStream "s" {}) "s" { maxLines := 3 }).activeStreams.map
      Prod.fst).count "s" = 1 ∧
    ((startStreaming defaultStream "s" {}).timers.filter
      (fun t => t.2 == TimerTask.poll "s")).length =
      (defaultStream.timers.filter (fun t => t.2 == TimerTask.poll "s")).length +
        (if (mapGet defaultStream.activeStreams "s").isSome then 0 else 1) :=
  startStreaming_idempotent defaultStream "s" {} { maxLines := 3 } (by decide)

/-- C14. `stopStreaming` for a key without worker returns the state unchanged
(workers, buffers, pattern records and everything else); so does
`processLogChunk` for a key without worker and for a worker that is not
active. -/
theorem unknown_stream_noop (h : Host) (p : LogProcessor) (streamKey chunk : String) :
    (mapGet p.activeStreams streamKey = none → stopStreaming h p streamKey = p) ∧
    (mapGet p.activeStreams streamKey = none → processLogChunk h p streamKey chunk = p) ∧
    (∀ w, mapGet p.activeStreams streamKey = some w → w.isActive = false →
      processLogChunk h p streamKey chunk = p) := by
  refine ⟨fun hn => ?_, fun hn => ?_, fun w hw ha => ?_⟩
  · simp [stopStreaming, hn]
  · simp [processLogChunk, hn]
  · simp [processLogChunk, hw, ha]

/-- C14 on the default stream: stopping or feeding the unknown key `t` changes
nothing, and a chunk for a registered worker that is not active changes
nothing. -/
theorem unknown_stream_noop_witness :
    stopStreaming tickingHost defaultStream "t" = defaultStream ∧
    processLogChunk tickingHost defaultStream "t" "ERROR: disk full" = defaultStream ∧
    processLogChunk tickingHost
      { activeStreams := [("s", ⟨{}, [], 0, false, none⟩)] } "s" "ERROR: disk full" =
      { activeStreams := [("s", ⟨{}, [], 0, false, none⟩)] } :=
  ⟨(unknown_stream_noop tickingHost defaultStream "t" "").1 (by decide),
   (unknown_stream_noop tickingHost defaultStream "t" "ERROR: disk full").2.1 (by decide),
   (unknown_stream_noop tickingHost { activeStreams := [("s", ⟨{}, [], 0, false, none⟩)] } "s"
      "ERROR: disk full").2.2 ⟨{}, [], 0, false, none⟩ (by decide) rfl⟩

section Cleanup

variable {β : Type}

theorem mem_mapDelete (m : List (String × β)) (key : String) (e : String × β) :
    e ∈ mapDelete m key ↔ e ∈ m ∧ e.1 ≠ key := by
  simp [mapDelete, List.mem_filter]

theorem mem_clearTimeout (p : LogProcessor) (t : Nat) (e : Nat × TimerTask) :
    e ∈ (clearTimeout p t).timers ↔ e ∈ p.timers ∧ e.1 ≠ t := by
  simp [clearTimeout, List.mem_filter]

theorem sendLogBuffer_timers (h : Host) (p : LogProcessor) (streamKey : String)
    (logStream : LogStream) :
    (sendLogBuffer h p streamKey logStream).timers = p.timers := by
  unfold sendLogBuffer
  split_ifs <;> simp [dateNow]

/-- What the loop of `cleanupConsolidationTimers` does: the records it meets
whose key belongs to the stream are deleted and their timers cleared; the
other records stay; no timer is added; the workers are not touched. -/
theorem cleanupLoop_spec (streamKey : String) (keys : List String) :
    ∀ p : LogProcessor,
      (cleanupLoop streamKey keys p).activeStreams = p.activeStreams ∧
      (cleanupLoop streamKey keys p).sent = p.sent ∧
      (cleanupLoop streamKey keys p).pending = p.pending ∧
      (∀ e, e ∈ (cleanupLoop streamKey keys p).timers → e ∈ p.timers) ∧
      (∀ e, e ∈ (cleanupLoop streamKey keys p).logPatterns ↔
        (e ∈ p.logPatterns ∧ ¬ (e.1 ∈ keys ∧ belongsTo streamKey e.1 = true))) ∧
      (∀ key pd, key ∈ keys → mapGet p.logPatterns key = some pd →
        belongsTo streamKey key = true →
        ∀ t, (pd.consolidationTimer = some t ∨ pd.stoppedTimer = some t) →
          ∀ e ∈ (cleanupLoop streamKey keys p).timers, e.1 ≠ t) := by
  induction keys with
  | nil =>
    intro p
    refine ⟨rfl, rfl, rfl, fun e he => he, fun e => ?_, fun key pd hk => ?_⟩
    · simp [cleanupLoop]
    · simp at hk
  | cons k0 rest ih =>
    intro p
    cases h0 : mapGet p.logPatterns k0 with
    | none =>
      have hloop : cleanupLoop streamKey (k0 :: rest) p = cleanupLoop streamKey rest p := by
        simp [cleanupLoop, h0]
      rw [hloop]
      obtain ⟨i1, i2, i3, i4, i5, i6⟩ := ih p
      have hno := (mapGet_none_iff _ _).mp h0
      refine ⟨i1, i2, i3, i4, fun e => ?_, fun key pd hk hget hb t ht => ?_⟩
      · rw [i5 e]
        constructor
        · intro ⟨hm, hn⟩
          refine ⟨hm, fun hc => hn ⟨?_, hc.2⟩⟩
          rcases List.mem_cons.mp hc.1 with e0 | hr
          · exact absurd e0 (hno e hm)
          · exact hr
        · intro ⟨hm, hn⟩
          exact ⟨hm, fun hc => hn ⟨List.mem_cons_of_mem _ hc.1, hc.2⟩⟩
      · rcases List.mem_cons.mp hk with e0 | hr
        · rw [e0, h0] at hget; cases hget
        · exact i6 key pd hr hget hb t ht
    | some pd0 =>
      by_cases hb0 : belongsTo streamKey k0 = true
      · -- the record is cleaned up
        obtain ⟨q, hq, hqa, hqs, hqp, hqt, hql⟩ :
            ∃ q : LogProcessor,
              cleanupLoop streamKey (k0 :: rest) p = cleanupLoop streamKey rest q ∧
              q.activeStreams = p.activeStreams ∧ q.sent = p.sent ∧ q.pending = p.pending ∧
              (∀ e, e ∈ q.timers ↔ (e ∈ p.timers ∧ pd0.consolidationTimer ≠ some e.1 ∧
                pd0.stoppedTimer ≠ some e.1)) ∧
              q.logPatterns = mapDelete p.logPatterns k0 := by
          cases hc : pd0.consolidationTimer with
          | none =>
            cases hs : pd0.stoppedTimer with
            | none =>
              exact ⟨{ p with logPatterns := mapDelete p.logPatterns k0 },
                by simp [cleanupLoop, h0, hb0, hc, hs], rfl, rfl, rfl, by simp, rfl⟩
            | some ts =>
              refine ⟨{ clearTimeout p ts with logPatterns := mapDelete p.logPatterns k0 },
                by simp [cleanupLoop, h0, hb0, hc, hs, clearTimeout], rfl, rfl, rfl, fun e => ?_, rfl⟩
              have := mem_clearTimeout p ts e
              simp only [clearTimeout] at this ⊢
              rw [this]
              constructor
              · intro ⟨hm, hn⟩; exact ⟨hm, by simp, fun hh => hn (Option.some.inj hh).symm⟩
              · intro ⟨hm, _, hn⟩; exact ⟨hm, fun hh => hn (by rw [hh])⟩
          | some tc =>
            cases hs : pd0.stoppedTimer with
            | none =>
              refine ⟨{ clearTimeout p tc with logPatterns := mapDelete p.logPatterns k0 },
                by simp [cleanupLoop, h0, hb0, hc, hs, clearTimeout], rfl, rfl, rfl, fun e => ?_, rfl⟩
              have := mem_clearTimeout p tc e
              simp only [clearTimeout] at this ⊢
              rw [this]
              constructor
              · intro ⟨hm, hn⟩; exact ⟨hm, fun hh => hn (Option.some.inj hh).symm, by simp⟩
              · intro ⟨hm, hn, _⟩; exact ⟨hm, fun hh => hn (by rw [hh])⟩
            | some ts =>
              refine ⟨{ clearTimeout (clearTimeout p tc) ts with
                  logPatterns := mapDelete p.logPatterns k0 },
                by simp [cleanupLoop, h0, hb0, hc, hs, clearTimeout], rfl, rfl, rfl, fun e => ?_, rfl⟩
              have h1 := mem_clearTimeout (clearTimeout p tc) ts e
              have h2 := mem_clearTimeout p tc e
              simp only [clearTimeout] at h1 h2 ⊢
              rw [h1, h2]
              constructor
              · intro ⟨⟨hm, hn1⟩, hn2⟩
                exact ⟨hm, fun hh => hn1 (Option.some.inj hh).symm,
                  fun hh => hn2 (Option.some.inj hh).symm⟩
              · intro ⟨hm, hn1, hn2⟩
                exact ⟨⟨hm, fun hh => hn1 (by rw [hh])⟩, fun hh => hn2 (by rw [hh])⟩
        rw [hq]
        obtain ⟨i1, i2, i3, i4, i5, i6⟩ := ih q
        refine ⟨i1.trans hqa, i2.trans hqs, i3.trans hqp, fun e he => ((hqt e).mp (i4 e he)).1,
          fun e => ?_, fun key pd hk hget hb t ht e he => ?_⟩
        · rw [i5 e, hql, mem_mapDelete]
          constructor
          · intro ⟨⟨hm, hne⟩, hn⟩
            refine ⟨hm, fun hc => ?_⟩
            rcases List.mem_cons.mp hc.1 with e0 | hr
            · exact hne e0
            · exact hn ⟨hr, hc.2⟩
          · intro ⟨hm, hn⟩
            refine ⟨⟨hm, fun e0 => hn ⟨by rw [e0]; exact List.mem_cons_self _ _, by rw [e0]; exact hb0⟩⟩,
              fun hc => hn ⟨List.mem_cons_of_mem _ hc.1, hc.2⟩⟩
        · by_cases hk0 : key = k0
          · have hpd : pd = pd0 := by
              rw [hk0, h0] at hget; exact (Option.some.inj hget).symm
            have hmem := (hqt e).mp (i4 e he)
            intro heq
            rcases ht with hct | hst
            · exact hmem.2.1 (by rw [← hpd, hct, heq])
            · exact hmem.2.2 (by rw [← hpd, hst, heq])
          · have hr : key ∈ rest := by
              rcases List.mem_cons.mp hk with e0 | hr
              · exact absurd e0 hk0
              · exact hr
            have hget' : mapGet q.logPatterns key = some pd := by
              rw [hql, mapGet_mapDelete_ne _ _ _ hk0]; exact hget
            exact i6 key pd hr hget' hb t ht e he
      · have hloop : cleanupLoop streamKey (k0 :: rest) p = cleanupLoop streamKey rest p := by
          simp [cleanupLoop, h0, hb0]
        rw [hloop]
        obtain ⟨i1, i2, i3, i4, i5, i6⟩ := ih p
        refine ⟨i1, i2, i3, i4, fun e => ?_, fun key pd hk hget hb t ht => ?_⟩
        · rw [i5 e]
          constructor
          · intro ⟨hm, hn⟩
            refine ⟨hm, fun hc => hn ⟨?_, hc.2⟩⟩
            rcases List.mem_cons.mp hc.1 with e0 | hr
            · rw [e0] at hc; exact absurd hc.2 hb0
            · exact hr
          · intro ⟨hm, hn⟩
            exact ⟨hm, fun hc => hn ⟨List.mem_cons_of_mem _ hc.1, hc.2⟩⟩
        · rcases List.mem_cons.mp hk with e0 | hr
          · rw [e0] at hb; exact absurd hb hb0
          · exact i6 key pd hr hget hb t ht

end Cleanup

/-- C15. After `stopStreaming` for a key that has a worker: `isStreaming` is
false for the key; the worker has been marked inactive with its `interval`
reset (state before the final `delete`) and its poll timer is no longer
pending; no record whose key starts with the stream key and a colon is left in
`logPatterns`; and the consolidation and resolution timers that those records
held are no longer pending. -/
theorem stopStreaming_releases (h : Host) (p : LogProcessor) (streamKey : String) (w : LogStream)
    (hw : mapGet p.activeStreams streamKey = some w) :
    isStreaming (stopStreaming h p streamKey) streamKey = false ∧
    (∃ w', mapGet (stopStreamingWork h p streamKey w).activeStreams streamKey = some w' ∧
      w'.isActive = false ∧ w'.interval = none) ∧
    (∀ t, w.interval = some t → ∀ e ∈ (stopStreaming h p streamKey).timers, e.1 ≠ t) ∧
    (∀ e ∈ (stopStreaming h p streamKey).logPatterns, belongsTo streamKey e.1 = false) ∧
    (∀ key pd, mapGet p.logPatterns key = some pd → belongsTo streamKey key = true →
      ∀ t, (pd.consolidationTimer = some t ∨ pd.stoppedTimer = some t) →
        ∀ e ∈ (stopStreaming h p streamKey).timers, e.1 ≠ t) := by
  -- the state handed to the cleanup
  obtain ⟨p1, hp1t, hp1l, hp1a⟩ : ∃ p1 : LogProcessor,
      (∀ e, e ∈ p1.timers ↔ (e ∈ p.timers ∧ w.interval ≠ some e.1)) ∧
      p1.logPatterns = p.logPatterns ∧
      stopStreamingWork h p streamKey w =
        cleanupConsolidationTimers
          (if (markStopped w).buffer.length > 0 then
            sendLogBuffer h
              { p1 with activeStreams := mapSet p1.activeStreams streamKey (markStopped w) }
              streamKey (markStopped w)
          else
            { p1 with activeStreams := mapSet p1.activeStreams streamKey (markStopped w) })
          streamKey := by
    cases hi : w.interval with
    | none => exact ⟨p, by simp, rfl, by simp [stopStreamingWork, hi]⟩
    | some t =>
      refine ⟨clearTimeout p t, fun e => ?_, rfl, by simp [stopStreamingWork, hi]⟩
      rw [mem_clearTimeout]
      constructor
      · intro ⟨hm, hn⟩; exact ⟨hm, fun hh => hn (Option.some.inj hh).symm⟩
      · intro ⟨hm, hn⟩; exact ⟨hm, fun hh => hn (by rw [hh])⟩
  obtain ⟨q, hq, hqa, hqt, hql⟩ : ∃ q : LogProcessor,
      stopStreamingWork h p streamKey w = cleanupConsolidationTimers q streamKey ∧
      mapGet q.activeStreams streamKey = some (markStopped w) ∧
      q.timers = p1.timers ∧ q.logPatterns = p.logPatterns := by
    refine ⟨_, hp1a, ?_, ?_, ?_⟩
    · split_ifs
      · rw [(sendLogBuffer_frame h _ streamKey _).1]; exact mapGet_mapSet_self _ _ _
      · exact mapGet_mapSet_self _ _ _
    · split_ifs
      · rw [sendLogBuffer_timers]
      · rfl
    · split_ifs
      · rw [(sendLogBuffer_frame h _ streamKey _).2.1]; exact hp1l
      · exact hp1l
  have hspec := cleanupLoop_spec streamKey (q.logPatterns.map Prod.fst) q
  have hstop : stopStreaming h p streamKey =
      { cleanupConsolidationTimers q streamKey with
        activeStreams := mapDelete (cleanupConsolidationTimers q streamKey).activeStreams
          streamKey } := by
    simp only [stopStreaming, hw, hq]
  have htimers : ∀ e, e ∈ (stopStreaming h p streamKey).timers → e ∈ q.timers := by
    intro e he
    rw [hstop] at he
    exact hspec.2.2.2.1 e he
  refine ⟨?_, ⟨_, by rw [hq]; exact (by
      show mapGet (cleanupLoop streamKey _ q).activeStreams streamKey = _
      rw [hspec.1]; exact hqa), rfl, rfl⟩, ?_, ?_, ?_⟩
  · rw [hstop]
    simp [isStreaming, mapGet_mapDelete_self]
  · intro t ht e he heq
    have := (hp1t e).mp (by rw [← hqt]; exact htimers e he)
    exact this.2 (by rw [ht, heq])
  · intro e he
    rw [hstop] at he
    have := (hspec.2.2.2.2.1 e).mp he
    by_contra hb
    have hb' : belongsTo streamKey e.1 = true := by simpa using hb
    exact this.2 ⟨List.mem_map.mpr ⟨e, this.1, rfl⟩, hb'⟩
  · intro key pd hget hb t ht e he
    rw [hstop] at he
    have hget' : mapGet q.logPatterns key = some pd := by rw [hql]; exact hget
    exact hspec.2.2.2.2.2 key pd (mapGet_some_mem _ _ _ hget') hget' hb t ht e he

/-- C15 on the default stream after ten polls of `ERROR: disk full` (one
suppressed record with a pending consolidation timer, handle 1; poll timer
handle 0): after the stop no timer is pending and no record is left. -/
theorem stopStreaming_releases_witness :
    (isStreaming (stopStreaming tickingHost
        (feed tickingHost "s" "ERROR: disk full" 10 defaultStream) "s") "s" = false ∧
      (∀ e ∈ (stopStreaming tickingHost
        (feed tickingHost "s" "ERROR: disk full" 10 defaultStream) "s").logPatterns,
        belongsTo "s" e.1 = false)) ∧
    (feed tickingHost "s" "ERROR: disk full" 10 defaultStream).timers =
      [(0, TimerTask.poll "s"), (1, TimerTask.consolidation "s:ERROR: disk full")] ∧
    (stopStreaming tickingHost (feed tickingHost "s" "ERROR: disk full" 10 defaultStream) "s").timers
      = [] ∧
    (stopStreaming tickingHost
      (feed tickingHost "s" "ERROR: disk full" 10 defaultStream) "s").logPatterns = [] := by
  have hw := stopStreaming_releases tickingHost
    (feed tickingHost "s" "ERROR: disk full" 10 defaultStream) "s"
    ⟨{}, (bufferOf (feed tickingHost "s" "ERROR: disk full" 10 defaultStream) "s"), 0, true, some 0⟩
    (by decide)
  exact ⟨⟨hw.1, hw.2.2.2.1⟩, by decide, by decide, by decide⟩

section Queue

variable {μ : Type} (h : Host)

/-- A successful step keeps the flags consistent and appends the arguments of
an accepted message behind those already handled. -/
theorem apply_handled (s : SlackService μ) (e : SlackEvent μ) (hs : LoopConsistent s)
    (hok : allSucceed [e] = true) :
    LoopConsistent (e.apply h s) ∧ handledOf (e.apply h s) = handledOf s ++ sentOf [e] := by
  obtain ⟨hinit, hidle, hwait⟩ := hs
  cases e with
  | send channel message config =>
    cases hp : s.isProcessingQueue with
    | true =>
      simpa [SlackEvent.apply, SlackService.sendMessage, hinit, hp, LoopConsistent, handledOf,
        sentOf, QueueItem.args] using hwait
    | false =>
      obtain ⟨hq, hf, hw⟩ := hidle hp
      simp [SlackEvent.apply, SlackService.sendMessage, hinit, hp, hq, processMessageQueue,
        loopHead, LoopConsistent, handledOf, sentOf, QueueItem.args, hw]
  | sink ok =>
    cases ok with
    | false => simp [allSucceed] at hok
    | true =>
      cases hf : s.inFlight with
      | none =>
        simp only [SlackEvent.apply, sinkResult, hf, sentOf, List.append_nil]
        exact ⟨⟨hinit, hidle, hwait⟩, trivial⟩
      | some i =>
        have hp : s.isProcessingQueue = true := by
          cases hp : s.isProcessingQueue with
          | true => rfl
          | false => rw [(hidle hp).2.1] at hf; cases hf
        simp [SlackEvent.apply, sinkResult, hf, LoopConsistent, handledOf, sentOf, hinit, hp]
  | delay =>
    cases hw : s.waiting with
    | false =>
      simp only [SlackEvent.apply, delayDone, hw, sentOf, List.append_nil]
      exact ⟨⟨hinit, hidle, hwait⟩, by simp⟩
    | true =>
      have hf := hwait hw
      cases hq : s.messageQueue with
      | nil =>
        simp [SlackEvent.apply, delayDone, hw, loopHead, hq, LoopConsistent, handledOf, sentOf,
          hinit, hf]
      | cons x rest =>
        have hp : s.isProcessingQueue = true := by
          cases hp : s.isProcessingQueue with
          | true => rfl
          | false => rw [(hidle hp).1] at hq; cases hq
        simp [SlackEvent.apply, delayDone, hw, loopHead, hq, LoopConsistent, handledOf, sentOf,
          hinit, hp]

theorem sentOf_cons (e : SlackEvent μ) (rest : List (SlackEvent μ)) :
    sentOf (e :: rest) = sentOf [e] ++ sentOf rest := by
  cases e <;> simp [sentOf]

theorem allSucceed_cons (e : SlackEvent μ) (rest : List (SlackEvent μ))
    (hok : allSucceed (e :: rest) = true) : allSucceed [e] = true ∧ allSucceed rest = true := by
  cases e with
  | send c m k => exact ⟨rfl, by simpa [allSucceed] using hok⟩
  | sink ok =>
    cases ok with
    | false => simp [allSucceed] at hok
    | true => exact ⟨rfl, by simpa [allSucceed] using hok⟩
  | delay => exact ⟨rfl, by simpa [allSucceed] using hok⟩

/-- Along a run without failed send, the attempts made followed by the items
still queued are the messages accepted so far, in the order of their
`sendMessage` calls. -/
theorem runEvents_handled (events : List (SlackEvent μ)) :
    ∀ s : SlackService μ, LoopConsistent s → allSucceed events = true →
      LoopConsistent (runEvents h events s) ∧
      handledOf (runEvents h events s) = handledOf s ++ sentOf events := by
  induction events with
  | nil => intro s hs _; exact ⟨hs, by simp [runEvents, sentOf]⟩
  | cons e rest ih =>
    intro s hs hok
    obtain ⟨h1, h2⟩ := allSucceed_cons e rest hok
    obtain ⟨hc, hh⟩ := apply_handled h s e hs h1
    obtain ⟨hc', hh'⟩ := ih (e.apply h s) hc h2
    refine ⟨hc', ?_⟩
    show handledOf (runEvents h rest (e.apply h s)) = _
    rw [hh', hh, sentOf_cons e rest, List.append_assoc]

theorem runEvents_append (xs ys : List (SlackEvent μ)) :
    ∀ s : SlackService μ, runEvents h (xs ++ ys) s = runEvents h ys (runEvents h xs s) := by
  induction xs with
  | nil => intro s; rfl
  | cons x rest ih => intro s; exact ih _

theorem sentOf_append (xs ys : List (SlackEvent μ)) :
    sentOf (xs ++ ys) = sentOf xs ++ sentOf ys := by
  induction xs with
  | nil => rfl
  | cons x rest ih => rw [List.cons_append, sentOf_cons, sentOf_cons x rest, ih, List.append_assoc]

theorem sentOf_sendAll (msgs : List (String × μ × Config)) : sentOf (sendAll msgs) = msgs := by
  induction msgs with
  | nil => rfl
  | cons m rest ih =>
    simp only [sendAll, List.map_cons, sentOf] at ih ⊢
    rw [ih]

theorem sentOf_drainOk (n : Nat) : sentOf (drainOk μ n) = [] := by
  induction n with
  | zero => rfl
  | succ n ih => simpa [drainOk, sentOf] using ih

theorem allSucceed_append (xs ys : List (SlackEvent μ)) (hx : allSucceed xs = true)
    (hy : allSucceed ys = true) : allSucceed (xs ++ ys) = true := by
  induction xs with
  | nil => exact hy
  | cons x rest ih =>
    obtain ⟨_, h2⟩ := allSucceed_cons x rest hx
    cases x with
    | send c m k => simpa [allSucceed] using ih h2
    | sink ok =>
      cases ok with
      | false => simp [allSucceed] at hx
      | true => simpa [allSucceed] using ih h2
    | delay => simpa [allSucceed] using ih h2

theorem allSucceed_sendAll (msgs : List (String × μ × Config)) :
    allSucceed (sendAll msgs) = true := by
  induction msgs with
  | nil => rfl
  | cons m rest ih => simpa [sendAll, allSucceed] using ih

theorem allSucceed_drainOk (n : Nat) : allSucceed (drainOk μ n) = true := by
  induction n with
  | zero => rfl
  | succ n ih => simpa [drainOk, allSucceed] using ih

/-- With `n` turns of successful send and delay, a loop that has at most `n`
items left to handle (the one in flight included) comes to its end. -/
theorem drainOk_finishes (n : Nat) :
    ∀ s : SlackService μ, LoopConsistent s → s.waiting = false →
      s.messageQueue.length + (if s.inFlight.isSome then 1 else 0) ≤ n →
      (s.isProcessingQueue = true → s.inFlight.isSome = true) →
      (runEvents h (drainOk μ n) s).isProcessingQueue = false := by
  induction n with
  | zero =>
    intro s hs hw hlen hfl
    cases hp : s.isProcessingQueue with
    | false => simpa [drainOk, runEvents] using hp
    | true =>
      have := hfl hp
      simp [this] at hlen
  | succ n ih =>
    intro s hs hw hlen hfl
    obtain ⟨hinit, hidle, hwait⟩ := hs
    cases hf : s.inFlight with
    | none =>
      have hp : s.isProcessingQueue = false := by
        cases hp : s.isProcessingQueue with
        | false => rfl
        | true => have := hfl hp; simp [hf] at this
      have hstep : runEvents h (drainOk μ (n + 1)) s = runEvents h (drainOk μ n) s := by
        simp [drainOk, runEvents, SlackEvent.apply, sinkResult, hf, delayDone, hw]
      rw [hstep]
      exact ih s ⟨hinit, hidle, hwait⟩ hw (by simp [hf, (hidle hp).1]) (fun hp' => by
        rw [hp] at hp'; cases hp')
    | some i =>
      have hp : s.isProcessingQueue = true := by
        cases hp : s.isProcessingQueue with
        | true => rfl
        | false => rw [(hidle hp).2.1] at hf; cases hf
      cases hq : s.messageQueue with
      | nil =>
        have hstep : runEvents h (drainOk μ (n + 1)) s =
            runEvents h (drainOk μ n)
              { s with inFlight := none, waiting := false, isProcessingQueue := false } := by
          simp [drainOk, runEvents, SlackEvent.apply, sinkResult, hf, delayDone, loopHead, hq]
        rw [hstep]
        exact ih _ ⟨hinit, fun _ => ⟨hq, rfl, rfl⟩, fun hh => by cases hh⟩ rfl
          (by simp [hq]) (fun hh => by cases hh)
      | cons x rest =>
        have hstep : runEvents h (drainOk μ (n + 1)) s =
            runEvents h (drainOk μ n)
              { s with inFlight := some x, waiting := false, messageQueue := rest,
                       attempts := s.attempts ++ [x] } := by
          simp [drainOk, runEvents, SlackEvent.apply, sinkResult, hf, delayDone, loopHead, hq]
        rw [hstep]
        refine ih _ ⟨hinit, fun hh => ?_, fun hh => by cases hh⟩ rfl ?_ (fun _ => rfl)
        · rw [hp] at hh; cases hh
        · simp [hq, hf] at hlen ⊢; omega

/-- Calls of `sendMessage` alone start the loop when it is idle and never put
it into a delay: afterwards a running loop has a send in flight, which is one
of the attempts made. -/
theorem sendAll_shape (msgs : List (String × μ × Config)) :
    ∀ s : SlackService μ, LoopConsistent s → s.waiting = false →
      (s.isProcessingQueue = true → s.inFlight.isSome = true) →
      (s.inFlight.isSome = true → 1 ≤ s.attempts.length) →
      (runEvents h (sendAll msgs) s).waiting = false ∧
      ((runEvents h (sendAll msgs) s).isProcessingQueue = true →
        (runEvents h (sendAll msgs) s).inFlight.isSome = true) ∧
      ((runEvents h (sendAll msgs) s).inFlight.isSome = true →
        1 ≤ (runEvents h (sendAll msgs) s).attempts.length) := by
  induction msgs with
  | nil => intro s _ hw hp hf; exact ⟨hw, hp, hf⟩
  | cons m rest ih =>
    intro s hs hw hp hf
    have hstep := apply_handled h s (SlackEvent.send m.1 m.2.1 m.2.2) hs rfl
    obtain ⟨hinit, hidle, hwait⟩ := hs
    refine ih _ hstep.1 ?_ ?_ ?_
    · cases hpq : s.isProcessingQueue with
      | true => simpa [SlackEvent.apply, SlackService.sendMessage, hinit, hpq] using hw
      | false =>
        simp [SlackEvent.apply, SlackService.sendMessage, hinit, hpq, (hidle hpq).1,
          processMessageQueue, loopHead, hw]
    · cases hpq : s.isProcessingQueue with
      | true => simpa [SlackEvent.apply, SlackService.sendMessage, hinit, hpq] using hp hpq
      | false =>
        simp [SlackEvent.apply, SlackService.sendMessage, hinit, hpq, (hidle hpq).1,
          processMessageQueue, loopHead]
    · cases hpq : s.isProcessingQueue with
      | true => simpa [SlackEvent.apply, SlackService.sendMessage, hinit, hpq] using hf
      | false =>
        simp [SlackEvent.apply, SlackService.sendMessage, hinit, hpq, (hidle hpq).1,
          processMessageQueue, loopHead]

end Queue

/-- C16. The delivery queue is first in, first out while no send fails. From an
initialised idle service and along any run of `sendMessage` calls, successful
sends and delays, the calls of `sendMessageToSlack` made so far followed by the
items still queued are the accepted messages in the order of their
`sendMessage` calls, each once; when the loop is idle every accepted message
has been handed over. And for messages sent one after the other, as many turns
of the loop hand all of them over in that order and leave the loop idle with an
empty queue. -/
theorem delivery_queue_fifo {μ : Type} (h : Host) (events : List (SlackEvent μ))
    (msgs : List (String × μ × Config)) (hok : allSucceed events = true) :
    ((runEvents h events { isInitialized := true }).attempts.map QueueItem.args ++
        (runEvents h events { isInitialized := true }).messageQueue.map QueueItem.args =
      sentOf events) ∧
    ((runEvents h events { isInitialized := true }).isProcessingQueue = false →
      (runEvents h events { isInitialized := true }).attempts.map QueueItem.args =
        sentOf events) ∧
    (runEvents h (sendAll msgs ++ drainOk μ msgs.length) { isInitialized := true }).attempts.map
      QueueItem.args = msgs ∧
    (runEvents h (sendAll msgs ++ drainOk μ msgs.length) { isInitialized := true }).messageQueue
      = [] ∧
    (runEvents h (sendAll msgs ++ drainOk μ msgs.length)
      { isInitialized := true }).isProcessingQueue = false := by
  have hinit : LoopConsistent ({ isInitialized := true } : SlackService μ) :=
    ⟨rfl, fun _ => ⟨rfl, rfl, rfl⟩, fun hh => by cases hh⟩
  obtain ⟨hc, hh⟩ := runEvents_handled h events _ hinit hok
  have hh' : (runEvents h events { isInitialized := true }).attempts.map QueueItem.args ++
        (runEvents h events { isInitialized := true }).messageQueue.map QueueItem.args =
      sentOf events := by
    have := hh; simpa [handledOf] using this
  -- the run that sends everything first and then drains
  have hall : allSucceed (sendAll msgs ++ drainOk μ msgs.length) = true :=
    allSucceed_append _ _ (allSucceed_sendAll msgs) (allSucceed_drainOk msgs.length)
  obtain ⟨hc2, hh2⟩ := runEvents_handled h (sendAll msgs ++ drainOk μ msgs.length) _ hinit hall
  obtain ⟨hc1, hh1⟩ := runEvents_handled h (sendAll msgs) _ hinit (allSucceed_sendAll msgs)
  obtain ⟨sw, sp, sf⟩ := sendAll_shape h msgs _ hinit rfl (fun hh => by cases hh)
    (fun hh => by cases hh)
  have hlen : (runEvents h (sendAll msgs) { isInitialized := true }).attempts.length +
      (runEvents h (sendAll msgs) { isInitialized := true }).messageQueue.length =
      msgs.length := by
    have := congrArg List.length hh1
    simpa [handledOf, sentOf_sendAll] using this
  have hidle : (runEvents h (sendAll msgs ++ drainOk μ msgs.length)
      { isInitialized := true }).isProcessingQueue = false := by
    rw [runEvents_append]
    refine drainOk_finishes h msgs.length _ hc1 sw ?_ sp
    cases hfl : (runEvents h (sendAll msgs) { isInitialized := true }).inFlight.isSome with
    | false => simp; omega
    | true => have := sf hfl; simp; omega
  have hempty := (hc2.2.1 hidle).1
  refine ⟨hh', fun hi => ?_, ?_, hempty, hidle⟩
  · have hq := (hc.2.1 hi).1
    rw [hq] at hh'
    simpa using hh'
  · have := hh2
    simp only [handledOf, hempty, sentOf_append, sentOf_sendAll, sentOf_drainOk] at this
    simpa using this

/-- C16 on three messages sent before the first send settles. -/
theorem delivery_queue_fifo_witness :
    ((runEvents tickingHost
        [SlackEvent.send "#a" "m1" {}, SlackEvent.send "#b" "m2" {}, SlackEvent.sink true,
         SlackEvent.send "#c" "m3" {}, SlackEvent.delay, SlackEvent.sink true, SlackEvent.delay,
         SlackEvent.sink true, SlackEvent.delay]
        { isInitialized := true }).attempts.map QueueItem.args =
      [("#a", "m1", {}), ("#b", "m2", {}), ("#c", "m3", {})]) ∧
    (runEvents tickingHost
      (sendAll [("#a", "m1", {}), ("#b", "m2", {}), ("#c", "m3", {})] ++ drainOk String 3)
      { isInitialized := true }).attempts.map QueueItem.args =
      [("#a", "m1", {}), ("#b", "m2", {}), ("#c", "m3", {})] :=
  ⟨(delivery_queue_fifo tickingHost
      [SlackEvent.send "#a" "m1" {}, SlackEvent.send "#b" "m2" {}, SlackEvent.sink true,
       SlackEvent.send "#c" "m3" {}, SlackEvent.delay, SlackEvent.sink true, SlackEvent.delay,
       SlackEvent.sink true, SlackEvent.delay] [] rfl).2.1 (by decide),
   (delivery_queue_fifo tickingHost ([] : List (SlackEvent String))
      [("#a", "m1", {}), ("#b", "m2", {}), ("#c", "m3", {})] rfl).2.2.1⟩

/-- An item without `retryCount`, as `sendMessage` builds it, is not re-queued
when its send fails: the loop goes on with the rest of the queue. -/
theorem sinkResult_fail_fresh {μ : Type} (h : Host) (s : SlackService μ) (i : QueueItem μ)
    (hf : s.inFlight = some i) (hr : i.retryCount = none) :
    sinkResult h s false = loopHead { s with inFlight := none } := by
  simp [sinkResult, hf, hr, belowRetryCeiling]

/-- C17, failing input. An initialised idle service accepts one message and the
send of that message fails once: the message has been attempted once, it is
not in the queue any more and the loop has ended; no retry has taken place and
none will, whereas an item that carries `retryCount = 0` is re-queued with
count 1 by the same failure. -/
theorem failed_send_not_retried :
    (runEvents tickingHost [SlackEvent.send "#alerts" "disk full" {}, SlackEvent.sink false]
      { isInitialized := true }).attempts =
      [⟨"#alerts", "disk full", {}, 1000000, none⟩] ∧
    (runEvents tickingHost [SlackEvent.send "#alerts" "disk full" {}, SlackEvent.sink false]
      { isInitialized := true }).messageQueue = [] ∧
    (runEvents tickingHost [SlackEvent.send "#alerts" "disk full" {}, SlackEvent.sink false]
      { isInitialized := true }).inFlight = none ∧
    (runEvents tickingHost [SlackEvent.send "#alerts" "disk full" {}, SlackEvent.sink false]
      { isInitialized := true }).isProcessingQueue = false ∧
    (sinkResult tickingHost
      { isInitialized := true, isProcessingQueue := true,
        inFlight := some ⟨"#alerts", "disk full", {}, 1000000, some 0⟩,
        attempts := [⟨"#alerts", "disk full", {}, 1000000, some 0⟩] } false).inFlight =
      some ⟨"#alerts", "disk full", {}, 1005000, some 1⟩ := by
  decide

/-- A single flush that is resumed at once with a successful send: the message
carries the whole buffer in buffer order, the buffer is then empty and
`lastSent` is the time read after the `await`. -/
theorem sendLogBuffer_flush (h : Host) (p : LogProcessor) (streamKey : String) (w : LogStream)
    (hw : mapGet p.activeStreams streamKey = some w) (hne : w.buffer ≠ []) :
    (sendLogBuffer h p streamKey w).sent =
      p.sent ++ [⟨w.config.channel, formatLogMessage (h.clock p.reads) w.buffer, w.config⟩] ∧
    mapGet (sendLogBufferResume h (sendLogBuffer h p streamKey w) streamKey true).activeStreams
      streamKey = some { w with buffer := [], lastSent := h.clock (p.reads + 1) } := by
  have hlen : w.buffer.length ≠ 0 := fun hz => hne (List.length_eq_zero.mp hz)
  constructor
  · simp [sendLogBuffer, hlen, dateNow]
  · simp [sendLogBuffer, hlen, dateNow, sendLogBufferResume, hw, mapGet_mapSet_self]

/-- C11, failing input. One call of `processLogChunk` on three accepted lines
for a worker with `maxLines` 2: the entries of the first two lines are each
handed to `sendMessage` in two messages, and the entry of the third line in
one; when both suspended flushes have resumed the buffer is empty. The cause
is that of C10: the buffer is emptied only after the `await`. -/
theorem entry_handed_over_twice :
    timesHandedOver (processLogChunk tickingHost smallStream "s" "a\nb\nc")
      ⟨1000002, "a", "", "", ""⟩ = 2 ∧
    timesHandedOver (processLogChunk tickingHost smallStream "s" "a\nb\nc")
      ⟨1000006, "b", "", "", ""⟩ = 2 ∧
    timesHandedOver (processLogChunk tickingHost smallStream "s" "a\nb\nc")
      ⟨1000011, "c", "", "", ""⟩ = 1 ∧
    bufferOf (settle tickingHost (processLogChunk tickingHost smallStream "s" "a\nb\nc")
      [true, true]) "s" = [] := by
  decide

/-- C12, refuted as stated: a worker with cooldown -5 and `maxLines` 2 has two
entries buffered when its flush fails at time 1 000 010; the buffer is kept and
`lastSent` is 1 060 010; at time 1 056 011, 56 seconds after the failure,
`shouldSendBuffer` returns true. -/
theorem negative_cooldown_resends_early :
    (mapGet (settle retryHost (processLogChunk retryHost negativeCooldownStream "s" "a\nb")
      [false]).activeStreams "s").map (fun w => (w.buffer.length, w.lastSent)) =
      some (2, 1060010) ∧
    retryHost.clock (settle retryHost (processLogChunk retryHost negativeCooldownStream "s" "a\nb")
      [false]).reads = 1056011 ∧
    (mapGet (settle retryHost (processLogChunk retryHost negativeCooldownStream "s" "a\nb")
      [false]).activeStreams "s").map
      (fun w => (shouldSendBuffer retryHost
        (settle retryHost (processLogChunk retryHost negativeCooldownStream "s" "a\nb") [false])
        w).1) = some true := by
  decide

/-- C12, amended. When the `sendMessage` awaited by `sendLogBuffer` fails, the
resumed code keeps the buffer of the worker as it is and sets `lastSent` to
the time of the failure plus 60000 ms; for a cooldown that is not negative,
`shouldSendBuffer` then returns false at every time less than 60000 ms after
the failure. -/
theorem failed_flush_backs_off (h : Host) (p : LogProcessor) (streamKey : String) (w : LogStream)
    (hw : mapGet p.activeStreams streamKey = some w) :
    mapGet (sendLogBufferResume h p streamKey false).activeStreams streamKey =
      some { w with lastSent := h.clock p.reads + 60000 } ∧
    (∀ other, other ≠ streamKey →
      mapGet (sendLogBufferResume h p streamKey false).activeStreams other =
        mapGet p.activeStreams other) ∧
    (sendLogBufferResume h p streamKey false).logPatterns = p.logPatterns ∧
    ∀ q : LogProcessor, 0 ≤ w.config.cooldown → h.clock q.reads < h.clock p.reads + 60000 →
      (shouldSendBuffer h q { w with lastSent := h.clock p.reads + 60000 }).1 = false := by
  refine ⟨?_, fun other hne => ?_, ?_, fun q hc hnow => ?_⟩
  · simp [sendLogBufferResume, hw, dateNow, mapGet_mapSet_self]
  · simp [sendLogBufferResume, hw, dateNow, mapGet_mapSet_ne _ _ _ _ hne]
  · simp [sendLogBufferResume, hw, dateNow]
  · have hlt : h.clock q.reads - (h.clock p.reads + 60000) < w.config.cooldown * 1000 := by
      have : (0 : Int) ≤ w.config.cooldown * 1000 := by omega
      omega
    simp [shouldSendBuffer, dateNow, hlt]

/-- C12 amended, on the default stream (cooldown 60) with one entry buffered:
a flush that fails at time 1 000 000 keeps the entry, and a check made one
millisecond later is refused. -/
theorem failed_flush_backs_off_witness :
    mapGet (sendLogBufferResume tickingHost
      { activeStreams := [("s", ⟨{}, [⟨999000, "x", "", "", ""⟩], 0, true, some 0⟩)],
        pending := ["s"] } "s" false).activeStreams "s" =
      some ⟨{}, [⟨999000, "x", "", "", ""⟩], 1060000, true, some 0⟩ ∧
    (shouldSendBuffer tickingHost { reads := 1 }
      ⟨{}, [⟨999000, "x", "", "", ""⟩], 1060000, true, some 0⟩).1 = false := by
  have hw := failed_flush_backs_off tickingHost
    { activeStreams := [("s", ⟨{}, [⟨999000, "x", "", "", ""⟩], 0, true, some 0⟩)],
      pending := ["s"] } "s" ⟨{}, [⟨999000, "x", "", "", ""⟩], 0, true, some 0⟩ (by decide)
  exact ⟨hw.1, hw.2.2.2 { reads := 1 } (by decide) (by decide)⟩

section Words

theorem lastOr_nil (prev : Option Char) : lastOr prev [] = prev := rfl

theorem lastOr_cons (prev : Option Char) (c : Char) (s : List Char) :
    lastOr prev (c :: s) = lastOr (some c) s := by
  cases s with
  | nil => rfl
  | cons d t =>
    simp only [lastOr, List.getLast?_cons_cons]
    cases h : (d :: t).getLast? with
    | none => simp at h
    | some x => rfl

theorem lastOr_append (prev : Option Char) (s t : List Char) :
    lastOr prev (s ++ t) = lastOr (lastOr prev s) t := by
  induction s generalizing prev with
  | nil => rfl
  | cons c s ih => rw [List.cons_append, lastOr_cons, lastOr_cons, ih]

theorem lastOr_none (s : List Char) : lastOr none s = s.getLast? := by
  simp only [lastOr]
  cases s.getLast? <;> rfl

theorem isUpper_iff (c : Char) : c.isUpper = true ↔ 65 ≤ c.toNat ∧ c.toNat ≤ 90 := by
  simp only [Char.isUpper, Bool.and_eq_true, decide_eq_true_eq, ge_iff_le, UInt32.le_def,
    BitVec.le_def, Char.toNat, UInt32.toNat]
  rfl

theorem isLower_iff (c : Char) : c.isLower = true ↔ 97 ≤ c.toNat ∧ c.toNat ≤ 122 := by
  simp only [Char.isLower, Bool.and_eq_true, decide_eq_true_eq, ge_iff_le, UInt32.le_def,
    BitVec.le_def, Char.toNat, UInt32.toNat]
  rfl

theorem isDigit_iff (c : Char) : c.isDigit = true ↔ 48 ≤ c.toNat ∧ c.toNat ≤ 57 := by
  simp only [Char.isDigit, Bool.and_eq_true, decide_eq_true_eq, ge_iff_le, UInt32.le_def,
    BitVec.le_def, Char.toNat, UInt32.toNat]
  rfl

theorem toUpper_of_not_lower (c : Char) (hl : c.isLower = false) : c.toUpper = c := by
  have hn : ¬ (97 ≤ c.toNat ∧ c.toNat ≤ 122) := by
    intro hc
    have := (isLower_iff c).mpr hc
    rw [hl] at this; cases this
  simp only [Char.toUpper, ge_iff_le]
  rw [if_neg hn]

theorem isUpper_toUpper (p : Char) (hp : p.isUpper = true) : p.toUpper = p := by
  apply toUpper_of_not_lower
  have h1 := (isUpper_iff p).mp hp
  cases hl : p.isLower with
  | false => rfl
  | true => have := (isLower_iff p).mp hl; omega

theorem isWordChar_of_toUpper (c p : Char) (hp : p.isUpper = true) (hc : c.toUpper = p) :
    isWordChar c = true := by
  cases hl : c.isLower with
  | true => simp [isWordChar, Char.isAlphanum, Char.isAlpha, hl]
  | false =>
    rw [toUpper_of_not_lower c hl] at hc
    rw [hc]
    simp [isWordChar, Char.isAlphanum, Char.isAlpha, hp]

end Words
section WordMatch

theorem matchItems_lit_iff {α : Type} (ps : List Char) :
    ∀ (prev : Option Char) (s : List Char) (k : Option Char → List Char → Option α) (x : α),
      matchItems true (ps.map Item.chr) prev s k = some x ↔
        ∃ mid rest, s = mid ++ rest ∧ mid.map Char.toUpper = ps.map Char.toUpper ∧
          k (lastOr prev mid) rest = some x := by
  induction ps with
  | nil =>
    intro prev s k x
    simp only [List.map_nil, matchItems]
    constructor
    · intro hk; exact ⟨[], s, rfl, rfl, hk⟩
    · rintro ⟨mid, rest, hs, hm, hk⟩
      have : mid = [] := by simpa using hm
      subst this
      simpa [hs, lastOr_nil] using hk
  | cons p ps ih =>
    intro prev s k x
    cases s with
    | nil =>
      simp only [List.map_cons, matchItems]
      constructor
      · intro hk; cases hk
      · rintro ⟨mid, rest, hs, hm, _⟩
        cases mid with
        | nil => simp at hm
        | cons c mid => simp at hs
    | cons c cs =>
      simp only [List.map_cons, matchItems, charEq, if_true]
      by_cases hc : p.toUpper = c.toUpper
      · have hb : (p.toUpper == c.toUpper) = true := by simpa using hc
        rw [if_pos hb, ih]
        constructor
        · rintro ⟨mid, rest, hs, hm, hk⟩
          refine ⟨c :: mid, rest, by rw [hs]; rfl, by simp [hm, hc], ?_⟩
          rw [lastOr_cons]; exact hk
        · rintro ⟨mid, rest, hs, hm, hk⟩
          cases mid with
          | nil => simp at hm
          | cons d mid =>
            have hd : c = d := by
              have := congrArg List.head? hs; simpa using this
            subst hd
            refine ⟨mid, rest, by simpa using hs, by simpa using (List.cons.inj hm).2, ?_⟩
            rw [lastOr_cons] at hk; exact hk
      · have hb : (p.toUpper == c.toUpper) = false := by simpa using hc
        rw [if_neg (by simp [hb])]
        constructor
        · intro hk; cases hk
        · rintro ⟨mid, rest, hs, hm, _⟩
          cases mid with
          | nil => simp at hm
          | cons d mid =>
            have hd : c = d := by
              have := congrArg List.head? hs; simpa using this
            subst hd
            exact absurd (List.cons.inj hm).1.symm hc

theorem firstBranch_isSome {α : Type} (f : List Item → Option α) (bs : List (List Item)) :
    (firstBranch f bs).isSome = true ↔ ∃ b ∈ bs, (f b).isSome = true := by
  induction bs with
  | nil => simp [firstBranch]
  | cons b bs ih =>
    simp only [firstBranch]
    cases hb : f b with
    | some r => simp [hb]
    | none => simp [hb, ih]

theorem option_isSome_iff {α : Type} (o : Option α) : o.isSome = true ↔ ∃ x, o = some x := by
  cases o <;> simp

/-- A match of `\b(w1|w2|..)\b` at a position: a boundary before, one of the
words up to case, a boundary after. -/
theorem wordRx_matchAt (words : List String) (prev : Option Char) (s : List Char) :
    ((wordRx words).matchAt prev s).isSome = true ↔
      isBoundary prev s.head? = true ∧
      ∃ w ∈ words, ∃ mid rest, s = mid ++ rest ∧
        mid.map Char.toUpper = w.data.map Char.toUpper ∧
        isBoundary (lastOr prev mid) rest.head? = true := by
  simp only [Rx.matchAt, wordRx, matchNodes, matchItems]
  by_cases hb : isBoundary prev s.head? = true
  · simp only [hb, if_true, true_and, firstBranch_isSome, List.mem_map]
    constructor
    · rintro ⟨b, ⟨w, hw, rfl⟩, hsome⟩
      obtain ⟨x, hx⟩ := (option_isSome_iff _).mp hsome
      obtain ⟨mid, rest, hs, hm, hk⟩ := (matchItems_lit_iff w.data prev s _ x).mp hx
      refine ⟨w, hw, mid, rest, hs, hm, ?_⟩
      by_contra hnb
      simp [hnb] at hk
    · rintro ⟨w, hw, mid, rest, hs, hm, hb2⟩
      refine ⟨lit w, ⟨w, hw, rfl⟩, ?_⟩
      apply (option_isSome_iff _).mpr
      exact ⟨s.length - rest.length,
        (matchItems_lit_iff w.data prev s _ _).mpr ⟨mid, rest, hs, hm, by simp [hb2]⟩⟩
  · simp [hb]

theorem testFrom_iff (re : Rx) (s : List Char) :
    ∀ prev : Option Char, re.testFrom prev s = true ↔
      ∃ pre rest, s = pre ++ rest ∧ (re.matchAt (lastOr prev pre) rest).isSome = true := by
  induction s with
  | nil =>
    intro prev
    simp only [Rx.testFrom]
    constructor
    · intro hm; exact ⟨[], [], rfl, hm⟩
    · rintro ⟨pre, rest, hs, hm⟩
      have hp : pre = [] := by
        cases pre with
        | nil => rfl
        | cons a b => simp at hs
      have hr : rest = [] := by
        cases rest with
        | nil => rfl
        | cons a b => simp [hp] at hs
      subst hp; subst hr; exact hm
  | cons c cs ih =>
    intro prev
    simp only [Rx.testFrom, Bool.or_eq_true, ih]
    constructor
    · rintro (hm | ⟨pre, rest, hs, hm⟩)
      · exact ⟨[], c :: cs, rfl, hm⟩
      · exact ⟨c :: pre, rest, by rw [hs]; rfl, by rw [lastOr_cons]; exact hm⟩
    · rintro ⟨pre, rest, hs, hm⟩
      cases pre with
      | nil => left; simp at hs; rw [hs]; exact hm
      | cons d pre =>
        right
        have hd : c = d := by
          have := congrArg List.head? hs; simpa using this
        subst hd
        exact ⟨pre, rest, by simpa using hs, by rw [lastOr_cons] at hm; exact hm⟩

/-- The characters of a case variant of a word of capital letters are word
characters, and the variant is not empty when the word is not. -/
theorem variant_word_chars (w mid : List Char) (hne : w ≠ [])
    (hup : ∀ p ∈ w, p.isUpper = true) (hm : mid.map Char.toUpper = w.map Char.toUpper) :
    mid ≠ [] ∧ ∀ c ∈ mid, isWordChar c = true := by
  constructor
  · intro he
    rw [he] at hm
    exact hne (by simpa using hm.symm)
  · intro c hc
    have : c.toUpper ∈ w.map Char.toUpper := by
      rw [← hm]; exact List.mem_map_of_mem _ hc
    obtain ⟨p, hp, hpc⟩ := List.mem_map.mp this
    rw [isUpper_toUpper p (hup p hp)] at hpc
    exact isWordChar_of_toUpper c p (hup p hp) hpc.symm

theorem isBoundary_word_right (x : Option Char) (c : Char) (hc : isWordChar c = true) :
    isBoundary x (some c) = true ↔ isWordAt x = false := by
  simp only [isBoundary, isWordAt, hc]
  cases isWordAt x <;> simp

theorem isBoundary_word_left (x : Option Char) (c : Char) (hc : isWordChar c = true) :
    isBoundary (some c) x = true ↔ isWordAt x = false := by
  simp only [isBoundary, isWordAt, hc]
  cases isWordAt x <;> simp

theorem lastOr_mem (prev : Option Char) (mid : List Char) (hne : mid ≠ []) :
    ∃ d ∈ mid, lastOr prev mid = some d := by
  refine ⟨mid.getLast hne, List.getLast_mem hne, ?_⟩
  simp [lastOr, List.getLast?_eq_getLast _ hne]

/-- The test of `\b(w1|w2|..)\b` with the `i` flag agrees with the
specification's "contains one of the words as a whole word", for words
written in capital letters. -/
theorem wordRx_test_iff (words : List String) (line : String)
    (hwords : ∀ w ∈ words, w.data ≠ [] ∧ ∀ p ∈ w.data, p.isUpper = true) :
    (wordRx words).test line = true ↔ MentionsAny words line := by
  simp only [Rx.test, testFrom_iff, wordRx_matchAt, MentionsAny, ContainsWholeWord]
  constructor
  · rintro ⟨pre, rest, hs, hb1, w, hw, mid, post, hr, hm, hb2⟩
    obtain ⟨hne, hall⟩ := variant_word_chars w.data mid (hwords w hw).1 (hwords w hw).2 hm
    refine ⟨w, hw, pre, mid, post, by rw [hs, hr, List.append_assoc], hm, ?_, ?_⟩
    · obtain ⟨c, cs, hcs⟩ := List.exists_cons_of_ne_nil hne
      have hc : isWordChar c = true := hall c (by rw [hcs]; exact List.mem_cons_self _ _)
      rw [hr, hcs] at hb1
      simp only [List.cons_append, List.head?_cons] at hb1
      rw [isBoundary_word_right _ c hc, lastOr_none] at hb1
      exact hb1
    · obtain ⟨d, hd, hl⟩ := lastOr_mem (lastOr none pre) mid hne
      rw [hl, isBoundary_word_left _ d (hall d hd)] at hb2
      exact hb2
  · rintro ⟨w, hw, pre, mid, post, hs, hm, hb1, hb2⟩
    obtain ⟨hne, hall⟩ := variant_word_chars w.data mid (hwords w hw).1 (hwords w hw).2 hm
    refine ⟨pre, mid ++ post, by rw [hs, List.append_assoc], ?_, w, hw, mid, post, rfl, hm, ?_⟩
    · obtain ⟨c, cs, hcs⟩ := List.exists_cons_of_ne_nil hne
      have hc : isWordChar c = true := hall c (by rw [hcs]; exact List.mem_cons_self _ _)
      rw [hcs]
      simp only [List.cons_append, List.head?_cons]
      rw [isBoundary_word_right _ c hc, lastOr_none]
      exact hb1
    · obtain ⟨d, hd, hl⟩ := lastOr_mem (lastOr none pre) mid hne
      rw [hl, isBoundary_word_left _ d (hall d hd)]
      exact hb2

end WordMatch

/-- C19. `extractLogLevel` classifies a line by priority, in the words of the
specification: `error` when the line contains ERROR, FATAL or CRITICAL as a
whole word, whatever the case of the letters; otherwise `warn` for WARN or
WARNING; otherwise `info` for INFO or INFORMATION; otherwise `debug` for DEBUG
or TRACE; otherwise `info`. The result is always one of the four levels. -/
theorem extractLogLevel_priority (line : String) :
    (MentionsAny ["ERROR", "FATAL", "CRITICAL"] line → extractLogLevel line = "error") ∧
    (¬ MentionsAny ["ERROR", "FATAL", "CRITICAL"] line → MentionsAny ["WARN", "WARNING"] line →
      extractLogLevel line = "warn") ∧
    (¬ MentionsAny ["ERROR", "FATAL", "CRITICAL"] line → ¬ MentionsAny ["WARN", "WARNING"] line →
      MentionsAny ["INFO", "INFORMATION"] line → extractLogLevel line = "info") ∧
    (¬ MentionsAny ["ERROR", "FATAL", "CRITICAL"] line → ¬ MentionsAny ["WARN", "WARNING"] line →
      ¬ MentionsAny ["INFO", "INFORMATION"] line → MentionsAny ["DEBUG", "TRACE"] line →
      extractLogLevel line = "debug") ∧
    (¬ MentionsAny ["ERROR", "FATAL", "CRITICAL"] line → ¬ MentionsAny ["WARN", "WARNING"] line →
      ¬ MentionsAny ["INFO", "INFORMATION"] line → ¬ MentionsAny ["DEBUG", "TRACE"] line →
      extractLogLevel line = "info") ∧
    extractLogLevel line ∈ ["debug", "info", "warn", "error"] := by
  have he := wordRx_test_iff ["ERROR", "FATAL", "CRITICAL"] line (by decide)
  have hw := wordRx_test_iff ["WARN", "WARNING"] line (by decide)
  have hi := wordRx_test_iff ["INFO", "INFORMATION"] line (by decide)
  have hd := wordRx_test_iff ["DEBUG", "TRACE"] line (by decide)
  have hdef : extractLogLevel line =
      if (wordRx ["ERROR", "FATAL", "CRITICAL"]).test line then "error"
      else if (wordRx ["WARN", "WARNING"]).test line then "warn"
      else if (wordRx ["INFO", "INFORMATION"]).test line then "info"
      else if (wordRx ["DEBUG", "TRACE"]).test line then "debug"
      else "info" := rfl
  rw [hdef]
  refine ⟨fun h1 => ?_, fun h1 h2 => ?_, fun h1 h2 h3 => ?_, fun h1 h2 h3 h4 => ?_,
    fun h1 h2 h3 h4 => ?_, ?_⟩
  · rw [if_pos (he.mpr h1)]
  · rw [if_neg (fun hc => h1 (he.mp hc)), if_pos (hw.mpr h2)]
  · rw [if_neg (fun hc => h1 (he.mp hc)), if_neg (fun hc => h2 (hw.mp hc)), if_pos (hi.mpr h3)]
  · rw [if_neg (fun hc => h1 (he.mp hc)), if_neg (fun hc => h2 (hw.mp hc)),
      if_neg (fun hc => h3 (hi.mp hc)), if_pos (hd.mpr h4)]
  · rw [if_neg (fun hc => h1 (he.mp hc)), if_neg (fun hc => h2 (hw.mp hc)),
      if_neg (fun hc => h3 (hi.mp hc)), if_neg (fun hc => h4 (hd.mp hc))]
  · split_ifs <;> decide

/-- C19 on concrete lines: one keyword of each level, no keyword, and keywords
of several levels. The word `information` belongs to the `info` row, which
comes before the `debug` row, so a line with `DEBUG` and `information` is
`info`. -/
theorem extractLogLevel_priority_witness :
    extractLogLevel "ERROR: Something went wrong" = "error" ∧
    extractLogLevel "WARN: This is a warning" = "warn" ∧
    extractLogLevel "INFO: This is info" = "info" ∧
    extractLogLevel "DEBUG: cache miss" = "debug" ∧
    extractLogLevel "Some random log line" = "info" ∧
    extractLogLevel "debug: warning before a fatal error" = "error" ∧
    extractLogLevel "DEBUG: Debug information" = "info" ∧
    extractLogLevel "errors and warnings" = "info" :=
  ⟨(extractLogLevel_priority "ERROR: Something went wrong").1
      ⟨"ERROR", by decide, [], "ERROR".data, ": Something went wrong".data, by decide, by decide,
        by decide, by decide⟩,
    by decide, by decide, by decide, by decide, by decide, by decide, by decide⟩

section Replace

theorem replaceFrom_nil_none (re : Rx) (repl : List Char) (prev : Option Char)
    (h : re.matchAt prev [] = none) (skip : Nat) : re.replaceFrom repl skip prev [] = [] := by
  cases skip <;> simp [Rx.replaceFrom, h]

theorem replaceFrom_step_none (re : Rx) (repl : List Char) (prev : Option Char) (c : Char)
    (cs : List Char) (h : re.matchAt prev (c :: cs) = none) :
    re.replaceFrom repl 0 prev (c :: cs) = c :: re.replaceFrom repl 0 (some c) cs := by
  simp [Rx.replaceFrom, h]

theorem replaceFrom_skip (re : Rx) (repl : List Char) (m : List Char) :
    ∀ (prev : Option Char) (rest : List Char),
      re.replaceFrom repl m.length prev (m ++ rest) =
        re.replaceFrom repl 0 (lastOr prev m) rest := by
  induction m with
  | nil => intro prev rest; rfl
  | cons c m ih =>
    intro prev rest
    simp only [List.length_cons, List.cons_append, Rx.replaceFrom]
    rw [lastOr_cons]
    exact ih (some c) rest

/-- A match of the whole of `m` at the current position is replaced, and the
scan goes on after it. -/
theorem replaceFrom_match (re : Rx) (repl : List Char) (prev : Option Char) (m rest : List Char)
    (hm : m ≠ []) (h : re.matchAt prev (m ++ rest) = some m.length) :
    re.replaceFrom repl 0 prev (m ++ rest) = repl ++ re.replaceFrom repl 0 (lastOr prev m) rest := by
  cases m with
  | nil => exact absurd rfl hm
  | cons c m =>
    simp only [List.cons_append, List.length_cons] at h ⊢
    simp only [Rx.replaceFrom, h]
    rw [replaceFrom_skip, lastOr_cons]

/-- A string without the character that every match needs is left as it is. -/
theorem replaceFrom_absent (re : Rx) (repl : List Char) (x : Char)
    (hneed : ∀ prev s, x ∉ s → re.matchAt prev s = none) :
    ∀ (s : List Char) (prev : Option Char), x ∉ s → re.replaceFrom repl 0 prev s = s := by
  intro s
  induction s with
  | nil => intro prev _; exact replaceFrom_nil_none re repl prev (hneed prev [] (by simp)) 0
  | cons c cs ih =>
    intro prev hx
    rw [replaceFrom_step_none re repl prev c cs (hneed prev _ hx), ih]
    intro hc; exact hx (List.mem_cons_of_mem _ hc)

/-- A stretch without digits is copied when every match starts with a digit. -/
theorem replaceFrom_nondigits (re : Rx) (repl : List Char)
    (hneed : ∀ prev s, (∀ c, s.head? = some c → c.isDigit = false) → re.matchAt prev s = none) :
    ∀ (q : List Char), (∀ c ∈ q, c.isDigit = false) → ∀ (prev : Option Char) (r : List Char),
      re.replaceFrom repl 0 prev (q ++ r) = q ++ re.replaceFrom repl 0 (lastOr prev q) r := by
  intro q
  induction q with
  | nil => intro _ prev r; rfl
  | cons c q ih =>
    intro hq prev r
    have hc : c.isDigit = false := hq c (List.mem_cons_self _ _)
    rw [List.cons_append, replaceFrom_step_none re repl prev c (q ++ r)
      (hneed prev _ (by intro d hd; simp at hd; rw [← hd]; exact hc)),
      ih (fun d hd => hq d (List.mem_cons_of_mem _ hd)), lastOr_cons]
    rfl

/-- The first character after the digits at the head of `q ++ r` is a
character of `q` when `q` does not end in a digit. -/
theorem dropWhile_digit_head (x : Char) :
    ∀ (q : List Char), q ≠ [] → x ∉ q → (∀ c, q.getLast? = some c → c.isDigit = false) →
      ∀ r : List Char, ((q ++ r).dropWhile Char.isDigit).head? ≠ some x := by
  intro q
  induction q with
  | nil => intro h; exact absurd rfl h
  | cons c q ih =>
    intro _ hx hlast r
    by_cases hc : c.isDigit = true
    · have hq : q ≠ [] := by
        intro he
        rw [he] at hlast
        have := hlast c rfl
        rw [hc] at this; cases this
      rw [List.cons_append, List.dropWhile_cons_of_pos hc]
      apply ih hq (fun h => hx (List.mem_cons_of_mem _ h))
      intro d hd
      apply hlast d
      obtain ⟨e, t, rfl⟩ := List.exists_cons_of_ne_nil hq
      rw [List.getLast?_cons_cons]; exact hd
    · rw [List.cons_append, List.dropWhile_cons_of_neg hc]
      simp only [List.head?_cons, ne_eq, Option.some.injEq]
      intro he
      exact hx (by rw [he]; exact List.mem_cons_self _ _)

/-- A stretch without the character `x` that does not end in a digit is copied
when every match is a run of digits followed by `x`. -/
theorem replaceFrom_blocked (re : Rx) (repl : List Char) (x : Char)
    (hneed : ∀ prev s, (s.dropWhile Char.isDigit).head? ≠ some x → re.matchAt prev s = none) :
    ∀ (q : List Char), x ∉ q → (∀ c, q.getLast? = some c → c.isDigit = false) →
      ∀ (prev : Option Char) (r : List Char),
        re.replaceFrom repl 0 prev (q ++ r) = q ++ re.replaceFrom repl 0 (lastOr prev q) r := by
  intro q
  induction q with
  | nil => intro _ _ prev r; rfl
  | cons c q ih =>
    intro hx hlast prev r
    have h0 := dropWhile_digit_head x (c :: q) (by simp) hx hlast r
    rw [List.cons_append] at h0 ⊢
    rw [replaceFrom_step_none re repl prev c (q ++ r) (hneed prev _ h0), lastOr_cons]
    by_cases hq : q = []
    · subst hq; rfl
    · have hl : ∀ d, q.getLast? = some d → d.isDigit = false := by
        intro d hd
        apply hlast d
        obtain ⟨e, t, rfl⟩ := List.exists_cons_of_ne_nil hq
        rw [List.getLast?_cons_cons]; exact hd
      rw [ih (fun h => hx (List.mem_cons_of_mem _ h)) hl]
      rfl

end Replace

section Quantifier

theorem tryCounts_lt {α : Type} (lo : Nat) (prev : Option Char) (s : List Char)
    (k : Option Char → List Char → Option α) (n : Nat) (h : n < lo) :
    tryCounts lo prev s k n = none := by
  cases n with
  | zero => simp only [tryCounts]; rw [if_neg (by omega)]
  | succ n => simp only [tryCounts]; rw [if_pos h]

theorem tryCounts_some {α : Type} (lo : Nat) (prev : Option Char) (s : List Char)
    (k : Option Char → List Char → Option α) (r : α) :
    ∀ n, tryCounts lo prev s k n = some r →
      ∃ m, lo ≤ m ∧ m ≤ n ∧ k (prevAfter prev s m) (s.drop m) = some r := by
  intro n
  induction n with
  | zero =>
    intro h
    simp only [tryCounts] at h
    by_cases hl : lo = 0
    · rw [if_pos hl] at h
      exact ⟨0, by omega, le_refl _, h⟩
    · rw [if_neg hl] at h; cases h
  | succ n ih =>
    intro h
    simp only [tryCounts] at h
    by_cases hl : n + 1 < lo
    · rw [if_pos hl] at h; cases h
    · rw [if_neg hl] at h
      cases hk : k (prevAfter prev s (n + 1)) (s.drop (n + 1)) with
      | some r' =>
        rw [hk] at h
        exact ⟨n + 1, by omega, le_refl _, by rw [hk]; exact h⟩
      | none =>
        rw [hk] at h
        obtain ⟨m, h1, h2, h3⟩ := ih h
        exact ⟨m, h1, by omega, h3⟩

theorem tryCounts_first {α : Type} (lo : Nat) (prev : Option Char) (s : List Char)
    (k : Option Char → List Char → Option α) (r : α) (n : Nat) (hn : lo ≤ n)
    (h : k (prevAfter prev s n) (s.drop n) = some r) : tryCounts lo prev s k n = some r := by
  cases n with
  | zero =>
    simp only [tryCounts]
    rw [if_pos (by omega)]
    exact h
  | succ n =>
    simp only [tryCounts]
    rw [if_neg (by omega), h]

theorem tryCounts_exact {α : Type} (n : Nat) (prev : Option Char) (s : List Char)
    (k : Option Char → List Char → Option α) (hn : 1 ≤ n) :
    tryCounts n prev s k n = k (prevAfter prev s n) (s.drop n) := by
  cases n with
  | zero => omega
  | succ n =>
    simp only [tryCounts]
    rw [if_neg (by omega)]
    cases hk : k (prevAfter prev s (n + 1)) (s.drop (n + 1)) with
    | some r => rfl
    | none => exact tryCounts_lt _ _ _ _ _ (by omega)

theorem prevAfter_append (prev : Option Char) (m rest : List Char) :
    prevAfter prev (m ++ rest) m.length = lastOr prev m := by
  cases hm : m.length with
  | zero =>
    have : m = [] := List.length_eq_zero.mp hm
    subst this; rfl
  | succ n =>
    simp only [prevAfter, lastOr]
    have h1 : (m ++ rest).get? n = m.get? n := by
      simp only [List.get?_eq_getElem?]
      exact List.getElem?_append_left (by omega)
    have h2 : m.getLast? = m.get? n := by
      rw [List.getLast?_eq_getElem?, List.get?_eq_getElem?, hm]; rfl
    rw [h1, h2]

theorem digit_test (c : Char) : digit.test false c = c.isDigit := by
  have h := isDigit_iff c
  cases hd : c.isDigit with
  | true =>
    have := h.mp hd
    simp [CharClass.test, CharClass.inRanges, digit, this.1, this.2]
  | false =>
    have hn : ¬ (48 ≤ c.toNat ∧ c.toNat ≤ 57) := fun hc => by
      have := h.mpr hc; rw [hd] at this; cases this
    simp only [CharClass.test, CharClass.inRanges, digit, List.any_cons, List.any_nil,
      Bool.or_false, Bool.false_eq_true, if_false]
    have e0 : '0'.toNat = 48 := rfl
    have e9 : '9'.toNat = 57 := rfl
    rw [e0, e9]
    apply Bool.eq_false_iff.mpr
    intro hcon
    simp only [Bool.and_eq_true, decide_eq_true_eq] at hcon
    exact hn hcon

/-- The characters counted by `classRun` belong to the class. -/
theorem classRun_take (ic : Bool) (k : CharClass) :
    ∀ (s : List Char) (hi : Option Nat) (m : Nat), m ≤ classRun ic k hi s →
      ∀ c ∈ s.take m, k.test ic c = true := by
  intro s
  induction s with
  | nil => intro hi m _ c hc; simp at hc
  | cons d ds ih =>
    intro hi m hm c hc
    cases m with
    | zero => simp at hc
    | succ m =>
      by_cases h0 : hi = some 0
      · subst h0; simp [classRun] at hm
      · rw [classRun] at hm
        · by_cases ht : k.test ic d = true
          · rw [if_pos ht] at hm
            rw [List.take_succ_cons, List.mem_cons] at hc
            rcases hc with rfl | hc
            · exact ht
            · exact ih (hi.map (· - 1)) m (by omega) c hc
          · rw [if_neg ht] at hm; omega
        · exact h0

theorem classRun_le (ic : Bool) (k : CharClass) :
    ∀ (s : List Char) (h : Nat), classRun ic k (some h) s ≤ h := by
  intro s
  induction s with
  | nil => intro h; cases h <;> simp [classRun]
  | cons d ds ih =>
    intro h
    cases h with
    | zero => simp [classRun]
    | succ h =>
      rw [classRun]
      · split
        · have := ih h
          simpa using this
        · omega
      · simp

/-- The run of a class over `ds ++ r`, all of `ds` in the class and `r` not
starting with a character of the class. -/
theorem classRun_append (ic : Bool) (k : CharClass) :
    ∀ (ds : List Char) (hi : Option Nat) (r : List Char), (∀ c ∈ ds, k.test ic c = true) →
      (∀ c, r.head? = some c → k.test ic c = false) → (∀ h, hi = some h → ds.length ≤ h) →
      classRun ic k hi (ds ++ r) = ds.length := by
  intro ds
  induction ds with
  | nil =>
    intro hi r _ hr _
    by_cases h0 : hi = some 0
    · subst h0; simp [classRun]
    · cases r with
      | nil =>
        cases hi with
        | none => simp [classRun]
        | some h => cases h <;> simp [classRun]
      | cons c cs =>
        rw [List.nil_append, classRun]
        · rw [if_neg (by rw [hr c rfl]; simp)]; rfl
        · exact h0
  | cons d ds ih =>
    intro hi r hds hr hcap
    have h0 : hi ≠ some 0 := by
      intro h; have := hcap 0 h; simp at this
    rw [List.cons_append, classRun]
    · rw [if_pos (hds d (List.mem_cons_self _ _)),
        ih _ r (fun c hc => hds c (List.mem_cons_of_mem _ hc)) hr]
      · rfl
      · intro h hh
        cases hi with
        | none => simp at hh
        | some h' =>
          simp only [Option.map_some', Option.some.injEq] at hh
          have := hcap h' rfl
          simp only [List.length_cons] at this
          omega
    · exact h0

/-- The run of a class quantified `{n}` over `n` characters of the class. -/
theorem classRun_exact (ic : Bool) (k : CharClass) :
    ∀ (ds : List Char) (r : List Char), (∀ c ∈ ds, k.test ic c = true) →
      classRun ic k (some ds.length) (ds ++ r) = ds.length := by
  intro ds
  induction ds with
  | nil => intro r _; simp [classRun]
  | cons d ds ih =>
    intro r hds
    rw [List.cons_append, classRun]
    · rw [if_pos (hds d (List.mem_cons_self _ _))]
      simp only [List.length_cons, Option.map_some', Nat.add_sub_cancel]
      rw [ih r (fun c hc => hds c (List.mem_cons_of_mem _ hc))]
    · simp

end Quantifier
section Shapes

theorem isWordChar_of_digit (c : Char) (h : c.isDigit = true) : isWordChar c = true := by
  simp [isWordChar, Char.isAlphanum, h]

theorem isDigit_of_not_word (c : Char) (h : isWordChar c = false) : c.isDigit = false := by
  cases hd : c.isDigit with
  | false => rfl
  | true => rw [isWordChar_of_digit c hd] at h; cases h

theorem dropWhile_digits_append (ds t : List Char) (hds : AllDigits ds) :
    (ds ++ t).dropWhile Char.isDigit = t.dropWhile Char.isDigit := by
  induction ds with
  | nil => rfl
  | cons d ds ih =>
    rw [List.cons_append, List.dropWhile_cons_of_pos (hds d (List.mem_cons_self _ _))]
    exact ih (fun c hc => hds c (List.mem_cons_of_mem _ hc))

theorem allDigits_test (ds : List Char) (hds : AllDigits ds) :
    ∀ c ∈ ds, digit.test false c = true := by
  intro c hc; rw [digit_test]; exact hds c hc

theorem lastOr_digit (prev : Option Char) (ds : List Char) (hne : 1 ≤ ds.length)
    (hds : AllDigits ds) : isWordAt (lastOr prev ds) = true := by
  have hn : ds ≠ [] := by intro h; rw [h] at hne; simp at hne
  obtain ⟨d, hd, hl⟩ := lastOr_mem prev ds hn
  rw [hl]; exact isWordChar_of_digit d (hds d hd)

theorem head_digit (ds r : List Char) (hne : 1 ≤ ds.length) (hds : AllDigits ds) :
    isWordAt (ds ++ r).head? = true := by
  cases ds with
  | nil => simp at hne
  | cons d ds => exact isWordChar_of_digit d (hds d (List.mem_cons_self _ _))

theorem matchNodes_wordB {α : Type} (ic : Bool) (rest : List Node) (prev : Option Char)
    (s : List Char) (k : Option Char → List Char → Option α) :
    matchNodes ic (.item .wordB :: rest) prev s k =
      if isBoundary prev s.head? then matchNodes ic rest prev s k else none := by
  simp only [matchNodes, matchItems]

theorem matchNodes_cls {α : Type} (ic : Bool) (cl : CharClass) (lo : Nat) (hi : Option Nat)
    (rest : List Node) (prev : Option Char) (s : List Char)
    (k : Option Char → List Char → Option α) :
    matchNodes ic (.item (.cls cl lo hi) :: rest) prev s k =
      tryCounts lo prev s (fun p r => matchNodes ic rest p r k) (classRun ic cl hi s) := by
  simp only [matchNodes, matchItems]

theorem matchNodes_opt {α : Type} (ic : Bool) (body : List Item) (rest : List Node)
    (prev : Option Char) (s : List Char) (k : Option Char → List Char → Option α) :
    matchNodes ic (.opt body :: rest) prev s k =
      match matchItems ic body prev s (fun p r => matchNodes ic rest p r k) with
      | some r => some r
      | none => matchNodes ic rest prev s k := by
  cases h : matchItems ic body prev s (fun p r => matchNodes ic rest p r k) with
  | some r => simp only [matchNodes, h]
  | none => simp only [matchNodes, h]

theorem matchNodes_chr {α : Type} (rest : List Node) (prev : Option Char) (c : Char)
    (r : List Char) (k : Option Char → List Char → Option α) :
    matchNodes false (ch c :: rest) prev (c :: r) k = matchNodes false rest (some c) r k := by
  simp [ch, matchNodes, matchItems, charEq]

theorem matchNodes_chr_head {α : Type} (ic : Bool) (x : Char) (rest : List Node)
    (prev : Option Char) (s : List Char) (k : Option Char → List Char → Option α) (r : α)
    (h : matchNodes ic (ch x :: rest) prev s k = some r) :
    ∃ c t, s = c :: t ∧ charEq ic x c = true := by
  cases s with
  | nil => simp [ch, matchNodes, matchItems] at h
  | cons c t =>
    refine ⟨c, t, rfl, ?_⟩
    simp only [ch, matchNodes, matchItems] at h
    by_contra hc
    rw [if_neg hc] at h; cases h

/-- A class of digits quantified `{n}` consumes the `n` digits in front. -/
theorem matchNodes_digits {α : Type} (n : Nat) (rest : List Node) (prev : Option Char)
    (ds r : List Char) (k : Option Char → List Char → Option α) (hn : 1 ≤ n)
    (hds : DigitField n ds) :
    matchNodes false (exactly digit n :: rest) prev (ds ++ r) k =
      matchNodes false rest (lastOr prev ds) r k := by
  obtain ⟨hlen, hall⟩ := hds
  subst hlen
  rw [exactly, matchNodes_cls, classRun_exact false digit ds r (allDigits_test ds hall),
    tryCounts_exact _ _ _ _ hn, prevAfter_append, List.drop_left]

/-- A class of digits with a range consumes the digits in front when the rest
of the expression matches after them. -/
theorem matchNodes_run {α : Type} (lo : Nat) (hi : Option Nat) (rest : List Node)
    (prev : Option Char) (ds r : List Char) (k : Option Char → List Char → Option α) (x : α)
    (hlo : lo ≤ ds.length) (hcap : ∀ h, hi = some h → ds.length ≤ h) (hds : AllDigits ds)
    (hr : ∀ c, r.head? = some c → c.isDigit = false)
    (h : matchNodes false rest (lastOr prev ds) r k = some x) :
    matchNodes false (.item (.cls digit lo hi) :: rest) prev (ds ++ r) k = some x := by
  rw [matchNodes_cls, classRun_append false digit ds hi r (allDigits_test ds hds)
    (fun c hc => by rw [digit_test]; exact hr c hc) hcap]
  apply tryCounts_first _ _ _ _ _ _ hlo
  rw [prevAfter_append, List.drop_left]
  exact h

/-- A run of digits followed by `x`: the shape of the start of every match of
an expression that begins with a class of digits and then the literal `x`. -/
theorem digits_then {α : Type} (lo : Nat) (hi : Option Nat) (prev : Option Char) (s : List Char)
    (k : Option Char → List Char → Option α) (x : Char) (r : α) (hx : x.isDigit = false)
    (hk : ∀ p t v, k p t = some v → t.head? = some x)
    (h : tryCounts lo prev s k (classRun false digit hi s) = some r) :
    (s.dropWhile Char.isDigit).head? = some x := by
  obtain ⟨m, _, hm, hkm⟩ := tryCounts_some _ _ _ _ _ _ h
  have htake : AllDigits (s.take m) := by
    intro c hc
    rw [← digit_test]
    exact classRun_take false digit s hi m hm c hc
  have hhead := hk _ _ _ hkm
  have hs : s = s.take m ++ s.drop m := (List.take_append_drop m s).symm
  rw [hs, dropWhile_digits_append _ _ htake]
  cases hd : s.drop m with
  | nil => rw [hd] at hhead; cases hhead
  | cons c t =>
    rw [hd] at hhead
    simp only [List.head?_cons, Option.some.injEq] at hhead
    subst hhead
    rw [List.dropWhile_cons_of_neg (by rw [hx]; simp)]
    rfl

theorem no_digit_none {α : Type} (lo : Nat) (hi : Option Nat) (prev : Option Char)
    (s : List Char) (k : Option Char → List Char → Option α) (hlo : 1 ≤ lo)
    (hs : ∀ c, s.head? = some c → c.isDigit = false) :
    tryCounts lo prev s k (classRun false digit hi s) = none := by
  have h0 : classRun false digit hi s = 0 := by
    have := classRun_append false digit [] hi s (by simp)
      (fun c hc => by rw [digit_test]; exact hs c hc)
    by_cases hh : hi = some 0
    · subst hh; simp [classRun]
    · cases s with
      | nil => cases hi with
        | none => simp [classRun]
        | some h => cases h <;> simp [classRun]
      | cons c cs =>
        rw [classRun]
        · rw [if_neg (by rw [digit_test, hs c rfl]; simp)]
        · exact hh
  rw [h0]
  exact tryCounts_lt _ _ _ _ _ (by omega)

theorem chr_head {α : Type} (ic : Bool) (x : Char) (rest : List Node)
    (k : Option Char → List Char → Option α) (hx : ∀ c, charEq ic x c = true → c = x) :
    ∀ p t v, matchNodes ic (ch x :: rest) p t k = some v → t.head? = some x := by
  intro p t v h
  obtain ⟨c, t', rfl, hc⟩ := matchNodes_chr_head ic x rest p _ k v h
  rw [hx c hc]; rfl

theorem charEq_false_eq (x c : Char) (h : charEq false x c = true) : c = x := by
  simp only [charEq, Bool.false_eq_true, if_false, beq_iff_eq] at h
  exact h.symm

/-- Every match of the timestamp expression starts with digits followed by `-`. -/
theorem rxTimestamp_needs (prev : Option Char) (s : List Char)
    (h : (s.dropWhile Char.isDigit).head? ≠ some '-') : rxTimestamp.matchAt prev s = none := by
  cases hm : rxTimestamp.matchAt prev s with
  | none => rfl
  | some r =>
    exfalso
    apply h
    simp only [Rx.matchAt, rxTimestamp, exactly] at hm
    rw [matchNodes_cls] at hm
    exact digits_then _ _ _ _ _ '-' r (by decide) (chr_head _ _ _ _ (charEq_false_eq _)) hm

/-- Every match of the address expression starts with digits followed by `.`. -/
theorem rxIp_needs (prev : Option Char) (s : List Char)
    (h : (s.dropWhile Char.isDigit).head? ≠ some '.') : rxIp.matchAt prev s = none := by
  cases hm : rxIp.matchAt prev s with
  | none => rfl
  | some r =>
    exfalso
    apply h
    simp only [Rx.matchAt, rxIp] at hm
    rw [matchNodes_wordB] at hm
    by_cases hb : isBoundary prev s.head? = true
    · rw [if_pos hb, matchNodes_cls] at hm
      exact digits_then _ _ _ _ _ '.' r (by decide) (chr_head _ _ _ _ (charEq_false_eq _)) hm
    · rw [if_neg hb] at hm; cases hm

/-- Every match of the identifier expression starts with a digit. -/
theorem rxId_needs (prev : Option Char) (s : List Char)
    (h : ∀ c, s.head? = some c → c.isDigit = false) : rxId.matchAt prev s = none := by
  simp only [Rx.matchAt, rxId]
  rw [matchNodes_wordB]
  split
  · rw [matchNodes_cls]
    exact no_digit_none _ _ _ _ _ (by decide) h
  · rfl

theorem toUpper_eq_dash (c : Char) (h : c.toUpper = '-') : c = '-' := by
  cases hl : c.isLower with
  | false => rw [toUpper_of_not_lower c hl] at h; exact h
  | true =>
    exfalso
    have hr := (isLower_iff c).mp hl
    simp only [Char.toUpper, ge_iff_le] at h
    rw [if_pos hr] at h
    obtain ⟨h1, h2⟩ := hr
    generalize c.toNat = n at h h1 h2
    interval_cases n <;> exact absurd h (by decide)

/-- Every match of the UUID expression contains a `-`. -/
theorem rxUuid_needs (prev : Option Char) (s : List Char) (h : '-' ∉ s) :
    rxUuid.matchAt prev s = none := by
  cases hm : rxUuid.matchAt prev s with
  | none => rfl
  | some r =>
    exfalso
    apply h
    simp only [Rx.matchAt, rxUuid, exactly] at hm
    rw [matchNodes_wordB] at hm
    by_cases hb : isBoundary prev s.head? = true
    · rw [if_pos hb, matchNodes_cls] at hm
      obtain ⟨m, _, _, hk⟩ := tryCounts_some _ _ _ _ _ _ hm
      obtain ⟨c, t, hs, hc⟩ := matchNodes_chr_head _ _ _ _ _ _ _ hk
      have hc' : c = '-' := by
        apply toUpper_eq_dash
        simp only [charEq, if_true, beq_iff_eq] at hc
        exact hc.symm.trans (by decide)
      subst hc'
      have : '-' ∈ s.drop m := by rw [hs]; exact List.mem_cons_self _ _
      exact List.mem_of_mem_drop this
    · rw [if_neg hb] at hm; cases hm

theorem zone_tail (zone : List Char) (hz : zone = [] ∨ zone = ['Z']) (p : Option Char) (n : Nat) :
    matchNodes false [.item (.cls { ranges := [('Z', 'Z')] } 0 (some 1))] p zone
      (fun _ r => some (n - r.length)) = some n := by
  rcases hz with rfl | rfl
  · simp [matchNodes, matchItems, classRun, tryCounts]
  · simp [matchNodes, matchItems, classRun, tryCounts, CharClass.test, CharClass.inRanges,
      prevAfter]

/-- The timestamp expression matches the whole of a timestamp that ends the
input. -/
theorem rxTimestamp_match (prev : Option Char) (ts : List Char) (hts : IsoTimestamp ts) :
    rxTimestamp.matchAt prev ts = some ts.length := by
  obtain ⟨y, mo, d, h, mi, sec, frac, zone, hy, hmo, hd, hh, hmi, hsec, hfrac, hzone, rfl⟩ := hts
  simp only [Rx.matchAt, rxTimestamp]
  generalize hn : (y ++ '-' :: (mo ++ '-' :: (d ++ 'T' :: (h ++ ':' :: (mi ++ ':' ::
    (sec ++ (frac ++ zone))))))).length = n
  rw [matchNodes_digits 4 _ _ _ _ _ (by decide) hy, matchNodes_chr,
    matchNodes_digits 2 _ _ _ _ _ (by decide) hmo, matchNodes_chr,
    matchNodes_digits 2 _ _ _ _ _ (by decide) hd, matchNodes_chr,
    matchNodes_digits 2 _ _ _ _ _ (by decide) hh, matchNodes_chr,
    matchNodes_digits 2 _ _ _ _ _ (by decide) hmi, matchNodes_chr,
    matchNodes_digits 2 _ _ _ _ _ (by decide) hsec]
  rcases hfrac with rfl | ⟨f, hf, rfl⟩
  · rw [List.nil_append]
    have hnone : ∀ (p : Option Char) (k : Option Char → List Char → Option Nat),
        matchItems false [.chr '.', .cls digit 3 (some 3)] p zone k = none := by
      intro p k
      rcases hzone with rfl | rfl
      · simp [matchItems]
      · simp [matchItems, charEq]
    rw [matchNodes_opt, hnone]
    exact zone_tail zone hzone _ n
  · have hsome : matchItems false [.chr '.', .cls digit 3 (some 3)] (lastOr (some ':') sec)
        ('.' :: f ++ zone) (fun p r => matchNodes false
          [.item (.cls { ranges := [('Z', 'Z')] } 0 (some 1))] p r
          (fun _ r => some (n - r.length))) = some n := by
      obtain ⟨hlen, hall⟩ := hf
      simp only [List.cons_append, matchItems, charEq, Bool.false_eq_true, if_false, beq_self_eq_true,
        if_true]
      rw [← hlen, classRun_exact false digit f zone (allDigits_test f hall),
        tryCounts_exact _ _ _ _ (by omega), List.drop_left]
      exact zone_tail zone hzone _ n
    rw [matchNodes_opt, hsome]

end Shapes
section Login

theorem isBoundary_enter (prev next : Option Char) (hp : isWordAt prev = false)
    (hn : isWordAt next = true) : isBoundary prev next = true := by
  simp only [isBoundary, hp, hn]; rfl

theorem isBoundary_leave (prev next : Option Char) (hp : isWordAt prev = true)
    (hn : isWordAt next = false) : isBoundary prev next = true := by
  simp only [isBoundary, hp, hn]; rfl

/-- The address expression matches the whole of a dotted quad that stands
between two characters that are not word characters. -/
theorem rxIp_match (prev : Option Char) (ip r : List Char) (hip : DottedQuad ip)
    (hp : isWordAt prev = false) (hr : isWordAt r.head? = false) :
    rxIp.matchAt prev (ip ++ r) = some ip.length := by
  obtain ⟨a, b, c, d, ⟨ha1, ha3, ha⟩, ⟨hb1, hb3, hb⟩, ⟨hc1, hc3, hc⟩, ⟨hd1, hd3, hd⟩, rfl⟩ := hip
  have hdot : ∀ (t : List Char) (x : Char), ('.' :: t).head? = some x → x.isDigit = false := by
    intro t x hx
    simp only [List.head?_cons, Option.some.injEq] at hx
    subst hx; decide
  have hrd : ∀ x, r.head? = some x → x.isDigit = false := by
    intro x hx
    rw [hx] at hr
    exact isDigit_of_not_word x hr
  have hcap : ∀ (l : List Char), l.length ≤ 3 → ∀ h, some 3 = some h → l.length ≤ h := by
    intro l hl h hh
    simp only [Option.some.injEq] at hh
    omega
  simp only [Rx.matchAt, rxIp]
  generalize hn : ((a ++ '.' :: (b ++ '.' :: (c ++ '.' :: d))) ++ r).length = n
  have hlen : n - r.length = (a ++ '.' :: (b ++ '.' :: (c ++ '.' :: d))).length := by
    rw [← hn, List.length_append]; omega
  have hs : (a ++ '.' :: (b ++ '.' :: (c ++ '.' :: d))) ++ r =
      a ++ '.' :: (b ++ '.' :: (c ++ '.' :: (d ++ r))) := by
    simp only [List.append_assoc, List.cons_append]
  rw [hs, matchNodes_wordB, if_pos (isBoundary_enter _ _ hp (head_digit a _ ha1 ha))]
  apply matchNodes_run 1 (some 3) _ _ a _ _ _ ha1 (hcap a ha3) ha (hdot _)
  rw [matchNodes_chr]
  apply matchNodes_run 1 (some 3) _ _ b _ _ _ hb1 (hcap b hb3) hb (hdot _)
  rw [matchNodes_chr]
  apply matchNodes_run 1 (some 3) _ _ c _ _ _ hc1 (hcap c hc3) hc (hdot _)
  rw [matchNodes_chr]
  apply matchNodes_run 1 (some 3) _ _ d _ _ _ hd1 (hcap d hd3) hd hrd
  rw [matchNodes_wordB, if_pos (isBoundary_leave _ _ (lastOr_digit _ d hd1 hd) hr)]
  simp only [matchNodes, hlen]

/-- The identifier expression matches the whole of a long integer that stands
between two characters that are not word characters. -/
theorem rxId_match (prev : Option Char) (id r : List Char) (hid : LongInteger id)
    (hp : isWordAt prev = false) (hr : isWordAt r.head? = false) :
    rxId.matchAt prev (id ++ r) = some id.length := by
  obtain ⟨h10, hall⟩ := hid
  have hrd : ∀ x, r.head? = some x → x.isDigit = false := by
    intro x hx
    rw [hx] at hr
    exact isDigit_of_not_word x hr
  simp only [Rx.matchAt, rxId]
  generalize hn : (id ++ r).length = n
  have hlen : n - r.length = id.length := by
    rw [← hn, List.length_append]; omega
  rw [matchNodes_wordB, if_pos (isBoundary_enter _ _ hp (head_digit id _ (by omega) hall))]
  apply matchNodes_run 10 none _ _ id _ _ _ h10 (by intro h hh; cases hh) hall hrd
  rw [matchNodes_wordB, if_pos (isBoundary_leave _ _ (lastOr_digit _ id (by omega) hall) hr)]
  simp only [matchNodes, hlen]

theorem not_mem_digits (x : Char) (hx : x.isDigit = false) (ds : List Char) (h : AllDigits ds) :
    x ∉ ds := by
  intro hm
  rw [h x hm] at hx; cases hx

theorem not_mem_quad (x : Char) (hx : x.isDigit = false) (hdot : x ≠ '.') (ip : List Char)
    (h : DottedQuad ip) : x ∉ ip := by
  obtain ⟨a, b, c, d, ⟨_, _, ha⟩, ⟨_, _, hb⟩, ⟨_, _, hc⟩, ⟨_, _, hd⟩, rfl⟩ := h
  simp only [List.mem_append, List.mem_cons, not_or]
  exact ⟨not_mem_digits x hx a ha, hdot, not_mem_digits x hx b hb, hdot,
    not_mem_digits x hx c hc, hdot, not_mem_digits x hx d hd⟩

theorem isoTimestamp_ne_nil (ts : List Char) (h : IsoTimestamp ts) : ts ≠ [] := by
  obtain ⟨y, mo, d, hh, mi, sec, frac, zone, ⟨hy, _⟩, _, _, _, _, _, _, _, rfl⟩ := h
  cases y with
  | nil => simp at hy
  | cons c t => simp

theorem dottedQuad_ne_nil (ip : List Char) (h : DottedQuad ip) : ip ≠ [] := by
  obtain ⟨a, b, c, d, _, _, _, _, rfl⟩ := h
  simp

theorem longInteger_ne_nil (id : List Char) (h : LongInteger id) : id ≠ [] := by
  intro he
  rw [he] at h
  have := h.1
  simp at this

/-- First replacement: the timestamp at the end of the line. -/
theorem login_timestamp (id ip ts : List Char) (hid : LongInteger id) (hip : DottedQuad ip)
    (hts : IsoTimestamp ts) :
    rxTimestamp.replaceFrom "<TIMESTAMP>".data 0 none
        ("User ".data ++ id ++ " logged in from ".data ++ ip ++ " at ".data ++ ts) =
      "User ".data ++ id ++ " logged in from ".data ++ ip ++ " at <TIMESTAMP>".data := by
  have hx : '-' ∉ "User ".data ++ id ++ " logged in from ".data ++ ip ++ " at ".data := by
    simp only [List.mem_append, not_or]
    exact ⟨⟨⟨⟨by decide, not_mem_digits _ (by decide) id hid.2⟩, by decide⟩,
      not_mem_quad _ (by decide) (by decide) ip hip⟩, by decide⟩
  have hlast : ∀ c, ("User ".data ++ id ++ " logged in from ".data ++ ip ++ " at ".data).getLast?
      = some c → c.isDigit = false := by
    intro c hc
    rw [List.getLast?_append] at hc
    have : " at ".data.getLast? = some ' ' := rfl
    rw [this] at hc
    simp only [Option.or_some, Option.some.injEq] at hc
    subst hc; rfl
  rw [replaceFrom_blocked rxTimestamp _ '-' rxTimestamp_needs _ hx hlast]
  have hm := replaceFrom_match rxTimestamp "<TIMESTAMP>".data
    (lastOr none ("User ".data ++ id ++ " logged in from ".data ++ ip ++ " at ".data)) ts []
    (isoTimestamp_ne_nil ts hts) (by rw [List.append_nil]; exact rxTimestamp_match _ ts hts)
  rw [List.append_nil] at hm
  rw [hm, replaceFrom_nil_none rxTimestamp _ _ (rxTimestamp_needs _ [] (by simp)) 0]
  simp only [List.append_assoc, List.append_nil]
  rfl

/-- Second replacement: the address. -/
theorem login_ip (id ip : List Char) (hid : LongInteger id) (hip : DottedQuad ip) :
    rxIp.replaceFrom "<IP>".data 0 none
        ("User ".data ++ id ++ " logged in from ".data ++ ip ++ " at <TIMESTAMP>".data) =
      "User ".data ++ id ++ " logged in from <IP> at <TIMESTAMP>".data := by
  have hx : '.' ∉ "User ".data ++ id ++ " logged in from ".data := by
    simp only [List.mem_append, not_or]
    exact ⟨⟨by decide, not_mem_digits _ (by decide) id hid.2⟩, by decide⟩
  have hlast : ∀ c, ("User ".data ++ id ++ " logged in from ".data).getLast? = some c →
      c.isDigit = false := by
    intro c hc
    rw [List.getLast?_append] at hc
    have : " logged in from ".data.getLast? = some ' ' := rfl
    rw [this] at hc
    simp only [Option.or_some, Option.some.injEq] at hc
    subst hc; rfl
  have hprev : lastOr none ("User ".data ++ id ++ " logged in from ".data) = some ' ' := by
    rw [lastOr_append]; rfl
  rw [List.append_assoc ("User ".data ++ id ++ " logged in from ".data),
    replaceFrom_blocked rxIp _ '.' rxIp_needs _ hx hlast, hprev,
    replaceFrom_match rxIp _ (some ' ') ip " at <TIMESTAMP>".data (dottedQuad_ne_nil ip hip)
      (rxIp_match (some ' ') ip " at <TIMESTAMP>".data hip rfl rfl)]
  have htail := replaceFrom_blocked rxIp "<IP>".data '.' rxIp_needs " at <TIMESTAMP>".data
    (by decide) (by intro c hc; cases hc; rfl) (lastOr (some ' ') ip) []
  rw [List.append_nil] at htail
  rw [htail, replaceFrom_nil_none rxIp _ _ (rxIp_needs _ [] (by simp)) 0]
  simp only [List.append_assoc, List.append_nil]
  rfl

/-- Third replacement: nothing, there is no `-` left. -/
theorem login_uuid (id : List Char) (hid : LongInteger id) :
    rxUuid.replaceFrom "<UUID>".data 0 none
        ("User ".data ++ id ++ " logged in from <IP> at <TIMESTAMP>".data) =
      "User ".data ++ id ++ " logged in from <IP> at <TIMESTAMP>".data := by
  apply replaceFrom_absent rxUuid _ '-' rxUuid_needs
  simp only [List.mem_append, not_or]
  exact ⟨⟨by decide, not_mem_digits _ (by decide) id hid.2⟩, by decide⟩

/-- Fourth replacement: the identifier. -/
theorem login_id (id : List Char) (hid : LongInteger id) :
    rxId.replaceFrom "<ID>".data 0 none
        ("User ".data ++ id ++ " logged in from <IP> at <TIMESTAMP>".data) =
      "User <ID> logged in from <IP> at <TIMESTAMP>".data := by
  have hprev : lastOr none "User ".data = some ' ' := rfl
  rw [List.append_assoc,
    replaceFrom_nondigits rxId _ rxId_needs "User ".data (by decide), hprev,
    replaceFrom_match rxId _ (some ' ') id " logged in from <IP> at <TIMESTAMP>".data
      (longInteger_ne_nil id hid)
      (rxId_match (some ' ') id " logged in from <IP> at <TIMESTAMP>".data hid rfl rfl)]
  have htail := replaceFrom_nondigits rxId "<ID>".data rxId_needs
    " logged in from <IP> at <TIMESTAMP>".data (by decide) (lastOr (some ' ') id) []
  rw [List.append_nil] at htail
  rw [htail, replaceFrom_nil_none rxId _ _ (rxId_needs _ [] (by simp)) 0]
  rfl

end Login

/-- C18. The pattern of the line `User <id> logged in from <ip> at <ts>` does
not depend on the values: for every integer of 10 or more digits, every dotted
quad and every timestamp of the form `YYYY-MM-DDTHH:MM:SS[.mmm][Z]`,
`extractLogPattern` returns `User <ID> logged in from <IP> at <TIMESTAMP>`. -/
theorem extractLogPattern_login (id ip ts : List Char) (hid : LongInteger id)
    (hip : DottedQuad ip) (hts : IsoTimestamp ts) :
    extractLogPattern (loginLine id ip ts) = "User <ID> logged in from <IP> at <TIMESTAMP>" := by
  have h1 : rxTimestamp.replaceAll "<TIMESTAMP>" (loginLine id ip ts) =
      ⟨"User ".data ++ id ++ " logged in from ".data ++ ip ++ " at <TIMESTAMP>".data⟩ :=
    congrArg String.mk (login_timestamp id ip ts hid hip hts)
  have h2 : rxIp.replaceAll "<IP>"
      ⟨"User ".data ++ id ++ " logged in from ".data ++ ip ++ " at <TIMESTAMP>".data⟩ =
      ⟨"User ".data ++ id ++ " logged in from <IP> at <TIMESTAMP>".data⟩ :=
    congrArg String.mk (login_ip id ip hid hip)
  have h3 : rxUuid.replaceAll "<UUID>"
      ⟨"User ".data ++ id ++ " logged in from <IP> at <TIMESTAMP>".data⟩ =
      ⟨"User ".data ++ id ++ " logged in from <IP> at <TIMESTAMP>".data⟩ :=
    congrArg String.mk (login_uuid id hid)
  have h4 : rxId.replaceAll "<ID>"
      ⟨"User ".data ++ id ++ " logged in from <IP> at <TIMESTAMP>".data⟩ =
      "User <ID> logged in from <IP> at <TIMESTAMP>" :=
    congrArg String.mk (login_id id hid)
  have hdef : extractLogPattern (loginLine id ip ts) = trim (
      (rxQuoted squote).replaceAll "<STRING>" <|
      (rxQuoted dquote).replaceAll "<STRING>" <|
      rxNumber.replaceAll "<NUMBER>" <|
      rxHash.replaceAll "<HASH>" <|
      rxId.replaceAll "<ID>" <|
      rxUuid.replaceAll "<UUID>" <|
      rxIp.replaceAll "<IP>" <|
      rxTimestamp.replaceAll "<TIMESTAMP>" (loginLine id ip ts)) := rfl
  rw [hdef, h1, h2, h3, h4]
  decide

/-- C18 at the values of the example and at three other triples of values. -/
theorem extractLogPattern_login_witness :
    LongInteger "123456789012".data ∧ DottedQuad "10.0.0.5".data ∧
    IsoTimestamp "2024-01-01T00:00:00Z".data ∧
    extractLogPattern "User 123456789012 logged in from 10.0.0.5 at 2024-01-01T00:00:00Z" =
      "User <ID> logged in from <IP> at <TIMESTAMP>" ∧
    extractLogPattern "User 9876543210 logged in from 192.168.100.27 at 1999-12-31T23:59:59.999" =
      "User <ID> logged in from <IP> at <TIMESTAMP>" ∧
    extractLogPattern "User 00000000000000 logged in from 8.8.8.8 at 2031-07-04T12:30:45.001Z" =
      "User <ID> logged in from <IP> at <TIMESTAMP>" ∧
    extractLogPattern "User 4444444444 logged in from 255.255.255.255 at 2000-02-29T00:00:00" =
      "User <ID> logged in from <IP> at <TIMESTAMP>" :=
  have hid : LongInteger "123456789012".data := ⟨by decide, by unfold AllDigits; decide⟩
  have hip : DottedQuad "10.0.0.5".data :=
    ⟨"10".data, "0".data, "0".data, "5".data,
      ⟨by decide, by decide, by unfold AllDigits; decide⟩,
      ⟨by decide, by decide, by unfold AllDigits; decide⟩,
      ⟨by decide, by decide, by unfold AllDigits; decide⟩,
      ⟨by decide, by decide, by unfold AllDigits; decide⟩, by decide⟩
  have hts : IsoTimestamp "2024-01-01T00:00:00Z".data :=
    ⟨"2024".data, "01".data, "01".data, "00".data, "00".data, "00".data, [], ['Z'],
      ⟨by decide, by unfold AllDigits; decide⟩, ⟨by decide, by unfold AllDigits; decide⟩,
      ⟨by decide, by unfold AllDigits; decide⟩, ⟨by decide, by unfold AllDigits; decide⟩,
      ⟨by decide, by unfold AllDigits; decide⟩, ⟨by decide, by unfold AllDigits; decide⟩,
      Or.inl rfl, Or.inr rfl, by decide⟩
  have hline : loginLine "123456789012".data "10.0.0.5".data "2024-01-01T00:00:00Z".data =
      "User 123456789012 logged in from 10.0.0.5 at 2024-01-01T00:00:00Z" := by decide
  ⟨hid, hip, hts,
    hline ▸ extractLogPattern_login "123456789012".data "10.0.0.5".data
      "2024-01-01T00:00:00Z".data hid hip hts,
    by decide, by decide, by decide⟩

section Inert

/-- A stream whose configuration rejects every line takes nothing from a
chunk: the loop is the identity, and `processLogChunk` changes no worker,
hands nothing to `sendMessage`, and leaves the count and flags of every record
(and the absence of a record) as they were. -/
theorem rejecting_stream_inert (h : Host) (config : Config)
    (hrej : ∀ line, shouldProcessLine h line config = false)
    (p : LogProcessor) (streamKey : String) (w : LogStream)
    (hw : mapGet p.activeStreams streamKey = some w) (hc : w.config = config) :
    (∀ lines, processLines h streamKey lines p = p) ∧
    ∀ chunk,
      (processLogChunk h p streamKey chunk).activeStreams = p.activeStreams ∧
      (processLogChunk h p streamKey chunk).sent = p.sent ∧
      ∀ k, statusOf (processLogChunk h p streamKey chunk) k = statusOf p k := by
  have hline : ∀ line, processLine h streamKey p line = p := by
    intro line
    apply processLine_rejected
    intro w' hw'
    rw [hw] at hw'
    cases hw'
    rw [hc]; exact hrej line
  have hlines : ∀ lines, processLines h streamKey lines p = p := by
    intro lines
    induction lines with
    | nil => rfl
    | cons l ls ih =>
      simp only [processLines, List.foldl_cons] at ih ⊢
      rw [hline l]; exact ih
  refine ⟨hlines, fun chunk => ?_⟩
  unfold processLogChunk
  rw [hw]
  by_cases ha : w.isActive = true
  · simp only [ha, Bool.not_true, Bool.false_eq_true, if_false, hlines]
    obtain ⟨h1, _, h3, h4⟩ := checkForStoppedPatterns_keeps h streamKey p
    exact ⟨h1, h3, h4⟩
  · simp [ha]

end Inert

/-- The scan of `test`: some index of the text, up to its length, at which
the matcher succeeds. -/
theorem regExpTest_iff (matcher : List Char → Nat → Bool) (text : String) :
    regExpTest matcher text = true ↔
      ∃ index, index ≤ text.data.length ∧ matcher text.data index = true := by
  simp only [regExpTest, List.any_eq_true, List.mem_range]
  constructor
  · rintro ⟨index, hlt, hm⟩
    exact ⟨index, by omega, hm⟩
  · rintro ⟨index, hle, hm⟩
    exact ⟨index, by omega, hm⟩

/-- A match of `w1|w2|..` with the `i` flag at a position: one of the words, up
to the case of its letters. -/
theorem alternationRx_matchAt (words : List String) (prev : Option Char) (s : List Char) :
    ((alternationRx words "i").matchAt prev s).isSome = true ↔
      ∃ w ∈ words, ∃ mid post, s = mid ++ post ∧
        mid.map Char.toUpper = w.data.map Char.toUpper := by
  have hre : alternationRx words "i" = { nodes := [.alt (words.map lit)], ignoreCase := true } :=
    rfl
  rw [hre]
  simp only [Rx.matchAt, matchNodes, firstBranch_isSome, List.mem_map]
  constructor
  · rintro ⟨b, ⟨w, hw, rfl⟩, hsome⟩
    obtain ⟨x, hx⟩ := (option_isSome_iff _).mp hsome
    obtain ⟨mid, post, hs, hm, _⟩ := (matchItems_lit_iff w.data prev s _ x).mp hx
    exact ⟨w, hw, mid, post, hs, hm⟩
  · rintro ⟨w, hw, mid, post, hs, hm⟩
    refine ⟨lit w, ⟨w, hw, rfl⟩, (option_isSome_iff _).mpr ⟨s.length - post.length, ?_⟩⟩
    exact (matchItems_lit_iff w.data prev s _ _).mpr ⟨mid, post, hs, hm, rfl⟩

/-- The matcher of `w1|w2|..` with the `i` flag succeeds at some index of a
line exactly when the line contains one of the words, whatever the case of
the letters. -/
theorem alternationRx_matcher_iff (words : List String) (line : String) :
    (∃ index, index ≤ line.data.length ∧
      (alternationRx words "i").matcher line.data index = true) ↔
      ∃ w ∈ words, ContainsIgnoringCase w line := by
  constructor
  · rintro ⟨index, _, hm⟩
    obtain ⟨w, hw, mid, post, hs, hmid⟩ := (alternationRx_matchAt words _ _).mp hm
    refine ⟨w, hw, line.data.take index, mid, post, ?_, hmid⟩
    rw [List.append_assoc, ← hs, List.take_append_drop]
  · rintro ⟨w, hw, pre, mid, post, hs, hmid⟩
    refine ⟨pre.length, ?_, ?_⟩
    · rw [hs]; simp only [List.length_append]; omega
    · have htake : line.data.take pre.length = pre := by
        rw [hs, List.append_assoc, List.take_left]
      have hdrop : line.data.drop pre.length = mid ++ post := by
        rw [hs, List.append_assoc, List.drop_left]
      simp only [Rx.matcher, htake, hdrop]
      exact (alternationRx_matchAt words _ _).mpr ⟨w, hw, mid, post, rfl, hmid⟩

/-- C21. For a line whose severity meets the level of the stream:
`shouldProcessLine` returns true when the filter is absent, empty or `.*`. For
any other source that `new RegExp(source, 'i')` compiles, it returns true
exactly when the compiled expression matches at some index of the line, from
0 to its length: the search is not anchored. When the source is an
alternation `w1|w2|..` of words made of letters and digits, which the runtime
compiles with the flag `i` to the alternation of the literals that ignores
case, it returns true exactly when the line contains one of the words
somewhere, whatever the case of the letters. -/
theorem filter_decides (h : Host) (line : String) (config : Config)
    (hlevel : meetsLogLevel (extractLogLevel line) config.level = true) :
    ((config.filters = none ∨ config.filters = some "" ∨ config.filters = some ".*") →
      shouldProcessLine h line config = true) ∧
    (∀ filters regex, config.filters = some filters → filters ≠ "" → filters ≠ ".*" →
      h.regExp filters "i" = some regex →
      (shouldProcessLine h line config = true ↔
        ∃ index, index ≤ line.data.length ∧ regex line.data index = true)) ∧
    ∀ filters words, config.filters = some filters → filters ≠ "" → filters ≠ ".*" →
      filters = String.intercalate "|" words →
      (∀ w ∈ words, ∀ c ∈ w.data, c.isAlphanum = true) →
      h.regExp filters "i" = some (alternationRx words "i").matcher →
      (shouldProcessLine h line config = true ↔ ∃ w ∈ words, ContainsIgnoringCase w line) := by
  have hscan : ∀ filters regex, config.filters = some filters → filters ≠ "" → filters ≠ ".*" →
      h.regExp filters "i" = some regex →
      (shouldProcessLine h line config = true ↔
        ∃ index, index ≤ line.data.length ∧ regex line.data index = true) := by
    intro filters regex hf h1 h2 ht
    have hdef : shouldProcessLine h line config = regExpTest regex line := by
      simp only [shouldProcessLine, hlevel, hf, ht, Bool.not_true, Bool.false_eq_true, if_false,
        ne_eq, h1, h2, not_false_eq_true, and_self, if_true]
      cases regExpTest regex line <;> rfl
    rw [hdef]
    exact regExpTest_iff regex line
  refine ⟨?_, hscan, ?_⟩
  · rintro (hf | hf | hf) <;> simp [shouldProcessLine, hlevel, hf]
  · intro filters words hf h1 h2 _ _ ht
    exact (hscan filters _ hf h1 h2 ht).trans (alternationRx_matcher_iff words line)

/-- C21 on the filter `error|exception` at level `info`: the line
`Exception occurred` is accepted, as it contains `exception` up to the case of
its first letter, which the expression without the flag `i` does not match
anywhere; `INFO: Normal operation` is rejected; `ERROR: Something went wrong`
is accepted; and every line is accepted without a filter. -/
theorem filter_decides_witness :
    shouldProcessLine filterHost "Exception occurred" { filters := some "error|exception" } = true ∧
    regExpTest (alternationRx ["error", "exception"] "").matcher "Exception occurred" = false ∧
    shouldProcessLine filterHost "INFO: Normal operation" { filters := some "error|exception" }
      = false ∧
    shouldProcessLine filterHost "ERROR: Something went wrong"
      { filters := some "error|exception" } = true ∧
    shouldProcessLine filterHost "INFO: Normal operation" { filters := none } = true ∧
    shouldProcessLine filterHost "INFO: Normal operation" { filters := some "" } = true :=
  ⟨((filter_decides filterHost "Exception occurred" { filters := some "error|exception" }
      (by decide)).2.2 "error|exception" ["error", "exception"] rfl (by decide) (by decide)
      (by decide) (by decide) (by simp [filterHost])).mpr
      ⟨"exception", by simp, [], "Exception".data, " occurred".data, by decide, by decide⟩,
    by decide, by decide, by decide,
    (filter_decides filterHost "INFO: Normal operation" { filters := none } (by decide)).1
      (Or.inl rfl),
    by decide⟩

/-- C22. When the filter of a stream is a source that `new RegExp` refuses,
`shouldProcessLine` returns false on every line; the loop of `processLogChunk`
then goes through all the lines of a chunk without changing the state, and
`processLogChunk` changes no worker (no buffer entry), hands nothing to
`sendMessage` and neither creates nor counts a pattern record. -/
theorem invalid_filter_drops (h : Host) (config : Config) (filters : String)
    (hf : config.filters = some filters) (h1 : filters ≠ "") (h2 : filters ≠ ".*")
    (hbad : h.regExp filters "i" = none) :
    (∀ line, shouldProcessLine h line config = false) ∧
    ∀ (p : LogProcessor) (streamKey : String) (w : LogStream),
      mapGet p.activeStreams streamKey = some w → w.config = config →
      (∀ lines, processLines h streamKey lines p = p) ∧
      ∀ chunk,
        (processLogChunk h p streamKey chunk).activeStreams = p.activeStreams ∧
        (processLogChunk h p streamKey chunk).sent = p.sent ∧
        ∀ k, statusOf (processLogChunk h p streamKey chunk) k = statusOf p k := by
  have hrej : ∀ line, shouldProcessLine h line config = false := by
    intro line
    simp only [shouldProcessLine, hf, hbad, ne_eq, h1, h2, not_false_eq_true, and_self, if_true]
    split <;> rfl
  exact ⟨hrej, fun p streamKey w hw hc => rejecting_stream_inert h config hrej p streamKey w hw hc⟩

/-- C22 on a stream whose filter is `[invalid-regex`: a chunk of three lines,
one of them an error line, leaves the buffer empty and creates no record. -/
theorem invalid_filter_drops_witness :
    shouldProcessLine filterHost "ERROR: disk full" { filters := some "[invalid-regex" } = false ∧
    bufferOf (processLogChunk filterHost brokenFilterStream "s" "one\nERROR: disk full\nthree")
      "s" = [] ∧
    (processLogChunk filterHost brokenFilterStream "s" "one\nERROR: disk full\nthree").logPatterns
      = [] := by
  have hw := invalid_filter_drops filterHost { filters := some "[invalid-regex" } "[invalid-regex"
    rfl (by decide) (by decide) (by simp [filterHost])
  exact ⟨hw.1 "ERROR: disk full", by decide, by decide⟩

/-- The severity that `extractLogLevel` gives a line is one of the four
levels. -/
theorem firstLevel_mem (line : String) :
    ∀ table : List (Rx × String), (∀ e ∈ table, e.2 ∈ levelOrder) →
      firstLevel line table ∈ levelOrder := by
  intro table
  induction table with
  | nil => intro _; simp [firstLevel, levelOrder]
  | cons e rest ih =>
    intro hall
    obtain ⟨pattern, level⟩ := e
    simp only [firstLevel]
    split
    · exact hall (pattern, level) (List.mem_cons_self _ _)
    · exact ih (fun x hx => hall x (List.mem_cons_of_mem _ hx))

theorem extractLogLevel_mem (line : String) : extractLogLevel line ∈ levelOrder :=
  firstLevel_mem line levelPatterns (by decide)

/-- A name other than the four levels is not a property of the literal. -/
theorem levels_unknown (l : String) (hl : l ∉ levelOrder) : levels l = none := by
  simp only [levelOrder, List.mem_cons, List.mem_singleton, List.not_mem_nil, or_false,
    not_or] at hl
  simp [levels, hl.1, hl.2.1, hl.2.2.1, hl.2.2.2]

/-- A required level that is missing or is not one of the four levels does not
read as a number. -/
theorem levelsAt_unknown (required : Option String)
    (hr : ∀ l, required = some l → l ∉ levelOrder) :
    ∀ n, levelsAt required ≠ LevelValue.number n := by
  intro n
  cases required with
  | none => simp [levelsAt]
  | some l =>
    have hn := levels_unknown l (hr l rfl)
    simp only [levelsAt, hn]
    cases objectPrototype.lookup l <;> simp

/-- A name that `Object.prototype` does not define does not read as a text. -/
theorem levelsAt_not_text (name : String) (hn : objectPrototype.lookup name = none) :
    ∀ s, levelsAt (some name) ≠ LevelValue.text s := by
  intro s
  simp only [levelsAt, hn]
  cases levels name <;> simp

/-- The comparison `>=` is false when its left operand is not a text and its
right operand is not a number. -/
theorem greaterEqual_mixed (a r : LevelValue) (ha : ∀ s, a ≠ LevelValue.text s)
    (hr : ∀ n, r ≠ LevelValue.number n) : greaterEqual a r = false := by
  cases a <;> cases r <;> simp_all [greaterEqual]

/-- The members inherited from `Object.prototype` are visible to
`meetsLogLevel`: the name `constructor` meets itself, as its text is compared
with itself, and a level does not meet it, as a number is compared with a
text. -/
theorem meetsLogLevel_inherited :
    meetsLogLevel "constructor" (some "constructor") = true ∧
    meetsLogLevel "toString" (some "constructor") = true ∧
    meetsLogLevel "constructor" (some "toString") = false ∧
    meetsLogLevel "error" (some "constructor") = false ∧
    meetsLogLevel "constructor" (some "error") = false ∧
    meetsLogLevel "error" (some "__proto__") = false := by
  decide

/-- C29. When the level of a stream is missing or is not exactly one of
`debug`, `info`, `warn`, `error`, `meetsLogLevel` is false for every actual
level that is not the name of a member inherited from `Object.prototype`, so
for each of the four levels and for the level that `extractLogLevel` gives to
any line, and `shouldProcessLine` is false for every line; `processLogChunk`
then changes no worker (no buffer entry), hands nothing to `sendMessage` and
neither creates nor counts a pattern record. -/
theorem unknown_level_rejects_all (h : Host) (config : Config)
    (hlevel : ∀ l, config.level = some l → l ∉ levelOrder) :
    (∀ actualLevel, objectPrototype.lookup actualLevel = none →
      meetsLogLevel actualLevel config.level = false) ∧
    (∀ actualLevel ∈ levelOrder, meetsLogLevel actualLevel config.level = false) ∧
    (∀ line, meetsLogLevel (extractLogLevel line) config.level = false) ∧
    (∀ line, shouldProcessLine h line config = false) ∧
    ∀ (p : LogProcessor) (streamKey : String) (w : LogStream),
      mapGet p.activeStreams streamKey = some w → w.config = config →
      (∀ lines, processLines h streamKey lines p = p) ∧
      ∀ chunk,
        (processLogChunk h p streamKey chunk).activeStreams = p.activeStreams ∧
        (processLogChunk h p streamKey chunk).sent = p.sent ∧
        ∀ k, statusOf (processLogChunk h p streamKey chunk) k = statusOf p k := by
  have hm : ∀ actualLevel, objectPrototype.lookup actualLevel = none →
      meetsLogLevel actualLevel config.level = false := fun actualLevel hn =>
    greaterEqual_mixed _ _ (levelsAt_not_text actualLevel hn) (levelsAt_unknown config.level hlevel)
  have hfour : ∀ actualLevel ∈ levelOrder, objectPrototype.lookup actualLevel = none := by
    decide
  have hline : ∀ line, meetsLogLevel (extractLogLevel line) config.level = false :=
    fun line => hm _ (hfour _ (extractLogLevel_mem line))
  have hrej : ∀ line, shouldProcessLine h line config = false := by
    intro line
    simp [shouldProcessLine, hline]
  exact ⟨hm, fun a ha => hm a (hfour a ha), hline, hrej,
    fun p streamKey w hw hc => rejecting_stream_inert h config hrej p streamKey w hw hc⟩

/-- C29 on a stream whose level is `ERROR` in capital letters: an error line
does not meet it, and a chunk with that line leaves the buffer empty and
creates no record; the same for a missing level, and for the level
`constructor`, a name that the object `levels` inherits. -/
theorem unknown_level_rejects_all_witness :
    meetsLogLevel "error" (some "ERROR") = false ∧
    shouldProcessLine tickingHost "ERROR: disk full" { level := some "ERROR" } = false ∧
    bufferOf (processLogChunk tickingHost capitalLevelStream "s" "ERROR: disk full") "s" = [] ∧
    (processLogChunk tickingHost capitalLevelStream "s" "ERROR: disk full").logPatterns = [] ∧
    shouldProcessLine tickingHost "ERROR: disk full" { level := none } = false ∧
    shouldProcessLine tickingHost "ERROR: disk full" { level := some "constructor" } = false := by
  have hw := unknown_level_rejects_all tickingHost { level := some "ERROR" }
    (by intro l hl; cases hl; decide)
  exact ⟨hw.1 "error" (by decide), hw.2.2.2.1 "ERROR: disk full", by decide, by decide, by decide,
    by decide⟩

/-- C26. `shouldSendBuffer` returns true exactly when the cooldown has elapsed
(`now - lastSent >= cooldown * 1000`) and either the buffer holds at least
`maxLines` entries, or it is not empty and its oldest entry is more than
30000 ms old; with `maxLines >= 1` it returns false on an empty buffer. `now`
is the one clock read that the function makes. -/
theorem shouldSendBuffer_iff (h : Host) (p : LogProcessor) (logStream : LogStream)
    (hmax : 1 ≤ logStream.config.maxLines) :
    ((shouldSendBuffer h p logStream).1 = true ↔
      (h.clock p.reads - logStream.lastSent ≥ logStream.config.cooldown * 1000 ∧
        ((logStream.buffer.length : Int) ≥ logStream.config.maxLines ∨
          ∃ oldest, logStream.buffer.head? = some oldest ∧
            h.clock p.reads - oldest.timestamp > 30000))) ∧
    (logStream.buffer = [] → (shouldSendBuffer h p logStream).1 = false) := by
  constructor
  · simp only [shouldSendBuffer, dateNow]
    by_cases hc : h.clock p.reads - logStream.lastSent < logStream.config.cooldown * 1000
    · rw [if_pos hc]
      constructor
      · intro hh; cases hh
      · rintro ⟨hge, _⟩; omega
    · rw [if_neg hc]
      by_cases hl : (logStream.buffer.length : Int) ≥ logStream.config.maxLines
      · rw [if_pos hl]
        exact ⟨fun _ => ⟨by omega, Or.inl hl⟩, fun _ => rfl⟩
      · rw [if_neg hl]
        cases hb : logStream.buffer.head? with
        | none =>
          constructor
          · intro hh; cases hh
          · rintro ⟨_, hl' | ⟨o, ho, _⟩⟩
            · exact absurd hl' hl
            · cases ho
        | some oldest =>
          simp only [decide_eq_true_eq]
          constructor
          · intro ha; exact ⟨by omega, Or.inr ⟨oldest, rfl, ha⟩⟩
          · rintro ⟨_, hl' | ⟨o, ho, ha⟩⟩
            · exact absurd hl' hl
            · cases ho; exact ha
  · intro he
    simp only [shouldSendBuffer, dateNow, he, List.length_nil, List.head?_nil]
    split
    · rfl
    · rw [if_neg (by simp only [Nat.cast_zero, ge_iff_le]; omega)]

/-- C26 on workers with `maxLines` 10 and cooldown 60 at time 1 000 000: an
empty buffer is not sent; one entry of age 100 s is sent when the last send is
100 s old, and is not sent when the last send is 10 s old. -/
theorem shouldSendBuffer_iff_witness :
    (shouldSendBuffer tickingHost {} ⟨{}, [], 0, true, none⟩).1 = false ∧
    (shouldSendBuffer tickingHost {} ⟨{}, [⟨900000, "x", "", "", ""⟩], 900000, true, none⟩).1
      = true ∧
    (shouldSendBuffer tickingHost {} ⟨{}, [⟨900000, "x", "", "", ""⟩], 990000, true, none⟩).1
      = false :=
  ⟨(shouldSendBuffer_iff tickingHost {} ⟨{}, [], 0, true, none⟩ (by decide)).2 rfl,
    by decide, by decide⟩

section Quiet

/-- The loop body on a line that is rejected, or whose record is consolidated
and suppressed: nothing is buffered or handed over, and the count and flags of
every record stay. -/
theorem processLine_quiet (h : Host) (p : LogProcessor) (streamKey line : String) (w : LogStream)
    (hw : mapGet p.activeStreams streamKey = some w)
    (hq : shouldProcessLine h line w.config = false ∨
      ∃ c, statusOf p (getPatternKey streamKey (extractLogPattern line)) = some (c, true, true)) :
    (processLine h streamKey p line).activeStreams = p.activeStreams ∧
    (processLine h streamKey p line).sent = p.sent ∧
    ∀ k, statusOf (processLine h streamKey p line) k = statusOf p k := by
  by_cases hrej : shouldProcessLine h line w.config = false
  · have : processLine h streamKey p line = p := by
      apply processLine_rejected
      intro w' hw'
      rw [hw] at hw'; cases hw'; exact hrej
    rw [this]
    exact ⟨rfl, rfl, fun _ => rfl⟩
  · have hacc : shouldProcessLine h line w.config = true := by
      cases hs : shouldProcessLine h line w.config with
      | true => rfl
      | false => exact absurd hs hrej
    rcases hq with hq | ⟨c, hc⟩
    · exact absurd hq hrej
    · simp only [statusOf] at hc
      cases hget : mapGet p.logPatterns (getPatternKey streamKey (extractLogPattern line)) with
      | none => rw [hget] at hc; cases hc
      | some pd =>
        rw [hget] at hc
        simp only [Option.map_some', Option.some.injEq, Prod.mk.injEq] at hc
        obtain ⟨hcount, hcons, hsup⟩ := hc
        have ht := (trackLogPattern_suppressed h p streamKey line w.config pd hget hsup).1
        have hcons' : (trackLogPattern h p streamKey line w.config).1.isConsolidated = true := by
          rw [ht]; exact hcons
        rw [processLine_suppress h p streamKey line w hw hacc hcons']
        obtain ⟨f1, _, f3, _⟩ := trackLogPattern_frame h p streamKey line w.config
        refine ⟨f1, f3, fun k => ?_⟩
        by_cases hk : k = getPatternKey streamKey (extractLogPattern line)
        · subst hk
          simp only [statusOf]
          rw [trackLogPattern_stored, ht, hget]
          rfl
        · simp only [statusOf]
          rw [trackLogPattern_other h p streamKey line w.config k hk]

/-- The loop over lines that are each rejected or consolidated. -/
theorem processLines_quiet (h : Host) (streamKey : String) (w : LogStream) (lines : List String) :
    ∀ (p0 p : LogProcessor), mapGet p0.activeStreams streamKey = some w →
      p.activeStreams = p0.activeStreams → p.sent = p0.sent →
      (∀ k, statusOf p k = statusOf p0 k) →
      (∀ line ∈ lines, shouldProcessLine h line w.config = false ∨
        ∃ c, statusOf p0 (getPatternKey streamKey (extractLogPattern line)) = some (c, true, true)) →
      (processLines h streamKey lines p).activeStreams = p0.activeStreams ∧
      (processLines h streamKey lines p).sent = p0.sent ∧
      ∀ k, statusOf (processLines h streamKey lines p) k = statusOf p0 k := by
  induction lines with
  | nil => intro p0 p _ h1 h2 h3 _; exact ⟨h1, h2, h3⟩
  | cons l ls ih =>
    intro p0 p hw h1 h2 h3 hq
    have hw' : mapGet p.activeStreams streamKey = some w := by rw [h1]; exact hw
    have hl := hq l (List.mem_cons_self _ _)
    have hl' : shouldProcessLine h l w.config = false ∨
        ∃ c, statusOf p (getPatternKey streamKey (extractLogPattern l)) = some (c, true, true) := by
      rcases hl with hl | ⟨c, hc⟩
      · exact Or.inl hl
      · exact Or.inr ⟨c, by rw [h3]; exact hc⟩
    obtain ⟨g1, g2, g3⟩ := processLine_quiet h p streamKey l w hw' hl'
    simp only [processLines, List.foldl_cons]
    exact ih p0 (processLine h streamKey p l) hw (g1.trans h1) (g2.trans h2)
      (fun k => (g3 k).trans (h3 k)) (fun line hm => hq line (List.mem_cons_of_mem _ hm))

end Quiet

/-- C27, failing input. The default stream has buffered the line `boom` at
time 1 000 002 and has never sent; at the next poll, at time 3 000 005, its
buffer is not empty, its oldest entry is far older than 30 s, its cooldown
has elapsed and `shouldSendBuffer` is true, as its comment "send after 30
seconds even if not full" announces; the poll reads a chunk whose only line is
below the level of the stream: nothing is handed to `sendMessage` and the
entry stays in the buffer, because `processLogChunk` consults
`shouldSendBuffer` only right after it has appended a line. -/
theorem stale_buffer_not_flushed :
    bufferOf activePolled "s" = [⟨1000002, "boom", "", "", ""⟩] ∧
    (mapGet activePolled.activeStreams "s").map
      (fun w => (shouldSendBuffer (laterHost 5) activePolled w).1) = some true ∧
    (laterHost 5).clock activePolled.reads = 3000005 ∧
    shouldProcessLine (laterHost 5) "DEBUG: quiet" {} = false ∧
    (processLogChunk (laterHost 5) activePolled "s" "DEBUG: quiet").sent = [] ∧
    bufferOf (processLogChunk (laterHost 5) activePolled "s" "DEBUG: quiet") "s" =
      [⟨1000002, "boom", "", "", ""⟩] := by
  decide

/-- The flush policy runs only right after a line has been appended to the
buffer. A call of `processLogChunk` in which no line is appended, every line
of the chunk being rejected by `shouldProcessLine` or belonging to a record
that is consolidated and suppressed, hands nothing to `sendMessage` and leaves
every worker, with its buffer and `lastSent`, as it was, whatever
`shouldSendBuffer` would answer for it. -/
theorem no_append_no_flush (h : Host) (p : LogProcessor) (streamKey chunk : String)
    (w : LogStream) (hw : mapGet p.activeStreams streamKey = some w)
    (hquiet : ∀ line ∈ chunkLines chunk, shouldProcessLine h line w.config = false ∨
      ∃ c, statusOf p (getPatternKey streamKey (extractLogPattern line)) = some (c, true, true)) :
    (processLogChunk h p streamKey chunk).sent = p.sent ∧
    (processLogChunk h p streamKey chunk).activeStreams = p.activeStreams ∧
    bufferOf (processLogChunk h p streamKey chunk) streamKey = w.buffer := by
  have key : (processLogChunk h p streamKey chunk).sent = p.sent ∧
      (processLogChunk h p streamKey chunk).activeStreams = p.activeStreams := by
    unfold processLogChunk
    rw [hw]
    by_cases ha : w.isActive = true
    · simp only [ha, Bool.not_true, Bool.false_eq_true, if_false]
      obtain ⟨c1, _, c3, _⟩ := checkForStoppedPatterns_keeps h streamKey
        (processLines h streamKey (chunkLines chunk) p)
      obtain ⟨g1, g2, _⟩ := processLines_quiet h streamKey w (chunkLines chunk) p p hw rfl rfl
        (fun _ => rfl) hquiet
      exact ⟨c3.trans g2, c1.trans g1⟩
    · simp [ha]
  refine ⟨key.1, key.2, ?_⟩
  simp only [bufferOf, key.2, hw]

section Isolation

theorem colon_prefix_eq :
    ∀ (a b q : List Char), ':' ∉ a → ':' ∉ b → a ++ [':'] <+: b ++ ':' :: q → a = b := by
  intro a
  induction a with
  | nil =>
    intro b q _ hb hp
    cases b with
    | nil => rfl
    | cons y b =>
      simp only [List.nil_append, List.cons_append, List.cons_prefix_cons] at hp
      exact absurd (by rw [hp.1]; exact List.mem_cons_self _ _) hb
  | cons x a ih =>
    intro b q ha hb hp
    cases b with
    | nil =>
      simp only [List.nil_append, List.cons_append, List.cons_prefix_cons] at hp
      exact absurd (by rw [← hp.1]; exact List.mem_cons_self _ _) ha
    | cons y b =>
      simp only [List.cons_append, List.cons_prefix_cons] at hp
      rw [hp.1, ih b q (fun h => ha (List.mem_cons_of_mem _ h))
        (fun h => hb (List.mem_cons_of_mem _ h)) hp.2]

theorem getPatternKey_data (streamKey pattern : String) :
    (getPatternKey streamKey pattern).data = streamKey.data ++ ':' :: pattern.data := by
  simp only [getPatternKey, String.data_append, List.append_assoc]
  rfl

theorem belongsTo_iff (streamKey patternKey : String) :
    belongsTo streamKey patternKey = true ↔ streamKey.data ++ [':'] <+: patternKey.data := by
  simp only [belongsTo, String.data_append, List.isPrefixOf_iff_prefix]

/-- The key of a record starts with the key of its stream and a colon. -/
theorem belongsTo_own (streamKey pattern : String) :
    belongsTo streamKey (getPatternKey streamKey pattern) = true := by
  rw [belongsTo_iff, getPatternKey_data]
  exact ⟨pattern.data, by simp⟩

/-- The key of a record of another stream does not, when neither stream key
contains a colon. -/
theorem belongsTo_other (a b pattern : String) (ha : ':' ∉ a.data) (hb : ':' ∉ b.data)
    (hab : a ≠ b) : belongsTo a (getPatternKey b pattern) = false := by
  cases hbel : belongsTo a (getPatternKey b pattern) with
  | false => rfl
  | true =>
    rw [belongsTo_iff, getPatternKey_data] at hbel
    have := colon_prefix_eq a.data b.data pattern.data ha hb hbel
    exact absurd (String.ext this) hab

theorem mapGet_filter_key {β : Type} (f : String → Bool) (m : List (String × β)) (key : String) :
    mapGet (m.filter (fun e => f e.1)) key = if f key = true then mapGet m key else none := by
  induction m with
  | nil => simp [mapGet]
  | cons e rest ih =>
    rw [List.filter_cons]
    by_cases he : e.1 = key
    · by_cases hf : f key = true
      · have hf' : f e.1 = true := by rw [he]; exact hf
        rw [if_pos hf', mapGet_cons, mapGet_cons, if_pos he, if_pos he, if_pos hf]
      · have hf' : ¬ f e.1 = true := by rw [he]; exact hf
        rw [if_neg hf', ih, if_neg hf, if_neg hf]
    · by_cases hf' : f e.1 = true
      · rw [if_pos hf', mapGet_cons, mapGet_cons, if_neg he, if_neg he, ih]
      · rw [if_neg hf', ih, mapGet_cons, if_neg he]

theorem clearTimeout_logPatterns (p : LogProcessor) (t : Nat) :
    (clearTimeout p t).logPatterns = p.logPatterns := rfl

/-- The records left by the loop of `cleanupConsolidationTimers`: those whose
key the loop does not meet or does not belong to the stream, in their order. -/
theorem cleanupLoop_logPatterns (streamKey : String) (keys : List String) :
    ∀ p : LogProcessor, (cleanupLoop streamKey keys p).logPatterns =
      p.logPatterns.filter (fun e => !(decide (e.1 ∈ keys) && belongsTo streamKey e.1)) := by
  induction keys with
  | nil => intro p; simp [cleanupLoop]
  | cons k ks ih =>
    intro p
    simp only [cleanupLoop]
    cases hget : mapGet p.logPatterns k with
    | none =>
      simp only []
      rw [ih]
      apply List.filter_congr
      intro e he
      have hne : e.1 ≠ k := (mapGet_none_iff p.logPatterns k).mp hget e he
      simp [hne]
    | some pd =>
      simp only []
      by_cases hb : belongsTo streamKey k = true
      · rw [if_pos hb, ih]
        have hgoal : List.filter (fun e => !(decide (e.1 ∈ ks) && belongsTo streamKey e.1))
            (mapDelete p.logPatterns k) =
            List.filter (fun e => !(decide (e.1 ∈ k :: ks) && belongsTo streamKey e.1))
              p.logPatterns := by
          rw [mapDelete, List.filter_filter]
          apply List.filter_congr
          intro e _
          by_cases hek : e.1 = k
          · simp [hek, hb]
          · simp [hek]
        cases pd.stoppedTimer <;> cases pd.consolidationTimer <;> exact hgoal
      · rw [if_neg hb, ih]
        apply List.filter_congr
        intro e _
        by_cases hek : e.1 = k
        · have hbf : belongsTo streamKey e.1 = false := by
            rw [hek]; cases hh : belongsTo streamKey k with
            | false => rfl
            | true => exact absurd hh hb
          simp [hbf]
        · simp [hek]

/-- `cleanupConsolidationTimers` removes the records whose key starts with the
stream key and a colon, and keeps the others as they are, in their order. -/
theorem cleanup_logPatterns (p : LogProcessor) (streamKey : String) :
    (cleanupConsolidationTimers p streamKey).logPatterns =
      p.logPatterns.filter (fun e => !belongsTo streamKey e.1) := by
  rw [cleanupConsolidationTimers, cleanupLoop_logPatterns]
  apply List.filter_congr
  intro e he
  have : e.1 ∈ p.logPatterns.map Prod.fst := List.mem_map_of_mem _ he
  simp [this]

/-- A pending timer that no record of the stream holds stays pending through
the loop of `cleanupConsolidationTimers`. -/
theorem cleanupLoop_timer_kept (streamKey : String) (e : Nat × TimerTask) (keys : List String) :
    ∀ p : LogProcessor, e ∈ p.timers →
      (∀ key pd, mapGet p.logPatterns key = some pd → belongsTo streamKey key = true →
        pd.consolidationTimer ≠ some e.1 ∧ pd.stoppedTimer ≠ some e.1) →
      e ∈ (cleanupLoop streamKey keys p).timers := by
  induction keys with
  | nil => intro p he _; exact he
  | cons k ks ih =>
    intro p he hfree
    simp only [cleanupLoop]
    cases hget : mapGet p.logPatterns k with
    | none => exact ih p he hfree
    | some pd =>
      simp only []
      by_cases hb : belongsTo streamKey k = true
      · rw [if_pos hb]
        obtain ⟨h1, h2⟩ := hfree k pd hget hb
        have hfree' : ∀ key pd', mapGet (mapDelete p.logPatterns k) key = some pd' →
            belongsTo streamKey key = true →
            pd'.consolidationTimer ≠ some e.1 ∧ pd'.stoppedTimer ≠ some e.1 := by
          intro key pd' hg hbk
          have hne : key ≠ k := by
            intro hk
            rw [hk, mapGet_mapDelete_self] at hg
            cases hg
          rw [mapGet_mapDelete_ne p.logPatterns k key hne] at hg
          exact hfree key pd' hg hbk
        cases hs : pd.stoppedTimer with
        | none =>
          cases hc : pd.consolidationTimer with
          | none => exact ih _ he hfree'
          | some t =>
            exact ih _ ((mem_clearTimeout p t e).mpr ⟨he, fun hh => h1 (by rw [hc, hh])⟩) hfree'
        | some t' =>
          have ht' : e.1 ≠ t' := fun hh => h2 (by rw [hs, hh])
          cases hc : pd.consolidationTimer with
          | none => exact ih _ ((mem_clearTimeout p t' e).mpr ⟨he, ht'⟩) hfree'
          | some t =>
            exact ih _ ((mem_clearTimeout _ t' e).mpr
              ⟨(mem_clearTimeout p t e).mpr ⟨he, fun hh => h1 (by rw [hc, hh])⟩, ht'⟩) hfree'
      · rw [if_neg hb]
        exact ih p he hfree

theorem stopStreaming_logPatterns (h : Host) (p : LogProcessor) (streamKey : String)
    (w : LogStream) (hw : mapGet p.activeStreams streamKey = some w) :
    (stopStreaming h p streamKey).logPatterns =
      p.logPatterns.filter (fun e => !belongsTo streamKey e.1) := by
  simp only [stopStreaming, hw, stopStreamingWork]
  rw [cleanup_logPatterns]
  have hs : ∀ q : LogProcessor, ∀ ls, (sendLogBuffer h q streamKey ls).logPatterns
      = q.logPatterns := by
    intro q ls
    unfold sendLogBuffer
    split_ifs <;> simp [dateNow]
  split_ifs <;> (try rw [hs]) <;> cases w.interval <;> rfl

end Isolation

/-- C30. For stream keys `a` and `b` without a colon, `a` different from `b`:
no key of a record of `a` is the key of a record of `b`;
`cleanupConsolidationTimers(a)` keeps exactly the records whose key does not
start with `a` and a colon, so it removes every record of `a` and keeps every
record of `b` as it is (pattern, count, flags, `lastSeen`, timer handles); a
pending timer of a record of `b` stays pending, handles being held by one
record only; and `stopStreaming(a)` leaves the same records. -/
theorem pattern_records_isolated (a b : String) (ha : ':' ∉ a.data) (hb : ':' ∉ b.data)
    (hab : a ≠ b) :
    (∀ pattern other, getPatternKey a pattern ≠ getPatternKey b other) ∧
    ∀ p : LogProcessor,
      (cleanupConsolidationTimers p a).logPatterns =
        p.logPatterns.filter (fun e => !belongsTo a e.1) ∧
      (∀ pattern, mapGet (cleanupConsolidationTimers p a).logPatterns (getPatternKey a pattern) =
        none) ∧
      (∀ pattern, mapGet (cleanupConsolidationTimers p a).logPatterns (getPatternKey b pattern) =
        mapGet p.logPatterns (getPatternKey b pattern)) ∧
      (∀ pattern pd e, mapGet p.logPatterns (getPatternKey b pattern) = some pd →
        e ∈ p.timers → (pd.consolidationTimer = some e.1 ∨ pd.stoppedTimer = some e.1) →
        (∀ key pd', mapGet p.logPatterns key = some pd' → belongsTo a key = true →
          pd'.consolidationTimer ≠ some e.1 ∧ pd'.stoppedTimer ≠ some e.1) →
        e ∈ (cleanupConsolidationTimers p a).timers) ∧
      ∀ (h : Host) (w : LogStream), mapGet p.activeStreams a = some w →
        ∀ pattern, mapGet (stopStreaming h p a).logPatterns (getPatternKey b pattern) =
          mapGet p.logPatterns (getPatternKey b pattern) := by
  refine ⟨fun pattern other heq => ?_, fun p => ⟨cleanup_logPatterns p a, fun pattern => ?_,
    fun pattern => ?_, fun pattern pd e _ he _ hfree => ?_, fun h w hw pattern => ?_⟩⟩
  · have hown := belongsTo_own a pattern
    rw [heq, belongsTo_other a b other ha hb hab] at hown
    cases hown
  · rw [cleanup_logPatterns, mapGet_filter_key (fun k => !belongsTo a k), belongsTo_own]
    rfl
  · rw [cleanup_logPatterns, mapGet_filter_key (fun k => !belongsTo a k),
      belongsTo_other a b pattern ha hb hab]
    rfl
  · exact cleanupLoop_timer_kept a e _ p he hfree
  · rw [stopStreaming_logPatterns h p a w hw, mapGet_filter_key (fun k => !belongsTo a k),
      belongsTo_other a b pattern ha hb hab]
    rfl

/-- C30 on the streams `s` and `t`, each with a consolidated record of the
pattern `ERROR: disk full`: stopping `s` leaves the one record of `t`, with
its count 10 and its consolidation timer 3 still pending. -/
theorem pattern_records_isolated_witness :
    twoStreamsFed.logPatterns.map Prod.fst = ["s:ERROR: disk full", "t:ERROR: disk full"] ∧
    (stopStreaming tickingHost twoStreamsFed "s").logPatterns.map
      (fun e => (e.1, e.2.count, e.2.isSuppressed, e.2.consolidationTimer)) =
      [("t:ERROR: disk full", 10, true, some 3)] ∧
    (stopStreaming tickingHost twoStreamsFed "s").timers =
      [(1, TimerTask.poll "t"), (3, TimerTask.consolidation "t:ERROR: disk full")] ∧
    mapGet (stopStreaming tickingHost twoStreamsFed "s").logPatterns
      (getPatternKey "t" "ERROR: disk full") =
      mapGet twoStreamsFed.logPatterns (getPatternKey "t" "ERROR: disk full") := by
  have hw := (pattern_records_isolated "s" "t" (by decide) (by decide) (by decide)).2 twoStreamsFed
  exact ⟨by decide, by decide, by decide,
    hw.2.2.2.2 tickingHost
      ⟨{}, (bufferOf twoStreamsFed "s"), 0, true, some 0⟩ (by decide) "ERROR: disk full"⟩

section Namespaces

theorem splitChars_ne_nil (sep : Char) : ∀ (s cur : List Char), splitChars sep cur s ≠ [] := by
  intro s
  induction s with
  | nil => intro cur; simp [splitChars]
  | cons c cs ih =>
    intro cur
    simp only [splitChars]
    split
    · simp
    · exact ih _

theorem joinItems_cons (item : List Char) (rest : List (List Char)) (hne : rest ≠ []) :
    joinItems (item :: rest) = item ++ ',' :: joinItems rest := by
  cases rest with
  | nil => exact absurd rfl hne
  | cons next more => rfl

/-- The pieces of `split(',')` joined by commas give the text back. -/
theorem joinItems_splitChars : ∀ (s cur : List Char),
    joinItems (splitChars ',' cur s) = cur.reverse ++ s := by
  intro s
  induction s with
  | nil => intro cur; simp [splitChars, joinItems]
  | cons c cs ih =>
    intro cur
    simp only [splitChars]
    by_cases hc : c = ','
    · rw [if_pos hc, joinItems_cons _ _ (splitChars_ne_nil ',' cs []), ih, hc]
      simp
    · rw [if_neg hc, ih]
      simp

/-- No piece of `split(',')` contains a comma. -/
theorem splitChars_free : ∀ (s cur : List Char), ',' ∉ cur →
    ∀ item ∈ splitChars ',' cur s, ',' ∉ item := by
  intro s
  induction s with
  | nil =>
    intro cur hcur item hi
    simp only [splitChars, List.mem_singleton] at hi
    rw [hi]; simpa using hcur
  | cons c cs ih =>
    intro cur hcur item hi
    simp only [splitChars] at hi
    by_cases hc : c = ','
    · rw [if_pos hc, List.mem_cons] at hi
      rcases hi with hi | hi
      · rw [hi]; simpa using hcur
      · exact ih [] (by simp) item hi
    · rw [if_neg hc] at hi
      refine ih (c :: cur) ?_ item hi
      intro hm
      rcases List.mem_cons.mp hm with hm | hm
      · exact hc hm.symm
      · exact hcur hm

theorem splitChars_item (item : List Char) (hfree : ',' ∉ item) :
    ∀ (cur rest : List Char),
      splitChars ',' cur (item ++ ',' :: rest) = (cur.reverse ++ item) :: splitChars ',' [] rest ∧
      splitChars ',' cur item = [cur.reverse ++ item] := by
  induction item with
  | nil => intro cur rest; simp [splitChars]
  | cons c cs ih =>
    intro cur rest
    have hc : c ≠ ',' := fun h => hfree (by rw [h]; exact List.mem_cons_self _ _)
    have ih' := ih (fun h => hfree (List.mem_cons_of_mem _ h)) (c :: cur) rest
    simp only [List.cons_append, splitChars, if_neg hc]
    constructor
    · have h1 := ih'.1
      simp only [List.reverse_cons, List.append_assoc, List.singleton_append] at h1
      exact h1
    · have h2 := ih'.2
      simp only [List.reverse_cons, List.append_assoc, List.singleton_append] at h2
      exact h2

/-- The pieces of `split(',')` are the only way to write a text as items
without comma joined by commas. -/
theorem splitChars_joinItems : ∀ (items : List (List Char)), items ≠ [] →
    (∀ item ∈ items, ',' ∉ item) → splitChars ',' [] (joinItems items) = items := by
  intro items
  induction items with
  | nil => intro h; exact absurd rfl h
  | cons item rest ih =>
    intro _ hfree
    have hi : ',' ∉ item := hfree item (List.mem_cons_self _ _)
    by_cases hr : rest = []
    · subst hr
      simp only [joinItems]
      rw [(splitChars_item item hi [] []).2]
      simp
    · rw [joinItems_cons item rest hr, (splitChars_item item hi [] (joinItems rest)).1,
        ih hr (fun i h => hfree i (List.mem_cons_of_mem _ h))]
      simp

theorem dropWhile_head_not (p : Char → Bool) : ∀ (l : List Char) (c : Char),
    (l.dropWhile p).head? = some c → p c = false := by
  intro l
  induction l with
  | nil => intro c h; simp at h
  | cons a l ih =>
    intro c h
    by_cases ha : p a = true
    · rw [List.dropWhile_cons_of_pos ha] at h; exact ih c h
    · rw [List.dropWhile_cons_of_neg ha] at h
      simp only [List.head?_cons, Option.some.injEq] at h
      rw [← h]; simpa using ha

theorem dropWhile_getLast (p : Char → Bool) : ∀ (l : List Char) (c : Char),
    (l.dropWhile p).getLast? = some c → l.getLast? = some c := by
  intro l
  induction l with
  | nil => intro c h; simp at h
  | cons a l ih =>
    intro c h
    by_cases ha : p a = true
    · rw [List.dropWhile_cons_of_pos ha] at h
      have hl := ih c h
      cases l with
      | nil => simp at hl
      | cons b l => rw [List.getLast?_cons_cons]; exact hl
    · rw [List.dropWhile_cons_of_neg ha] at h; exact h

/-- A trimmed text neither starts nor ends with white space. -/
theorem trimChars_ends (s : List Char) :
    (∀ c, (trimChars s).head? = some c → isJsSpace c = false) ∧
    (∀ c, (trimChars s).getLast? = some c → isJsSpace c = false) := by
  constructor
  · intro c hc
    simp only [trimChars, List.head?_reverse] at hc
    have h1 := dropWhile_getLast isJsSpace _ c hc
    rw [List.getLast?_reverse] at h1
    exact dropWhile_head_not isJsSpace s c h1
  · intro c hc
    simp only [trimChars, List.getLast?_reverse] at hc
    exact dropWhile_head_not isJsSpace _ c hc

end Namespaces

/-- C23, failing input. With `K8S_WATCH_ALL_NAMESPACES=false` and an empty
`K8S_NAMESPACES`, the configuration has `watchAllNamespaces = false` and an
empty list, and `isNamespaceWatched` answers true for `any-namespace`, where
the test suite expects false. With a list that is not empty the method is
membership in the list: on `production, staging` it answers true for these
two and false for `default` and `other`. -/
theorem empty_namespace_list_watches_all :
    overrideWithEnvVars {} { K8S_NAMESPACES := some "", K8S_WATCH_ALL_NAMESPACES := some "false" }
      = ⟨[], false⟩ ∧
    isNamespaceWatched ⟨[], false⟩ "any-namespace" = true ∧
    overrideWithEnvVars {}
      { K8S_NAMESPACES := some "production,staging", K8S_WATCH_ALL_NAMESPACES := some "false" }
      = ⟨["production", "staging"], false⟩ ∧
    isNamespaceWatched ⟨["production", "staging"], false⟩ "production" = true ∧
    isNamespaceWatched ⟨["production", "staging"], false⟩ "staging" = true ∧
    isNamespaceWatched ⟨["production", "staging"], false⟩ "default" = false ∧
    isNamespaceWatched ⟨["production", "staging"], false⟩ "other" = false ∧
    (∀ (config : KubernetesConfig) (namespace_ : String), config.watchAllNamespaces = false →
      config.namespaces ≠ [] →
      (isNamespaceWatched config namespace_ = true ↔ namespace_ ∈ config.namespaces)) ∧
    (∀ (config : KubernetesConfig) (namespace_ : String), config.watchAllNamespaces = false →
      config.namespaces = [] → isNamespaceWatched config namespace_ = true) := by
  refine ⟨by decide, by decide, by decide, by decide, by decide, by decide, by decide, ?_, ?_⟩
  · intro config ns hw hne
    have hl : config.namespaces.length ≠ 0 := fun h => hne (List.length_eq_zero.mp h)
    simp [isNamespaceWatched, hw, hl]
  · intro config ns hw he
    simp [isNamespaceWatched, hw, he]

/-- C24. For a `K8S_NAMESPACES` that is not empty, `K8S_WATCH_ALL_NAMESPACES`
not being set: the pieces that `split(',')` makes of the value are the one
way to write it as items without comma joined by commas; `namespaces` is the
list of these items, each trimmed, without the empty ones, in their order; no
element is empty, starts with white space or ends with white space; and
`watchAllNamespaces` is true exactly when that list is empty. -/
theorem namespaces_from_env (config : KubernetesConfig) (value : String) (hne : value ≠ "") :
    joinItems (splitChars ',' [] value.data) = value.data ∧
    (∀ items : List (List Char), items ≠ [] → (∀ item ∈ items, ',' ∉ item) →
      joinItems items = value.data →
      (overrideWithEnvVars config { K8S_NAMESPACES := some value }).namespaces =
        (items.map (fun item => trim ⟨item⟩)).filter (fun ns => ns.length > 0)) ∧
    (∀ ns ∈ (overrideWithEnvVars config { K8S_NAMESPACES := some value }).namespaces,
      ns ≠ "" ∧ (∀ c, ns.data.head? = some c → isJsSpace c = false) ∧
      (∀ c, ns.data.getLast? = some c → isJsSpace c = false)) ∧
    ((overrideWithEnvVars config { K8S_NAMESPACES := some value }).watchAllNamespaces = true ↔
      (overrideWithEnvVars config { K8S_NAMESPACES := some value }).namespaces = []) := by
  have hdef : overrideWithEnvVars config { K8S_NAMESPACES := some value } =
      ⟨((splitChars ',' [] value.data).map (fun item => trim ⟨item⟩)).filter
          (fun ns => ns.length > 0),
        (((splitChars ',' [] value.data).map (fun item => trim ⟨item⟩)).filter
          (fun ns => ns.length > 0)).length == 0⟩ := by
    simp [overrideWithEnvVars, hne]
  rw [hdef]
  refine ⟨by simpa using joinItems_splitChars value.data [], ?_, ?_, ?_⟩
  · intro items hi hfree hjoin
    rw [← hjoin, splitChars_joinItems items hi hfree]
  · intro ns hns
    simp only [List.mem_filter, List.mem_map, decide_eq_true_eq] at hns
    obtain ⟨⟨item, _, rfl⟩, hlen⟩ := hns
    refine ⟨?_, (trimChars_ends item).1, (trimChars_ends item).2⟩
    intro he
    rw [he] at hlen
    simp at hlen
  · simp [List.length_eq_zero]

/-- C24 on the values of the test suite: white space around the items, empty
items, and a value whose items are all blank. -/
theorem namespaces_from_env_witness :
    overrideWithEnvVars {} { K8S_NAMESPACES := some "  production , staging , monitoring  " } =
      ⟨["production", "staging", "monitoring"], false⟩ ∧
    overrideWithEnvVars {} { K8S_NAMESPACES := some "production,,staging,,monitoring" } =
      ⟨["production", "staging", "monitoring"], false⟩ ∧
    overrideWithEnvVars {} { K8S_NAMESPACES := some " , " } = ⟨[], true⟩ ∧
    (overrideWithEnvVars {} { K8S_NAMESPACES := some "production,,staging" }).namespaces =
      (["production".data, [], "staging".data].map (fun item => trim ⟨item⟩)).filter
        (fun ns => ns.length > 0) :=
  ⟨by decide, by decide, by decide,
    (namespaces_from_env {} "production,,staging" (by decide)).2.1
      ["production".data, [], "staging".data] (by decide) (by decide) (by decide)⟩

section Annotations

/-- When `slaking.enabled` is not `true` nothing is checked. -/
theorem validateAnnotationConfig_disabled (h : Host) (keys : AnnotationKeys)
    (annotations : List (String × String))
    (hen : getAnnotationValue annotations keys.enabled ≠ some "true") :
    validateAnnotationConfig h keys annotations = [] := by
  simp [validateAnnotationConfig, hen]

/-- When `slaking.enabled` is `true`, the list of errors is empty exactly when
each of the five checks of the code passes on the annotation that is present;
a number check passes when `isNaN` is false and the comparison of `parseInt`
with the bound is false, which includes a `parseInt` that is `NaN`. -/
theorem validateAnnotationConfig_nil_iff (h : Host) (keys : AnnotationKeys)
    (annotations : List (String × String))
    (hen : getAnnotationValue annotations keys.enabled = some "true") :
    validateAnnotationConfig h keys annotations = [] ↔
      (∀ channel, present (getAnnotationValue annotations keys.channel) = some channel →
        "#".data.isPrefixOf channel.data = true) ∧
      (∀ filters, present (getAnnotationValue annotations keys.filters) = some filters →
        (h.regExp filters "").isSome = true) ∧
      (∀ level, present (getAnnotationValue annotations keys.level) = some level →
        level ∈ levelOrder) ∧
      (∀ maxLines, present (getAnnotationValue annotations keys.maxLines) = some maxLines →
        isNaN maxLines = false ∧ lessThan (parseInt maxLines) 1 = false) ∧
      (∀ cooldown, present (getAnnotationValue annotations keys.cooldown) = some cooldown →
        isNaN cooldown = false ∧ lessThan (parseInt cooldown) 0 = false) := by
  simp only [validateAnnotationConfig, hen, if_true, List.append_eq_nil, levelOrder]
  cases present (getAnnotationValue annotations keys.channel) <;>
  cases present (getAnnotationValue annotations keys.filters) <;>
  cases present (getAnnotationValue annotations keys.level) <;>
  cases present (getAnnotationValue annotations keys.maxLines) <;>
  cases present (getAnnotationValue annotations keys.cooldown) <;>
  simp [and_assoc, Option.isSome_iff_ne_none]
  all_goals tauto

end Annotations

/-- C25, failing input. With `slaking.enabled: 'true'` and
`slaking.max-lines: '.5'` the list of errors is empty: `isNaN('.5')` is false
and `parseInt('.5')` is `NaN`, which is not below 1. The same number written
`0.5` is refused, as is `0`; a blank value and `Infinity` are accepted too.
The annotations of the two tests of the suite give no error and five
errors. -/
theorem fraction_accepted_as_max_lines :
    validateAnnotationConfig filterHost {}
      [("slaking.enabled", "true"), ("slaking.max-lines", ".5")] = [] ∧
    isNaN ".5" = false ∧ parseInt ".5" = none ∧
    validateAnnotationConfig filterHost {}
      [("slaking.enabled", "true"), ("slaking.max-lines", "0.5")] =
      ["Max lines must be a positive number"] ∧
    validateAnnotationConfig filterHost {}
      [("slaking.enabled", "true"), ("slaking.max-lines", "0")] =
      ["Max lines must be a positive number"] ∧
    validateAnnotationConfig filterHost {}
      [("slaking.enabled", "true"), ("slaking.max-lines", " ")] = [] ∧
    validateAnnotationConfig filterHost {}
      [("slaking.enabled", "true"), ("slaking.max-lines", "Infinity")] = [] ∧
    validateAnnotationConfig filterHost {} validAnnotations = [] ∧
    validateAnnotationConfig filterHost {} invalidAnnotations =
      ["Channel must start with #", "Invalid filter regex pattern",
       "Invalid log level. Must be debug, info, warn, or error",
       "Max lines must be a positive number", "Cooldown must be a non-negative number"] := by
  decide

section Drain

variable {μ : Type}

theorem attemptBudget_pos (retryCount : Option Nat) : 1 ≤ attemptBudget retryCount := by
  cases retryCount <;> simp [attemptBudget]

theorem attemptBudget_next (retryCount : Option Nat)
    (hb : belowRetryCeiling retryCount = true) :
    attemptBudget (some (nextRetryCount retryCount)) + 1 = attemptBudget retryCount := by
  cases retryCount with
  | none => simp [belowRetryCeiling] at hb
  | some n =>
    simp only [belowRetryCeiling, decide_eq_true_eq] at hb
    simp only [attemptBudget, nextRetryCount]
    omega

theorem attemptBudget_last (retryCount : Option Nat)
    (hb : belowRetryCeiling retryCount = false) : attemptBudget retryCount = 1 := by
  cases retryCount with
  | none => rfl
  | some n =>
    simp only [belowRetryCeiling, decide_eq_false_iff_not] at hb
    simp only [attemptBudget]
    omega

theorem attemptBudget_le_four (retryCount : Option Nat) : attemptBudget retryCount ≤ 4 := by
  cases retryCount with
  | none => simp [attemptBudget]
  | some n =>
    simp only [attemptBudget]
    omega

theorem queueBudget_append (a b : List (QueueItem μ)) :
    queueBudget (a ++ b) = queueBudget a + queueBudget b := by
  simp [queueBudget]

theorem queueBudget_cons (i : QueueItem μ) (l : List (QueueItem μ)) :
    queueBudget (i :: l) = attemptBudget i.retryCount + queueBudget l := by
  simp [queueBudget]

theorem cntArgs_snoc (test : String × μ × Config → Bool) (l : List (QueueItem μ))
    (i : QueueItem μ) :
    cntArgs test (l ++ [i]) = cntArgs test l + (if test i.args then 1 else 0) := by
  simp only [cntArgs, List.filter_append, List.length_append]
  by_cases ht : test i.args = true <;> simp [List.filter, ht]

theorem cntArgs_cons (test : String × μ × Config → Bool) (l : List (QueueItem μ))
    (i : QueueItem μ) :
    cntArgs test (i :: l) = (if test i.args then 1 else 0) + cntArgs test l := by
  by_cases ht : test i.args = true <;> simp [cntArgs, List.filter, ht, Nat.add_comm]

theorem budgetArgs_snoc (test : String × μ × Config → Bool) (l : List (QueueItem μ))
    (i : QueueItem μ) :
    budgetArgs test (l ++ [i]) =
      budgetArgs test l + (if test i.args then attemptBudget i.retryCount else 0) := by
  simp only [budgetArgs, List.filter_append, queueBudget_append]
  by_cases ht : test i.args = true <;> simp [List.filter, ht, queueBudget]

theorem budgetArgs_cons (test : String × μ × Config → Bool) (l : List (QueueItem μ))
    (i : QueueItem μ) :
    budgetArgs test (i :: l) =
      (if test i.args then attemptBudget i.retryCount else 0) + budgetArgs test l := by
  by_cases ht : test i.args = true <;> simp [budgetArgs, List.filter, ht, queueBudget]

/-- A turn of the loop taken from its head. -/
theorem loopHead_spec (test : String × μ × Config → Bool) (s : SlackService μ)
    (h1 : s.inFlight = none) (h2 : s.waiting = false) (h3 : s.isProcessingQueue = true) :
    LoopShape (loopHead s) ∧
    potential (loopHead s) = 2 * queueBudget s.messageQueue ∧
    upperArgs test (loopHead s) = cntArgs test s.attempts + budgetArgs test s.messageQueue ∧
    lowerArgs test (loopHead s) = lowerArgs test s := by
  cases hq : s.messageQueue with
  | nil =>
    refine ⟨Or.inr (Or.inr ?_), ?_, ?_, ?_⟩
    · simp [Ended, loopHead, hq, h1, h2]
    · simp [potential, loopHead, hq, h1, h2, queueBudget]
    · simp [upperArgs, loopHead, hq, h1]
    · simp [lowerArgs, loopHead, hq]
  | cons j rest =>
    have hj := attemptBudget_pos j.retryCount
    refine ⟨Or.inl ?_, ?_, ?_, ?_⟩
    · simp [loopHead, hq, h2, h3]
    · simp only [potential, loopHead, hq, h2, queueBudget_cons]
      simp only [Bool.false_eq_true, if_false]
      omega
    · simp only [upperArgs, loopHead, hq, cntArgs_snoc, budgetArgs_cons]
      by_cases ht : test j.args = true
      · simp only [ht, if_true]; omega
      · simp only [ht, Bool.false_eq_true, if_false]; omega
    · simp only [lowerArgs, loopHead, hq, cntArgs_snoc, cntArgs_cons]
      omega

/-- One step of a loop that receives no message: the loop stays in one of its
three states; it has ended, and the step changes nothing, or its potential
goes down; the attempts made and still possible on the items of a kind do not
grow, and the attempts made and the items of the kind still queued do not
shrink. -/
theorem advance_spec (h : Host) (outcome : Nat → Bool) (test : String × μ × Config → Bool)
    (s : SlackService μ) (hs : LoopShape s) :
    LoopShape (advance h outcome s) ∧
    ((Ended s ∧ advance h outcome s = s) ∨ potential (advance h outcome s) < potential s) ∧
    upperArgs test (advance h outcome s) ≤ upperArgs test s ∧
    lowerArgs test s ≤ lowerArgs test (advance h outcome s) := by
  rcases hs with ⟨hf, hw, hp⟩ | ⟨hf, hw, hp⟩ | ⟨hf, hw, hp, hq⟩
  · cases hfi : s.inFlight with
    | none => rw [hfi] at hf; cases hf
    | some i =>
      have hi := attemptBudget_pos i.retryCount
      simp only [advance, hfi, sinkResult]
      cases outcome (s.attempts.length - 1) with
      | true =>
        simp only [if_true]
        refine ⟨Or.inr (Or.inl ⟨rfl, rfl, hp⟩), Or.inr ?_, ?_, ?_⟩
        · simp only [potential, hfi, hw, Bool.false_eq_true, if_false, if_true]
          omega
        · simp only [upperArgs, hfi]
          omega
        · simp only [lowerArgs]
          omega
      | false =>
        simp only [Bool.false_eq_true, if_false]
        by_cases hb : belowRetryCeiling i.retryCount = true
        · rw [if_pos hb]
          have hn := attemptBudget_next i.retryCount hb
          obtain ⟨g1, g2, g3, g4⟩ := loopHead_spec test
            { s with inFlight := none, reads := s.reads + 1,
                     messageQueue := s.messageQueue ++
                       [{ i with retryCount := some (nextRetryCount i.retryCount),
                                 timestamp := h.clock s.reads +
                                   nextRetryCount i.retryCount * 5000 }] } rfl hw hp
          refine ⟨g1, Or.inr ?_, ?_, ?_⟩
          · rw [g2]
            simp only [potential, hfi, hw, Bool.false_eq_true, if_false, queueBudget_append,
              queueBudget_cons]
            simp only [queueBudget, List.map_nil, List.sum_nil]
            omega
          · rw [g3]
            simp only [upperArgs, hfi, budgetArgs_snoc, QueueItem.args]
            by_cases ht : test (i.channel, i.message, i.config) = true
            · simp only [ht, if_true]; omega
            · simp only [ht, Bool.false_eq_true, if_false]; omega
          · rw [g4]
            simp only [lowerArgs, cntArgs_snoc]
            omega
        · rw [if_neg hb]
          have hb' : belowRetryCeiling i.retryCount = false := by
            cases hh : belowRetryCeiling i.retryCount with
            | false => rfl
            | true => exact absurd hh hb
          have hl := attemptBudget_last i.retryCount hb'
          obtain ⟨g1, g2, g3, g4⟩ := loopHead_spec test { s with inFlight := none } rfl hw hp
          refine ⟨g1, Or.inr ?_, ?_, ?_⟩
          · rw [g2]
            simp only [potential, hfi, hw, Bool.false_eq_true, if_false]
            omega
          · rw [g3]
            simp only [upperArgs, hfi]
            omega
          · rw [g4]
            simp only [lowerArgs]
            omega
  · have hadv : advance h outcome s = loopHead { s with waiting := false } := by
      simp only [advance, hf, delayDone, hw, if_true]
    rw [hadv]
    obtain ⟨g1, g2, g3, g4⟩ := loopHead_spec test { s with waiting := false } hf rfl hp
    refine ⟨g1, Or.inr ?_, ?_, ?_⟩
    · rw [g2]
      simp only [potential, hf, hw, if_true]
      omega
    · rw [g3]
      simp only [upperArgs, hf]
      omega
    · rw [g4]
      simp only [lowerArgs]
      omega
  · have hsame : advance h outcome s = s := by
      simp [advance, hf, delayDone, hw]
    rw [hsame]
    exact ⟨Or.inr (Or.inr ⟨hf, hw, hp, hq⟩), Or.inl ⟨⟨hf, hw, hp, hq⟩, rfl⟩, le_refl _, le_refl _⟩

theorem runLoop_ended (h : Host) (outcome : Nat → Bool) (s : SlackService μ) (he : Ended s) :
    ∀ n, runLoop h outcome n s = s := by
  intro n
  induction n with
  | zero => rfl
  | succ n ih =>
    have hsame : advance h outcome s = s := by
      obtain ⟨hf, hw, _, _⟩ := he
      simp [advance, hf, delayDone, hw]
    simp only [runLoop, hsame, ih]

/-- Steps of the loop, as many as its potential or more: the loop has ended,
and the two counts are bounded by their values at the start. -/
theorem runLoop_spec (h : Host) (outcome : Nat → Bool) (test : String × μ × Config → Bool) :
    ∀ (n : Nat) (s : SlackService μ), LoopShape s → potential s ≤ n →
      Ended (runLoop h outcome n s) ∧
      upperArgs test (runLoop h outcome n s) ≤ upperArgs test s ∧
      lowerArgs test s ≤ lowerArgs test (runLoop h outcome n s) := by
  intro n
  induction n with
  | zero =>
    intro s hs hp
    refine ⟨?_, le_refl _, le_refl _⟩
    rcases hs with ⟨hf, _, _⟩ | ⟨_, hw, _⟩ | he
    · cases hfi : s.inFlight with
      | none => rw [hfi] at hf; cases hf
      | some i =>
        have := attemptBudget_pos i.retryCount
        simp only [potential, hfi] at hp
        omega
    · simp only [potential, hw, if_true] at hp
      omega
    · exact he
  | succ n ih =>
    intro s hs hp
    obtain ⟨a1, a2, a3, a4⟩ := advance_spec h outcome test s hs
    simp only [runLoop]
    rcases a2 with ⟨he, hsame⟩ | hlt
    · rw [hsame, runLoop_ended h outcome s he]
      exact ⟨he, le_refl _, le_refl _⟩
    · obtain ⟨b1, b2, b3⟩ := ih (advance h outcome s) a1 (by omega)
      exact ⟨b1, le_trans b2 a3, le_trans a4 b3⟩

/-- The call `processMessageQueue()` on an idle service that holds a queue. -/
theorem processMessageQueue_spec (test : String × μ × Config → Bool)
    (items : List (QueueItem μ)) :
    LoopShape (processMessageQueue (queued items)) ∧
    potential (processMessageQueue (queued items)) ≤ 2 * queueBudget items ∧
    upperArgs test (processMessageQueue (queued items)) = budgetArgs test items ∧
    lowerArgs test (processMessageQueue (queued items)) = cntArgs test items := by
  cases items with
  | nil =>
    refine ⟨Or.inr (Or.inr ?_), ?_, ?_, ?_⟩
    · simp [Ended, processMessageQueue, queued]
    · simp [potential, processMessageQueue, queued, queueBudget]
    · simp [upperArgs, processMessageQueue, queued, cntArgs, budgetArgs, queueBudget]
    · simp [lowerArgs, processMessageQueue, queued, cntArgs]
  | cons j rest =>
    have hstart : processMessageQueue (queued (j :: rest)) =
        loopHead { queued (j :: rest) with isProcessingQueue := true } := by
      simp [processMessageQueue, queued]
    obtain ⟨g1, g2, g3, g4⟩ := loopHead_spec test
      { queued (j :: rest) with isProcessingQueue := true } rfl rfl rfl
    rw [hstart]
    refine ⟨g1, by rw [g2]; exact le_refl _, ?_, ?_⟩
    · rw [g3]; simp [queued, cntArgs]
    · rw [g4]; simp [lowerArgs, queued, cntArgs]

theorem budgetArgs_le (test : String × μ × Config → Bool) (bound : Nat) :
    ∀ items : List (QueueItem μ),
      (∀ i ∈ items, test i.args = true → attemptBudget i.retryCount ≤ bound) →
      budgetArgs test items ≤ bound * cntArgs test items := by
  intro items
  induction items with
  | nil => intro _; simp [budgetArgs, cntArgs, queueBudget]
  | cons i rest ih =>
    intro hb
    have hr := ih (fun k hk => hb k (List.mem_cons_of_mem _ hk))
    rw [budgetArgs_cons, cntArgs_cons]
    by_cases ht : test i.args = true
    · have := hb i (List.mem_cons_self _ _) ht
      simp only [ht, if_true]
      rw [Nat.mul_add]
      omega
    · simp only [ht, Bool.false_eq_true, if_false, Nat.zero_add]
      exact hr

theorem budgetArgs_fresh (test : String × μ × Config → Bool) :
    ∀ items : List (QueueItem μ),
      (∀ i ∈ items, test i.args = true → i.retryCount = none) →
      budgetArgs test items = cntArgs test items := by
  intro items
  induction items with
  | nil => intro _; simp [budgetArgs, cntArgs, queueBudget]
  | cons i rest ih =>
    intro hb
    have hr := ih (fun k hk => hb k (List.mem_cons_of_mem _ hk))
    rw [budgetArgs_cons, cntArgs_cons, hr]
    by_cases ht : test i.args = true
    · have := hb i (List.mem_cons_self _ _) ht
      simp [ht, this, attemptBudget]
    · simp [ht]

end Drain

section Marked

variable {μ ν : Type}

theorem loopHead_mapMessage (f : μ → ν) (s : SlackService μ) :
    loopHead (s.mapMessage f) = (loopHead s).mapMessage f := by
  cases hq : s.messageQueue with
  | nil => simp [loopHead, SlackService.mapMessage, hq]
  | cons i rest => simp [loopHead, SlackService.mapMessage, hq]

theorem sinkResult_mapMessage (h : Host) (f : μ → ν) (s : SlackService μ) (ok : Bool) :
    sinkResult h (s.mapMessage f) ok = (sinkResult h s ok).mapMessage f := by
  cases hf : s.inFlight with
  | none => simp [sinkResult, SlackService.mapMessage, hf]
  | some i =>
    cases ok with
    | true => simp [sinkResult, SlackService.mapMessage, hf]
    | false =>
      by_cases hb : belowRetryCeiling i.retryCount = true
      · have h1 : sinkResult h s false =
            loopHead { s with inFlight := none, reads := s.reads + 1,
                              messageQueue := s.messageQueue ++
                                [{ i with retryCount := some (nextRetryCount i.retryCount),
                                          timestamp := h.clock s.reads +
                                            nextRetryCount i.retryCount * 5000 }] } := by
          simp [sinkResult, hf, hb]
        have h2 : sinkResult h (s.mapMessage f) false =
            loopHead (SlackService.mapMessage f
              { s with inFlight := none, reads := s.reads + 1,
                       messageQueue := s.messageQueue ++
                         [{ i with retryCount := some (nextRetryCount i.retryCount),
                                   timestamp := h.clock s.reads +
                                     nextRetryCount i.retryCount * 5000 }] }) := by
          simp [sinkResult, SlackService.mapMessage, hf, hb, QueueItem.mapMessage]
        rw [h1, h2, loopHead_mapMessage]
      · have h1 : sinkResult h s false = loopHead { s with inFlight := none } := by
          simp [sinkResult, hf, hb]
        have h2 : sinkResult h (s.mapMessage f) false =
            loopHead (SlackService.mapMessage f { s with inFlight := none }) := by
          simp [sinkResult, SlackService.mapMessage, hf, hb, QueueItem.mapMessage]
        rw [h1, h2, loopHead_mapMessage]

theorem delayDone_mapMessage (f : μ → ν) (s : SlackService μ) :
    delayDone (s.mapMessage f) = (delayDone s).mapMessage f := by
  by_cases hw : s.waiting = true
  · have h1 : delayDone s = loopHead { s with waiting := false } := by simp [delayDone, hw]
    have h2 : delayDone (s.mapMessage f) =
        loopHead (SlackService.mapMessage f { s with waiting := false }) := by
      simp [delayDone, SlackService.mapMessage, hw]
    rw [h1, h2, loopHead_mapMessage]
  · simp [delayDone, SlackService.mapMessage, hw]

theorem advance_mapMessage (h : Host) (outcome : Nat → Bool) (f : μ → ν) (s : SlackService μ) :
    advance h outcome (s.mapMessage f) = (advance h outcome s).mapMessage f := by
  cases hf : s.inFlight with
  | none =>
    have h1 : advance h outcome s = delayDone s := by simp [advance, hf]
    have h2 : advance h outcome (s.mapMessage f) = delayDone (s.mapMessage f) := by
      simp [advance, SlackService.mapMessage, hf]
    rw [h1, h2, delayDone_mapMessage]
  | some i =>
    have h1 : advance h outcome s = sinkResult h s (outcome (s.attempts.length - 1)) := by
      simp [advance, hf]
    have h2 : advance h outcome (s.mapMessage f) =
        sinkResult h (s.mapMessage f) (outcome (s.attempts.length - 1)) := by
      simp [advance, SlackService.mapMessage, hf]
    rw [h1, h2, sinkResult_mapMessage]

theorem runLoop_mapMessage (h : Host) (outcome : Nat → Bool) (f : μ → ν) :
    ∀ (n : Nat) (s : SlackService μ),
      runLoop h outcome n (s.mapMessage f) = (runLoop h outcome n s).mapMessage f := by
  intro n
  induction n with
  | zero => intro s; rfl
  | succ n ih => intro s; simp only [runLoop, advance_mapMessage, ih]

theorem processMessageQueue_mapMessage (f : μ → ν) (s : SlackService μ) :
    processMessageQueue (s.mapMessage f) = (processMessageQueue s).mapMessage f := by
  by_cases hc : (s.isProcessingQueue || decide (s.messageQueue.length = 0)) = true
  · have h1 : processMessageQueue s = s := by simp only [processMessageQueue, hc, if_true]
    have hc' : ((s.mapMessage f).isProcessingQueue ||
        decide ((s.mapMessage f).messageQueue.length = 0)) = true := by
      simpa [SlackService.mapMessage] using hc
    have h2 : processMessageQueue (s.mapMessage f) = s.mapMessage f := by
      simp only [processMessageQueue, hc', if_true]
    rw [h1, h2]
  · have h1 : processMessageQueue s = loopHead { s with isProcessingQueue := true } := by
      simp [processMessageQueue, hc]
    have hc' : ¬ ((s.mapMessage f).isProcessingQueue ||
        decide ((s.mapMessage f).messageQueue.length = 0)) = true := by
      simpa [SlackService.mapMessage] using hc
    have h2 : processMessageQueue (s.mapMessage f) =
        loopHead (SlackService.mapMessage f { s with isProcessingQueue := true }) := by
      simp only [processMessageQueue, hc']
      rfl
    rw [h1, h2, loopHead_mapMessage]

theorem queueBudget_mapMessage (f : μ → ν) (items : List (QueueItem μ)) :
    queueBudget (items.map (QueueItem.mapMessage f)) = queueBudget items := by
  simp [queueBudget, QueueItem.mapMessage, Function.comp_def]

/-- A run does not depend on the messages that the items carry: replacing
them in the queue replaces them in the result. -/
theorem drained_mapMessage (h : Host) (outcome : Nat → Bool) (f : μ → ν)
    (items : List (QueueItem μ)) :
    drained h outcome (items.map (QueueItem.mapMessage f)) =
      (drained h outcome items).mapMessage f := by
  have hq : queued (items.map (QueueItem.mapMessage f)) = (queued items).mapMessage f := by
    simp [queued, SlackService.mapMessage]
  simp only [drained, queueBudget_mapMessage, hq, processMessageQueue_mapMessage,
    runLoop_mapMessage]

theorem numberedFrom_unmark (items : List (QueueItem μ)) :
    ∀ k, (numberedFrom k items).map (QueueItem.mapMessage Prod.snd) = items := by
  induction items with
  | nil => intro k; rfl
  | cons i rest ih =>
    intro k
    simp only [numberedFrom, List.map_cons, ih]
    rfl

theorem mem_numberedFrom (items : List (QueueItem μ)) :
    ∀ (k : Nat) (j : QueueItem (Nat × μ)), j ∈ numberedFrom k items →
      ∃ n i, items.get? n = some i ∧ j.message.1 = k + n ∧ j.retryCount = i.retryCount := by
  induction items with
  | nil => intro k j hj; simp [numberedFrom] at hj
  | cons i rest ih =>
    intro k j hj
    simp only [numberedFrom, List.mem_cons] at hj
    rcases hj with rfl | hj
    · exact ⟨0, i, rfl, rfl, rfl⟩
    · obtain ⟨n, i', h1, h2, h3⟩ := ih (k + 1) j hj
      exact ⟨n + 1, i', by simpa using h1, by omega, h3⟩

theorem cntArgs_numberedFrom (items : List (QueueItem μ)) :
    ∀ k m, cntArgs (fun a => a.2.1.1 == m) (numberedFrom k items) =
      if k ≤ m ∧ m < k + items.length then 1 else 0 := by
  induction items with
  | nil =>
    intro k m
    have hno : ¬ (k ≤ m ∧ m < k + ([] : List (QueueItem μ)).length) := by
      simp only [List.length_nil]; omega
    rw [if_neg hno]
    rfl
  | cons i rest ih =>
    intro k m
    simp only [numberedFrom, cntArgs_cons, ih, QueueItem.args, QueueItem.mapMessage,
      List.length_cons]
    by_cases hk : k = m
    · subst hk
      simp
    · have hb : (k == m) = false := by simpa using hk
      simp only [hb, Bool.false_eq_true, if_false, Nat.zero_add]
      by_cases h1 : k + 1 ≤ m ∧ m < k + 1 + rest.length
      · rw [if_pos h1, if_pos (by omega)]
      · rw [if_neg h1, if_neg (by omega)]

end Marked

/-- C28. `processMessageQueue` on a finite queue, whatever `retryCount` its
items carry (none, or a count) and whatever the outcome of each send, no
message being enqueued meanwhile, terminates: after at most twice as many
steps as the items can get attempts the loop has ended, with an empty queue,
`isProcessingQueue` false, nothing in flight, and further steps change
nothing. Item by item, the items being told apart by a mark of their position
that the run ignores: the item at each position is attempted at least once and
at most 4 times, and exactly once when it is without `retryCount`, as
`sendMessage` builds it; no attempt is made on anything else, and the attempts
are no more than 4 times the items. The same holds for every kind of item (a
test on channel, message and configuration). -/
theorem queue_loop_terminates {μ : Type} (h : Host) (outcome : Nat → Bool)
    (items : List (QueueItem μ)) :
    (drained h outcome items).messageQueue = [] ∧
    (drained h outcome items).isProcessingQueue = false ∧
    (drained h outcome items).inFlight = none ∧
    (drained h outcome items).waiting = false ∧
    (∀ n, runLoop h outcome n (drained h outcome items) = drained h outcome items) ∧
    (drained h outcome (numbered items)).attempts.map (QueueItem.mapMessage Prod.snd) =
      (drained h outcome items).attempts ∧
    (∀ k, k < items.length →
      1 ≤ attemptsOn h outcome items k ∧ attemptsOn h outcome items k ≤ 4) ∧
    (∀ k i, items.get? k = some i → i.retryCount = none → attemptsOn h outcome items k = 1) ∧
    (∀ k, items.length ≤ k → attemptsOn h outcome items k = 0) ∧
    (drained h outcome items).attempts.length ≤ 4 * items.length ∧
    ∀ test : String × μ × Config → Bool,
      cntArgs test items ≤ cntArgs test (drained h outcome items).attempts ∧
      cntArgs test (drained h outcome items).attempts ≤ 4 * cntArgs test items ∧
      ((∀ i ∈ items, test i.args = true → i.retryCount = none) →
        cntArgs test (drained h outcome items).attempts = cntArgs test items) := by
  have hrun : ∀ {ν : Type} (queue : List (QueueItem ν)) (test : String × ν × Config → Bool),
      Ended (drained h outcome queue) ∧
      cntArgs test queue ≤ cntArgs test (drained h outcome queue).attempts ∧
      cntArgs test (drained h outcome queue).attempts ≤ budgetArgs test queue := by
    intro ν queue test
    obtain ⟨p1, p2, p3, p4⟩ := processMessageQueue_spec test queue
    obtain ⟨r1, r2, r3⟩ := runLoop_spec h outcome test (2 * queueBudget queue)
      (processMessageQueue (queued queue)) p1 p2
    have he := r1
    obtain ⟨e1, _, _, e4⟩ := r1
    refine ⟨he, ?_, ?_⟩
    · rw [p4] at r3
      simp only [lowerArgs, e4] at r3
      simpa [drained, cntArgs] using r3
    · rw [p3] at r2
      simp only [upperArgs, e1, e4] at r2
      have : cntArgs test (runLoop h outcome (2 * queueBudget queue)
          (processMessageQueue (queued queue))).attempts ≤ budgetArgs test queue := by
        have hz : budgetArgs test ([] : List (QueueItem ν)) = 0 := by
          simp [budgetArgs, queueBudget]
        rw [hz] at r2
        omega
      exact this
  have hkind : ∀ {ν : Type} (queue : List (QueueItem ν)) (test : String × ν × Config → Bool),
      cntArgs test queue ≤ cntArgs test (drained h outcome queue).attempts ∧
      cntArgs test (drained h outcome queue).attempts ≤ 4 * cntArgs test queue ∧
      ((∀ i ∈ queue, test i.args = true → i.retryCount = none) →
        cntArgs test (drained h outcome queue).attempts = cntArgs test queue) := by
    intro ν queue test
    obtain ⟨_, l1, l2⟩ := hrun queue test
    refine ⟨l1, ?_, fun hf => ?_⟩
    · exact le_trans l2 (budgetArgs_le test 4 queue
        (fun i _ _ => attemptBudget_le_four i.retryCount))
    · rw [budgetArgs_fresh test queue hf] at l2
      exact le_antisymm l2 l1
  obtain ⟨⟨e1, e2, e3, e4⟩, _, _⟩ := hrun items (fun _ => true)
  have hcount : ∀ k, cntArgs (fun a => a.2.1.1 == k) (numbered items) =
      if k < items.length then 1 else 0 := by
    intro k
    have := cntArgs_numberedFrom items 0 k
    simpa [numbered] using this
  refine ⟨e4, e3, e1, e2, runLoop_ended h outcome _ ⟨e1, e2, e3, e4⟩, ?_, ?_, ?_, ?_, ?_,
    fun test => hkind items test⟩
  · have hd := drained_mapMessage h outcome (Prod.snd : Nat × μ → μ) (numbered items)
    rw [numbered, numberedFrom_unmark items 0] at hd
    rw [numbered, hd]
    rfl
  · intro k hk
    obtain ⟨l1, l2, _⟩ := hkind (numbered items) (fun a => a.2.1.1 == k)
    rw [hcount k, if_pos hk] at l1 l2
    exact ⟨l1, l2⟩
  · intro k i hi hn
    obtain ⟨_, _, l3⟩ := hkind (numbered items) (fun a => a.2.1.1 == k)
    have hk : k < items.length := by
      rcases Nat.lt_or_ge k items.length with hlt | hge
      · exact hlt
      · rw [List.get?_eq_none.mpr hge] at hi; cases hi
    have := l3 (by
      intro j hj ht
      obtain ⟨n, i', h1, h2, h3⟩ := mem_numberedFrom items 0 j hj
      have hjk : j.message.1 = k := by simpa [QueueItem.args] using ht
      have hnk : n = k := by omega
      subst hnk
      rw [hi] at h1
      cases h1
      rw [h3, hn])
    rw [hcount k, if_pos hk] at this
    exact this
  · intro k hk
    obtain ⟨_, l2, _⟩ := hkind (numbered items) (fun a => a.2.1.1 == k)
    rw [hcount k, if_neg (by omega)] at l2
    exact Nat.le_zero.mp l2
  · obtain ⟨_, l2, _⟩ := hkind items (fun _ => true)
    simpa [cntArgs] using l2

/-- C28 on a queue of three items, one without `retryCount`, one with 0 and
one with 2, every send failing: the first is attempted once, the second four
times, the third twice, and the loop ends with an empty queue. -/
theorem queue_loop_terminates_witness :
    (drained tickingHost (fun _ => false) mixedQueue).attempts.map (fun i => i.message) =
      ["fresh", "zero", "two", "zero", "two", "zero", "zero"] ∧
    (drained tickingHost (fun _ => false) mixedQueue).messageQueue = [] ∧
    (drained tickingHost (fun _ => false) mixedQueue).isProcessingQueue = false ∧
    attemptsOn tickingHost (fun _ => false) mixedQueue 0 = 1 ∧
    attemptsOn tickingHost (fun _ => false) mixedQueue 1 = 4 ∧
    attemptsOn tickingHost (fun _ => false) mixedQueue 2 = 2 ∧
    attemptsOn tickingHost (fun _ => true) mixedQueue 1 = 1 :=
  ⟨by decide, (queue_loop_terminates tickingHost (fun _ => false) mixedQueue).1,
    (queue_loop_terminates tickingHost (fun _ => false) mixedQueue).2.1,
    (queue_loop_terminates tickingHost (fun _ => false) mixedQueue).2.2.2.2.2.2.2.1 0
      ⟨"#a", "fresh", {}, 0, none⟩ rfl rfl,
    by decide, by decide, by decide⟩

end Slaking
